import Mathlib

set_option maxRecDepth 100000

/-!
Verification development for the geomedea container format (a
cloud-optimized binary container for geographic vector features).

The definitions below are a shallow embedding of the Rust sources:

  - geomedea/src/lib.rs            (bincode legacy fixint little-endian config,
                                    Header, serialize or deserialize helpers)
  - geomedea/src/bounds.rs         (Bounds)
  - geomedea/src/geometry/mod.rs   (LngLat, Geometry)
  - geomedea/src/geometry/bounded.rs
  - geomedea/src/feature.rs        (Feature, Properties, PropertyValue)
  - geomedea/src/format.rs         (FeatureLocation, PageHeader)
  - geomedea/src/writer/mod.rs     (Writer, FeatureWriter, page rollover)
  - geomedea/src/writer/hilbert.rs (hilbert, scaled_hilbert)
  - geomedea/src/packed_r_tree/mod.rs, writer.rs, reader.rs
  - geomedea/src/reader.rs         (Reader, PageReader, fast-forward)

Machine integers are modelled as Nat or Int with explicit reduction
modulo powers of two exactly where the machine width matters (casts,
wrapping arithmetic, on-disk encoding). Fallible operations return
Option or Except; a Rust panic or failed assertion is modelled as none.
-/

namespace Geomedea

/-- Bytes are natural numbers; every byte emitted by the serializers
below is less than 256. -/
abbrev Byte := Nat

/-! ### Little-endian fixed-width primitives

The repository serializes every on-disk record with bincode configured as
legacy fixint little-endian (lib.rs, BINCODE_CONFIG): fixed-width
little-endian integers, u64 length words for variable-length collections,
one byte for bool, and a u32 tag for enum variants. -/

/-- Little-endian encoding of an unsigned 32-bit integer. Bits beyond the
machine width are discarded, as the machine type would. -/
def u32le (n : Nat) : List Byte :=
  [n % 256, n / 256 % 256, n / 256 ^ 2 % 256, n / 256 ^ 3 % 256]

/-- Little-endian encoding of an unsigned 64-bit integer. -/
def u64le (n : Nat) : List Byte :=
  [n % 256, n / 256 % 256, n / 256 ^ 2 % 256, n / 256 ^ 3 % 256,
   n / 256 ^ 4 % 256, n / 256 ^ 5 % 256, n / 256 ^ 6 % 256, n / 256 ^ 7 % 256]

/-- Little-endian encoding of an unsigned 16-bit integer. -/
def u16le (n : Nat) : List Byte := [n % 256, n / 256 % 256]

/-- Encoding of an unsigned 8-bit integer. -/
def u8le (n : Nat) : List Byte := [n % 256]

/-- Reduction of an integer to its unsigned 32-bit (two-complement) image. -/
def intToU32 (z : Int) : Nat := (z % (2 ^ 32)).toNat

/-- Reduction of an integer to its unsigned 64-bit image. -/
def intToU64 (z : Int) : Nat := (z % (2 ^ 64)).toNat

/-- Reduction of an integer to its unsigned 16-bit image. -/
def intToU16 (z : Int) : Nat := (z % (2 ^ 16)).toNat

/-- Reduction of an integer to its unsigned 8-bit image. -/
def intToU8 (z : Int) : Nat := (z % (2 ^ 8)).toNat

/-- Little-endian two-complement encoding of a signed 32-bit integer. -/
def i32le (z : Int) : List Byte := u32le (intToU32 z)

/-- Little-endian two-complement encoding of a signed 64-bit integer. -/
def i64le (z : Int) : List Byte := u64le (intToU64 z)

/-- Little-endian two-complement encoding of a signed 16-bit integer. -/
def i16le (z : Int) : List Byte := u16le (intToU16 z)

/-- Two-complement encoding of a signed 8-bit integer. -/
def i8le (z : Int) : List Byte := u8le (intToU8 z)

/-- Takes exactly k bytes from the head of a stream; none on a short read
(bincode reports a short read as a decode error). -/
def takeN (k : Nat) (bs : List Byte) : Option (List Byte × List Byte) :=
  if k ≤ bs.length then some (bs.take k, bs.drop k) else none

/-- Value of a little-endian byte sequence. -/
def leValue (bs : List Byte) : Nat := bs.foldr (fun b acc => b + 256 * acc) 0

/-- Decoder for a little-endian u32. -/
def readU32 (bs : List Byte) : Option (Nat × List Byte) :=
  (takeN 4 bs).map (fun p => (leValue p.1, p.2))

/-- Decoder for a little-endian u64. -/
def readU64 (bs : List Byte) : Option (Nat × List Byte) :=
  (takeN 8 bs).map (fun p => (leValue p.1, p.2))

/-- Decoder for a little-endian u16. -/
def readU16 (bs : List Byte) : Option (Nat × List Byte) :=
  (takeN 2 bs).map (fun p => (leValue p.1, p.2))

/-- Decoder for a u8. -/
def readU8 (bs : List Byte) : Option (Nat × List Byte) :=
  (takeN 1 bs).map (fun p => (leValue p.1, p.2))

/-- Signed reading of an unsigned 32-bit value (two-complement). -/
def u32ToInt (n : Nat) : Int := if n < 2 ^ 31 then (n : Int) else (n : Int) - 2 ^ 32

/-- Signed reading of an unsigned 64-bit value. -/
def u64ToInt (n : Nat) : Int := if n < 2 ^ 63 then (n : Int) else (n : Int) - 2 ^ 64

/-- Signed reading of an unsigned 16-bit value. -/
def u16ToInt (n : Nat) : Int := if n < 2 ^ 15 then (n : Int) else (n : Int) - 2 ^ 16

/-- Signed reading of an unsigned 8-bit value. -/
def u8ToInt (n : Nat) : Int := if n < 2 ^ 7 then (n : Int) else (n : Int) - 2 ^ 8

/-- Decoder for a little-endian i32. -/
def readI32 (bs : List Byte) : Option (Int × List Byte) :=
  (readU32 bs).map (fun p => (u32ToInt p.1, p.2))

/-- Decoder for a little-endian i64. -/
def readI64 (bs : List Byte) : Option (Int × List Byte) :=
  (readU64 bs).map (fun p => (u64ToInt p.1, p.2))

/-- Decoder for a little-endian i16. -/
def readI16 (bs : List Byte) : Option (Int × List Byte) :=
  (readU16 bs).map (fun p => (u16ToInt p.1, p.2))

/-- Decoder for an i8. -/
def readI8 (bs : List Byte) : Option (Int × List Byte) :=
  (readU8 bs).map (fun p => (u8ToInt p.1, p.2))

/-- Decoder for a bencoded bool: one byte that must be 0 or 1, anything
else is a decode error. -/
def readBool : List Byte → Option (Bool × List Byte)
  | 0 :: rest => some (false, rest)
  | 1 :: rest => some (true, rest)
  | _ => none

/-! ### Scaled coordinates and bounds (geometry/mod.rs, bounds.rs) -/

/-- Largest i32 value, used by Bounds::empty. -/
def i32Max : Int := 2 ^ 31 - 1

/-- Smallest i32 value, used by Bounds::empty. -/
def i32Min : Int := -(2 ^ 31)

/-- Embeds LngLat (geometry/mod.rs): a longitude/latitude pair stored as
two signed 32-bit integers in units of 10^-7 degrees. The values are
carried as unbounded integers; well-formed data keeps them in i32 range
and serialization wraps to 32 bits exactly as the machine type does. -/
structure LngLat where
  lng : Int
  lat : Int
  deriving DecidableEq

/-- Embeds Bounds (bounds.rs): an axis-aligned rectangle given by two
corners. -/
structure Bounds where
  min : LngLat
  max : LngLat
  deriving DecidableEq

/-- Embeds Bounds::empty: the inverted rectangle (MAX,MAX)-(MIN,MIN). -/
def Bounds.empty : Bounds :=
  ⟨⟨i32Max, i32Max⟩, ⟨i32Min, i32Min⟩⟩

/-- Embeds Bounds::extend: each bound is replaced when the other
rectangle is wider on that side. -/
def Bounds.extend (self other : Bounds) : Bounds :=
  let s := if other.max.lng > self.max.lng then
    { self with max := { self.max with lng := other.max.lng } } else self
  let s := if other.max.lat > s.max.lat then
    { s with max := { s.max with lat := other.max.lat } } else s
  let s := if other.min.lng < s.min.lng then
    { s with min := { s.min with lng := other.min.lng } } else s
  let s := if other.min.lat < s.min.lat then
    { s with min := { s.min with lat := other.min.lat } } else s
  s

/-- Embeds Bounds::extend_point. -/
def Bounds.extendPoint (self : Bounds) (point : LngLat) : Bounds :=
  let s := if point.lng > self.max.lng then
    { self with max := { self.max with lng := point.lng } } else self
  let s := if point.lat > s.max.lat then
    { s with max := { s.max with lat := point.lat } } else s
  let s := if point.lng < s.min.lng then
    { s with min := { s.min with lng := point.lng } } else s
  let s := if point.lat < s.min.lat then
    { s with min := { s.min with lat := point.lat } } else s
  s

/-- Embeds Bounds::unscaled_lng_width: the difference of the corner
longitudes computed in 64-bit arithmetic and cast to u32. -/
def Bounds.unscaledLngWidth (b : Bounds) : Nat := intToU32 (b.max.lng - b.min.lng)

/-- Embeds Bounds::unscaled_lat_height. -/
def Bounds.unscaledLatHeight (b : Bounds) : Nat := intToU32 (b.max.lat - b.min.lat)

/-- Embeds Bounds::intersects: two rectangles intersect unless one is
strictly left, right, above or below the other. -/
def Bounds.intersects (self other : Bounds) : Bool :=
  if self.max.lng < other.min.lng then false
  else if self.max.lat < other.min.lat then false
  else if self.min.lng > other.max.lng then false
  else if self.min.lat > other.max.lat then false
  else true

/-- Wrapping image of an integer in the signed 32-bit range, modelling
release-mode i32 arithmetic and u32-to-i32 casts. -/
def wrapI32 (z : Int) : Int := (z + 2 ^ 31) % 2 ^ 32 - 2 ^ 31

/-- Embeds Bounds::center: half the unsigned widths, cast back to i32 and
added to the minimum corner. -/
def Bounds.center (b : Bounds) : LngLat :=
  let halfLngWidth := b.unscaledLngWidth / 2
  let halfLatHeight := b.unscaledLatHeight / 2
  ⟨wrapI32 (b.min.lng + u32ToInt halfLngWidth),
   wrapI32 (b.min.lat + u32ToInt halfLatHeight)⟩

/-! ### Geometry (geometry/mod.rs)

Geometry is a tagged union over the seven OGC geometry kinds. Recursion
happens only through GeometryCollection, whose element list is given an
inlined list type so that all functions below are structurally recursive
and reduce in the kernel. -/

mutual
inductive Geometry where
  | point (p : LngLat)
  | lineString (points : List LngLat)
  | polygon (rings : List (List LngLat))
  | multiPoint (points : List LngLat)
  | multiLineString (lines : List (List LngLat))
  | multiPolygon (polygons : List (List (List LngLat)))
  | geometryCollection (geometries : GeometryList)
  deriving DecidableEq
inductive GeometryList where
  | nil
  | cons (g : Geometry) (tl : GeometryList)
  deriving DecidableEq
end

/-- Length of a geometry list (the Vec length serialized ahead of the
elements). -/
def GeometryList.length : GeometryList → Nat
  | .nil => 0
  | .cons _ tl => 1 + tl.length

/-! ### Properties and features (feature.rs)

Properties is an ordered mapping from string keys to typed values. The
observable content is the ordered key/value sequence, which is what the
on-disk serialization stores (Properties serializes itself as a sequence
of pairs, iterated in key order). String keys are carried as their UTF-8
bytes; 32- and 64-bit floats are carried as their IEEE bit patterns,
since the container stores exactly those bytes. -/

mutual
inductive PropertyValue where
  | boolV (b : Bool)
  | int8 (v : Int)
  | uint8 (v : Nat)
  | int16 (v : Int)
  | uint16 (v : Nat)
  | int32 (v : Int)
  | uint32 (v : Nat)
  | int64 (v : Int)
  | uint64 (v : Nat)
  | float32 (bits : Nat)
  | float64 (bits : Nat)
  | bytes (bs : List Byte)
  | stringV (utf8 : List Byte)
  | vec (vs : PropertyValueList)
  | mapV (ps : PropertyPairList)
  deriving DecidableEq
inductive PropertyValueList where
  | nil
  | cons (v : PropertyValue) (tl : PropertyValueList)
  deriving DecidableEq
inductive PropertyPairList where
  | nil
  | cons (key : List Byte) (v : PropertyValue) (tl : PropertyPairList)
  deriving DecidableEq
end

/-- Length of a property value list. -/
def PropertyValueList.length : PropertyValueList → Nat
  | .nil => 0
  | .cons _ tl => 1 + tl.length

/-- Number of key/value pairs of an ordered property mapping. -/
def PropertyPairList.length : PropertyPairList → Nat
  | .nil => 0
  | .cons _ _ tl => 1 + tl.length

/-- Embeds Feature (feature.rs): a geometry plus properties. -/
structure Feature where
  geometry : Geometry
  properties : PropertyPairList
  deriving DecidableEq

/-! ### Bounded (geometry/bounded.rs) -/

/-- Folds extend_point over a point sequence, as the Bounded impl for
LineString and MultiPoint does. -/
def extendBoundsPoints (ps : List LngLat) (b : Bounds) : Bounds :=
  ps.foldl (fun b p => b.extendPoint p) b

/-- Folds over a sequence of point sequences (Polygon, MultiLineString). -/
def extendBoundsLines (ls : List (List LngLat)) (b : Bounds) : Bounds :=
  ls.foldl (fun b l => extendBoundsPoints l b) b

/-- Folds over a sequence of polygons (MultiPolygon). -/
def extendBoundsPolygons (ps : List (List (List LngLat))) (b : Bounds) : Bounds :=
  ps.foldl (fun b p => extendBoundsLines p b) b

mutual
/-- Embeds the Bounded impl for Geometry: extends the accumulator bounds
with every coordinate of the geometry. -/
def Geometry.extendBounds : Geometry → Bounds → Bounds
  | .point p, b => b.extendPoint p
  | .lineString ps, b => extendBoundsPoints ps b
  | .polygon rs, b => extendBoundsLines rs b
  | .multiPoint ps, b => extendBoundsPoints ps b
  | .multiLineString ls, b => extendBoundsLines ls b
  | .multiPolygon ps, b => extendBoundsPolygons ps b
  | .geometryCollection gs, b => GeometryList.extendBounds gs b
/-- Extends bounds over every geometry of a collection, left to right. -/
def GeometryList.extendBounds : GeometryList → Bounds → Bounds
  | .nil, b => b
  | .cons g tl, b => GeometryList.extendBounds tl (Geometry.extendBounds g b)
end

/-- Embeds Bounded::bounds: starts from the empty bounds. -/
def Geometry.bounds (g : Geometry) : Bounds := g.extendBounds Bounds.empty

/-- Bounding rectangle of a feature, as the writer computes it from the
geometry. -/
def featureBounds (f : Feature) : Bounds := f.geometry.bounds

/-! ### Serialization of geometry and features

Serde derives assign enum variant tags in declaration order, and bincode
legacy encodes a variant tag as a u32. Vectors (and the Properties
sequence) get an 8-byte length word followed by the element encodings;
strings and byte buffers get an 8-byte length word followed by raw
bytes. -/

/-- Serialization of a scaled coordinate: two i32 little-endian words. -/
def serLngLat (p : LngLat) : List Byte := i32le p.lng ++ i32le p.lat

/-- Serialization of a vector with a u64 length word, as bincode legacy
writes any Vec. -/
def serVec (f : α → List Byte) (l : List α) : List Byte :=
  u64le l.length ++ (l.map f).flatten

mutual
/-- Embeds the bincode legacy serde serialization of Geometry: a u32
variant tag followed by the variant payload. -/
def serGeometry : Geometry → List Byte
  | .point p => u32le 0 ++ serLngLat p
  | .lineString ps => u32le 1 ++ serVec serLngLat ps
  | .polygon rs => u32le 2 ++ serVec (serVec serLngLat) rs
  | .multiPoint ps => u32le 3 ++ serVec serLngLat ps
  | .multiLineString ls => u32le 4 ++ serVec (serVec serLngLat) ls
  | .multiPolygon ps => u32le 5 ++ serVec (serVec (serVec serLngLat)) ps
  | .geometryCollection gs => u32le 6 ++ u64le gs.length ++ serGeometryList gs
/-- Serialization of the elements of a geometry collection. -/
def serGeometryList : GeometryList → List Byte
  | .nil => []
  | .cons g tl => serGeometry g ++ serGeometryList tl
end

mutual
/-- Embeds the bincode legacy serialization of PropertyValue: a u32
variant tag followed by the payload. -/
def serPropertyValue : PropertyValue → List Byte
  | .boolV b => u32le 0 ++ [if b then 1 else 0]
  | .int8 v => u32le 1 ++ i8le v
  | .uint8 v => u32le 2 ++ u8le v
  | .int16 v => u32le 3 ++ i16le v
  | .uint16 v => u32le 4 ++ u16le v
  | .int32 v => u32le 5 ++ i32le v
  | .uint32 v => u32le 6 ++ u32le v
  | .int64 v => u32le 7 ++ i64le v
  | .uint64 v => u32le 8 ++ u64le v
  | .float32 bits => u32le 9 ++ u32le bits
  | .float64 bits => u32le 10 ++ u64le bits
  | .bytes bs => u32le 11 ++ u64le bs.length ++ bs
  | .stringV s => u32le 12 ++ u64le s.length ++ s
  | .vec vs => u32le 13 ++ u64le vs.length ++ serPropertyValueList vs
  | .mapV ps => u32le 14 ++ u64le ps.length ++ serPropertyPairList ps
/-- Serialization of the elements of a value vector. -/
def serPropertyValueList : PropertyValueList → List Byte
  | .nil => []
  | .cons v tl => serPropertyValue v ++ serPropertyValueList tl
/-- Serialization of a (key, value) pair sequence; a pair serializes as
the key string followed by the value. -/
def serPropertyPairList : PropertyPairList → List Byte
  | .nil => []
  | .cons k v tl => u64le k.length ++ k ++ serPropertyValue v ++ serPropertyPairList tl
end

/-- Embeds the Serialize impl of Properties (feature.rs): a sequence with
the pair count ahead of the ordered pairs. -/
def serProperties (ps : PropertyPairList) : List Byte :=
  u64le ps.length ++ serPropertyPairList ps

/-- Embeds the serialization of Feature: the geometry followed by the
properties (struct fields in order, no extra length). -/
def serFeature (f : Feature) : List Byte :=
  serGeometry f.geometry ++ serProperties f.properties

/-! ### Parsers (read side of deserialize_from)

Parsers recurse on a fuel argument that strictly decreases at every
recursive call; any fuel at least the nesting measure of the value parses
it. At call sites the remaining input length bounds the measure. -/

/-- Parser for a scaled coordinate. -/
def parseLngLat (bs : List Byte) : Option (LngLat × List Byte) :=
  (readI32 bs).bind (fun p1 => (readI32 p1.2).map (fun p2 => (⟨p1.1, p2.1⟩, p2.2)))

/-- Parser for a counted sequence of coordinates. -/
def parseLngLatSeq : Nat → List Byte → Option (List LngLat × List Byte)
  | 0, bs => some ([], bs)
  | k + 1, bs =>
    (parseLngLat bs).bind (fun p =>
      (parseLngLatSeq k p.2).map (fun q => (p.1 :: q.1, q.2)))

/-- Parser for a Vec of coordinates: u64 count then elements. -/
def parseVecLngLat (bs : List Byte) : Option (List LngLat × List Byte) :=
  (readU64 bs).bind (fun cb => parseLngLatSeq cb.1 cb.2)

/-- Parser for a counted sequence of coordinate sequences. -/
def parseRingSeq : Nat → List Byte → Option (List (List LngLat) × List Byte)
  | 0, bs => some ([], bs)
  | k + 1, bs =>
    (parseVecLngLat bs).bind (fun p =>
      (parseRingSeq k p.2).map (fun q => (p.1 :: q.1, q.2)))

/-- Parser for a Vec of rings. -/
def parseVecRings (bs : List Byte) : Option (List (List LngLat) × List Byte) :=
  (readU64 bs).bind (fun cb => parseRingSeq cb.1 cb.2)

/-- Parser for a counted sequence of polygons. -/
def parsePolygonSeq : Nat → List Byte → Option (List (List (List LngLat)) × List Byte)
  | 0, bs => some ([], bs)
  | k + 1, bs =>
    (parseVecRings bs).bind (fun p =>
      (parsePolygonSeq k p.2).map (fun q => (p.1 :: q.1, q.2)))

/-- Parser for a Vec of polygons. -/
def parseVecPolygons (bs : List Byte) : Option (List (List (List LngLat)) × List Byte) :=
  (readU64 bs).bind (fun cb => parsePolygonSeq cb.1 cb.2)

mutual
/-- Parser for a Geometry: u32 tag then payload; an unknown tag is a
decode error. -/
def parseGeometry : Nat → List Byte → Option (Geometry × List Byte)
  | 0, _ => none
  | fuel + 1, bs =>
    (readU32 bs).bind (fun tb =>
      match tb.1 with
      | 0 => (parseLngLat tb.2).map (fun p => (Geometry.point p.1, p.2))
      | 1 => (parseVecLngLat tb.2).map (fun p => (Geometry.lineString p.1, p.2))
      | 2 => (parseVecRings tb.2).map (fun p => (Geometry.polygon p.1, p.2))
      | 3 => (parseVecLngLat tb.2).map (fun p => (Geometry.multiPoint p.1, p.2))
      | 4 => (parseVecRings tb.2).map (fun p => (Geometry.multiLineString p.1, p.2))
      | 5 => (parseVecPolygons tb.2).map (fun p => (Geometry.multiPolygon p.1, p.2))
      | 6 => (readU64 tb.2).bind (fun cb =>
          (parseGeometrySeq fuel cb.1 cb.2).map
            (fun p => (Geometry.geometryCollection p.1, p.2)))
      | _ => none)
/-- Parser for the elements of a geometry collection. -/
def parseGeometrySeq : Nat → Nat → List Byte → Option (GeometryList × List Byte)
  | _, 0, bs => some (.nil, bs)
  | 0, _ + 1, _ => none
  | fuel + 1, k + 1, bs =>
    (parseGeometry fuel bs).bind (fun p =>
      (parseGeometrySeq fuel k p.2).map (fun q => (GeometryList.cons p.1 q.1, q.2)))
end

mutual
/-- Parser for a PropertyValue: u32 tag then payload. -/
def parsePropertyValue : Nat → List Byte → Option (PropertyValue × List Byte)
  | 0, _ => none
  | fuel + 1, bs =>
    (readU32 bs).bind (fun tb =>
      match tb.1 with
      | 0 => (readBool tb.2).map (fun p => (PropertyValue.boolV p.1, p.2))
      | 1 => (readI8 tb.2).map (fun p => (PropertyValue.int8 p.1, p.2))
      | 2 => (readU8 tb.2).map (fun p => (PropertyValue.uint8 p.1, p.2))
      | 3 => (readI16 tb.2).map (fun p => (PropertyValue.int16 p.1, p.2))
      | 4 => (readU16 tb.2).map (fun p => (PropertyValue.uint16 p.1, p.2))
      | 5 => (readI32 tb.2).map (fun p => (PropertyValue.int32 p.1, p.2))
      | 6 => (readU32 tb.2).map (fun p => (PropertyValue.uint32 p.1, p.2))
      | 7 => (readI64 tb.2).map (fun p => (PropertyValue.int64 p.1, p.2))
      | 8 => (readU64 tb.2).map (fun p => (PropertyValue.uint64 p.1, p.2))
      | 9 => (readU32 tb.2).map (fun p => (PropertyValue.float32 p.1, p.2))
      | 10 => (readU64 tb.2).map (fun p => (PropertyValue.float64 p.1, p.2))
      | 11 => (readU64 tb.2).bind (fun cb =>
          (takeN cb.1 cb.2).map (fun p => (PropertyValue.bytes p.1, p.2)))
      | 12 => (readU64 tb.2).bind (fun cb =>
          (takeN cb.1 cb.2).map (fun p => (PropertyValue.stringV p.1, p.2)))
      | 13 => (readU64 tb.2).bind (fun cb =>
          (parsePropertyValueSeq fuel cb.1 cb.2).map
            (fun p => (PropertyValue.vec p.1, p.2)))
      | 14 => (readU64 tb.2).bind (fun cb =>
          (parsePropertyPairSeq fuel cb.1 cb.2).map
            (fun p => (PropertyValue.mapV p.1, p.2)))
      | _ => none)
/-- Parser for the elements of a value vector. -/
def parsePropertyValueSeq : Nat → Nat → List Byte → Option (PropertyValueList × List Byte)
  | _, 0, bs => some (.nil, bs)
  | 0, _ + 1, _ => none
  | fuel + 1, k + 1, bs =>
    (parsePropertyValue fuel bs).bind (fun p =>
      (parsePropertyValueSeq fuel k p.2).map
        (fun q => (PropertyValueList.cons p.1 q.1, q.2)))
/-- Parser for a counted (key, value) pair sequence. -/
def parsePropertyPairSeq : Nat → Nat → List Byte → Option (PropertyPairList × List Byte)
  | _, 0, bs => some (.nil, bs)
  | 0, _ + 1, _ => none
  | fuel + 1, k + 1, bs =>
    (readU64 bs).bind (fun lb =>
      (takeN lb.1 lb.2).bind (fun kb =>
        (parsePropertyValue fuel kb.2).bind (fun p =>
          (parsePropertyPairSeq fuel k p.2).map
            (fun q => (PropertyPairList.cons kb.1 p.1 q.1, q.2)))))
end

/-- Parser for Properties: pair count then the pairs. -/
def parseProperties (fuel : Nat) (bs : List Byte) : Option (PropertyPairList × List Byte) :=
  (readU64 bs).bind (fun cb => parsePropertyPairSeq fuel cb.1 cb.2)

/-- Parser for a Feature: geometry then properties. -/
def parseFeature (fuel : Nat) (bs : List Byte) : Option (Feature × List Byte) :=
  (parseGeometry fuel bs).bind (fun g =>
    (parseProperties fuel g.2).map (fun ps => (⟨g.1, ps.1⟩, ps.2)))

/-! ### Nesting measures

Any fuel of at least the measure of a value suffices to parse its
serialization back; the measure is bounded by the serialized length. -/

mutual
/-- Fuel measure of a geometry: one per collection nesting step. -/
def Geometry.fuelMeasure : Geometry → Nat
  | .geometryCollection gs => 1 + gs.fuelMeasure
  | _ => 1
/-- Fuel measure of a geometry list. -/
def GeometryList.fuelMeasure : GeometryList → Nat
  | .nil => 0
  | .cons g tl => 1 + g.fuelMeasure + tl.fuelMeasure
end

mutual
/-- Fuel measure of a property value. -/
def PropertyValue.fuelMeasure : PropertyValue → Nat
  | .vec vs => 1 + vs.fuelMeasure
  | .mapV ps => 1 + ps.fuelMeasure
  | _ => 1
/-- Fuel measure of a value list. -/
def PropertyValueList.fuelMeasure : PropertyValueList → Nat
  | .nil => 0
  | .cons v tl => 1 + v.fuelMeasure + tl.fuelMeasure
/-- Fuel measure of a pair list. -/
def PropertyPairList.fuelMeasure : PropertyPairList → Nat
  | .nil => 0
  | .cons _ v tl => 1 + v.fuelMeasure + tl.fuelMeasure
end

/-- Fuel measure of a feature. -/
def Feature.fuelMeasure (f : Feature) : Nat :=
  f.geometry.fuelMeasure + f.properties.fuelMeasure

/-! ### Well-formedness

These predicates record exactly the invariants the Rust types carry by
construction: machine integers are in range, usize lengths fit in u64,
bytes are bytes, and property keys are distinct (Properties::insert
asserts that a key is not repeated). -/

/-- Byte list where every entry is an actual byte. -/
def wfBytes (bs : List Byte) : Bool := bs.all (fun b => b < 256)

/-- Coordinate with both components in i32 range. -/
def wfLngLat (p : LngLat) : Bool :=
  decide (i32Min ≤ p.lng) && decide (p.lng ≤ i32Max) &&
  decide (i32Min ≤ p.lat) && decide (p.lat ≤ i32Max)

/-- Length that fits in the u64 length word. -/
def wfLen (n : Nat) : Bool := decide (n < 2 ^ 64)

/-- Well-formedness of a point list. -/
def wfPointList (ps : List LngLat) : Bool := wfLen ps.length && ps.all wfLngLat

/-- Well-formedness of a ring list. -/
def wfRingList (rs : List (List LngLat)) : Bool := wfLen rs.length && rs.all wfPointList

/-- Well-formedness of a polygon list. -/
def wfPolygonList (ps : List (List (List LngLat))) : Bool :=
  wfLen ps.length && ps.all wfRingList

mutual
/-- Well-formedness of a geometry. -/
def wfGeometry : Geometry → Bool
  | .point p => wfLngLat p
  | .lineString ps => wfPointList ps
  | .polygon rs => wfRingList rs
  | .multiPoint ps => wfPointList ps
  | .multiLineString ls => wfRingList ls
  | .multiPolygon ps => wfPolygonList ps
  | .geometryCollection gs => wfLen gs.length && wfGeometryList gs
/-- Well-formedness of each geometry of a collection. -/
def wfGeometryList : GeometryList → Bool
  | .nil => true
  | .cons g tl => wfGeometry g && wfGeometryList tl
end

mutual
/-- Well-formedness of a property value. -/
def wfPropertyValue : PropertyValue → Bool
  | .boolV _ => true
  | .int8 v => decide (-(2 ^ 7) ≤ v) && decide (v < 2 ^ 7)
  | .uint8 v => decide (v < 2 ^ 8)
  | .int16 v => decide (-(2 ^ 15) ≤ v) && decide (v < 2 ^ 15)
  | .uint16 v => decide (v < 2 ^ 16)
  | .int32 v => decide (-(2 ^ 31) ≤ v) && decide (v < 2 ^ 31)
  | .uint32 v => decide (v < 2 ^ 32)
  | .int64 v => decide (-(2 ^ 63) ≤ v) && decide (v < 2 ^ 63)
  | .uint64 v => decide (v < 2 ^ 64)
  | .float32 bits => decide (bits < 2 ^ 32)
  | .float64 bits => decide (bits < 2 ^ 64)
  | .bytes bs => wfLen bs.length && wfBytes bs
  | .stringV s => wfLen s.length && wfBytes s
  | .vec vs => wfLen vs.length && wfPropertyValueList vs
  | .mapV ps => wfLen ps.length && wfPropertyPairList ps
/-- Well-formedness of a value list. -/
def wfPropertyValueList : PropertyValueList → Bool
  | .nil => true
  | .cons v tl => wfPropertyValue v && wfPropertyValueList tl
/-- Well-formedness of a pair list (keys are valid byte strings). -/
def wfPropertyPairList : PropertyPairList → Bool
  | .nil => true
  | .cons k v tl =>
    wfLen k.length && wfBytes k && wfPropertyValue v && wfPropertyPairList tl
end

/-- Key list of an ordered property mapping. -/
def PropertyPairList.keys : PropertyPairList → List (List Byte)
  | .nil => []
  | .cons k _ tl => k :: tl.keys

/-- Well-formedness of a feature: well-formed geometry and properties
with distinct keys (Properties::insert asserts key uniqueness, so every
Rust-built Properties value satisfies this). -/
def wfFeature (f : Feature) : Bool :=
  wfGeometry f.geometry && wfLen f.properties.length &&
  wfPropertyPairList f.properties && decide f.properties.keys.Nodup

end Geomedea

namespace Geomedea

/-! ### On-disk records (format.rs, lib.rs) -/

/-- Embeds FeatureLocation (format.rs): the offset of the feature page
within the feature region (u64) and the byte offset of the feature
within its decoded page (u32). -/
structure FeatureLocation where
  pageStartingOffset : Nat
  featureOffset : Nat
  deriving DecidableEq

/-- Serialization of a FeatureLocation: 8 + 4 bytes. -/
def serFeatureLocation (loc : FeatureLocation) : List Byte :=
  u64le loc.pageStartingOffset ++ u32le loc.featureOffset

/-- Parser for a FeatureLocation. -/
def parseFeatureLocation (bs : List Byte) : Option (FeatureLocation × List Byte) :=
  (readU64 bs).bind (fun p1 => (readU32 p1.2).map (fun p2 => (⟨p1.1, p2.1⟩, p2.2)))

/-- Serialization of a Bounds: the two corner coordinates, 16 bytes. -/
def serBounds (b : Bounds) : List Byte := serLngLat b.min ++ serLngLat b.max

/-- Parser for a Bounds. -/
def parseBounds (bs : List Byte) : Option (Bounds × List Byte) :=
  (parseLngLat bs).bind (fun p1 => (parseLngLat p1.2).map (fun p2 => (⟨p1.1, p2.1⟩, p2.2)))

/-- Embeds Node (packed_r_tree/mod.rs): a bounds plus a feature
location. -/
structure Node where
  bounds : Bounds
  offset : FeatureLocation
  deriving DecidableEq

/-- Embeds Node::serialized_size: 28 bytes. -/
def Node.serializedSize : Nat := 28

/-- Serialization of a Node: bounds then location. -/
def serNode (n : Node) : List Byte := serBounds n.bounds ++ serFeatureLocation n.offset

/-- Parser for a Node. -/
def parseNode (bs : List Byte) : Option (Node × List Byte) :=
  (parseBounds bs).bind (fun p1 =>
    (parseFeatureLocation p1.2).map (fun p2 => (⟨p1.1, p2.1⟩, p2.2)))

/-- Embeds Node::empty_inner_node: empty bounds and a zeroed location. -/
def Node.emptyInner : Node := ⟨Bounds.empty, ⟨0, 0⟩⟩

/-- Embeds PageHeader (format.rs): three u32 fields. -/
structure PageHeader where
  encodedPageLength : Nat
  decodedPageLength : Nat
  featureCount : Nat
  deriving DecidableEq

/-- Embeds PageHeader::serialized_size: 12 bytes. -/
def PageHeader.serializedSize : Nat := 12

/-- Serialization of a PageHeader. -/
def serPageHeader (h : PageHeader) : List Byte :=
  u32le h.encodedPageLength ++ u32le h.decodedPageLength ++ u32le h.featureCount

/-- Parser for a PageHeader. -/
def parsePageHeader (bs : List Byte) : Option (PageHeader × List Byte) :=
  (readU32 bs).bind (fun p1 =>
    (readU32 p1.2).bind (fun p2 =>
      (readU32 p2.2).map (fun p3 => (⟨p1.1, p2.1, p3.1⟩, p3.2))))

/-- Embeds Header (lib.rs): compression flag, page count, feature
count. -/
structure Header where
  isCompressed : Bool
  pageCount : Nat
  featureCount : Nat
  deriving DecidableEq

/-- Serialization of the Header: exactly 17 bytes. -/
def serHeader (h : Header) : List Byte :=
  [if h.isCompressed then 1 else 0] ++ u64le h.pageCount ++ u64le h.featureCount

/-- Parser for the Header. -/
def parseHeader (bs : List Byte) : Option (Header × List Byte) :=
  (readBool bs).bind (fun p1 =>
    (readU64 p1.2).bind (fun p2 =>
      (readU64 p2.2).map (fun p3 => (⟨p1.1, p2.1, p3.1⟩, p3.2))))

/-! ### Packed R-tree level shape (packed_r_tree/mod.rs) -/

/-- Embeds BRANCHING_FACTOR. -/
def branchingFactor : Nat := 16

/-- Embeds one step of the nodes_per_level loop: the number of parents
over n nodes is n / 16, plus one when the division is not exact. -/
def nextLevelSize (n : Nat) : Nat :=
  let fullParents := n / branchingFactor
  if fullParents * branchingFactor = n then fullParents else fullParents + 1

/-- Level sizes from the leaf level towards the root, as the
nodes_per_level loop accumulates them before reversing. The fuel bounds
the iteration count; any fuel at least the start value is enough. -/
def levelSizesAsc : Nat → Nat → List Nat
  | 0, n => [n]
  | fuel + 1, n => if n > 1 then n :: levelSizesAsc fuel (nextLevelSize n) else [n]

/-- Embeds PackedRTree::nodes_per_level: empty for a leaf count of zero,
otherwise the level sizes root first. -/
def nodesPerLevel (leafCount : Nat) : List Nat :=
  if leafCount = 0 then [] else (levelSizesAsc leafCount leafCount).reverse

/-- Embeds PackedRTree::node_count. -/
def nodeCount (leafCount : Nat) : Nat := (nodesPerLevel leafCount).sum

/-- Embeds PackedRTree::index_size: node count times 28 bytes. -/
def indexSize (leafCount : Nat) : Nat := nodeCount leafCount * Node.serializedSize

/-- Half-open range of node indices (std::ops::Range with u64 bounds). -/
structure NodeRange where
  start : Nat
  stop : Nat
  deriving DecidableEq

/-- Offsets of consecutive level ranges, as _node_ranges_by_level
accumulates them. -/
def nodeRangesGo : Nat → List Nat → List NodeRange
  | _, [] => []
  | off, w :: ws => ⟨off, off + w⟩ :: nodeRangesGo (off + w) ws

/-- Embeds PackedRTree::node_ranges_by_level: consecutive ranges, root
level first. -/
def nodeRangesByLevel (leafCount : Nat) : List NodeRange :=
  nodeRangesGo 0 (nodesPerLevel leafCount)

/-- Position search of children_range: finds the first level range
holding the index and returns the position within it together with the
remaining (deeper) level ranges. -/
def findLevelPos : List NodeRange → Nat → Option (Nat × List NodeRange)
  | [], _ => none
  | r :: rest, idx =>
    if r.start ≤ idx ∧ idx < r.stop then some (idx - r.start, rest)
    else findLevelPos rest idx

/-- Embeds PackedRTree::children_range: the half-open child range of an
internal node, clamped at the end of the child level. -/
def childrenRange (leafCount idx : Nat) : Option NodeRange :=
  match findLevelPos (nodeRangesByLevel leafCount) idx with
  | none => none
  | some (pos, rest) =>
    match rest with
    | [] => none
    | child :: _ =>
      let childrenStart := child.start + pos * branchingFactor
      some ⟨childrenStart, min (childrenStart + branchingFactor) child.stop⟩

/-- Embeds PackedRTree::is_leaf_node: index at or beyond the start of the
last level range; false on an empty tree. -/
def isLeafNode (leafCount idx : Nat) : Bool :=
  match (nodeRangesByLevel leafCount).getLast? with
  | none => false
  | some last => decide (idx ≥ last.start)

/-- Embeds PackedRTree::level_for_node_idx: zero is the leaf level,
increasing towards the root. Total function; the source expects the index
to lie in some level. -/
def levelForNodeIdx (leafCount idx : Nat) : Nat :=
  let levels := nodeRangesByLevel leafCount
  levels.length - 1 -
    levels.findIdx (fun r => decide (r.start ≤ idx) && decide (idx < r.stop))

/-! ### Packed R-tree writer (packed_r_tree/writer.rs) -/

/-- Chunks of sixteen nodes, as the build loop slices the previous level.
The fuel bounds the recursion; the list length is always enough. -/
def chunksOf16 : Nat → List Node → List (List Node)
  | _, [] => []
  | 0, l => [l]
  | fuel + 1, l => l.take branchingFactor :: chunksOf16 fuel (l.drop branchingFactor)

/-- Parent nodes over one level: each chunk of up to sixteen children
yields a parent whose bounds extend the empty inner node over the chunk
and whose location is zeroed. -/
def parentNodes (ns : List Node) : List Node :=
  (chunksOf16 ns.length ns).map
    (fun c => ⟨c.foldl (fun b n => b.extend n.bounds) Node.emptyInner.bounds,
               Node.emptyInner.offset⟩)

/-- Levels of the index from the leaves upward, one entry per level size;
mirrors the write loop that walks the reversed byte ranges building each
parent level from the previous one. -/
def buildLevelsGo : List Nat → List Node → List (List Node)
  | [], _ => []
  | _ :: rest, cur => cur :: buildLevelsGo rest (parentNodes cur)

/-- All levels of the packed R-tree, leaf level first. -/
def rtreeLevels (leaves : List Node) : List (List Node) :=
  buildLevelsGo (nodesPerLevel leaves.length) leaves

/-- Error type of the embedded writer (error.rs). -/
inductive WriteError where
  | featureCountMismatch (expected found : Nat)
  deriving DecidableEq

/-- Embeds PackedRTreeWriter::write: refuses when the number of pushed
leaves differs from the promised count, writes nothing for an empty tree,
and otherwise emits the levels root first, 28 bytes per node. -/
def rtreeWrite (promisedLeafCount : Nat) (leaves : List Node) :
    Except WriteError (List Byte) :=
  if leaves.length ≠ promisedLeafCount then
    .error (.featureCountMismatch promisedLeafCount leaves.length)
  else if promisedLeafCount = 0 then .ok []
  else .ok (((rtreeLevels leaves).reverse.map
      (fun lvl => (lvl.map serNode).flatten)).flatten)

/-! ### Hilbert ordering (writer/hilbert.rs) -/

/-- Embeds HILBERT_MAX. -/
def hilbertMax : Nat := 65535

/-- Left shift of a u32, discarding bits beyond the machine width. -/
def shl32 (x k : Nat) : Nat := (x <<< k) % 2 ^ 32

/-- Embeds the branch-free hilbert function (writer/hilbert.rs), a
transcription of the public-domain bit-manipulation sequence. All
intermediate values stay below 2^32: the masked values are at most
16 bits wide before the final interleave, and every left shift reduces
modulo 2^32 as the u32 type does. -/
def hilbert (x y : Nat) : Nat :=
  let a := x ^^^ y
  let b := 0xFFFF ^^^ a
  let c := 0xFFFF ^^^ (x ||| y)
  let d := x &&& (y ^^^ 0xFFFF)
  let aa := a ||| (b >>> 1)
  let bb := (a >>> 1) ^^^ a
  let cc := ((c >>> 1) ^^^ (b &&& (d >>> 1))) ^^^ c
  let dd := ((a &&& (c >>> 1)) ^^^ (d >>> 1)) ^^^ d
  let a := aa
  let b := bb
  let c := cc
  let d := dd
  let aa := (a &&& (a >>> 2)) ^^^ (b &&& (b >>> 2))
  let bb := (a &&& (b >>> 2)) ^^^ (b &&& ((a ^^^ b) >>> 2))
  let cc := cc ^^^ ((a &&& (c >>> 2)) ^^^ (b &&& (d >>> 2)))
  let dd := dd ^^^ ((b &&& (c >>> 2)) ^^^ ((a ^^^ b) &&& (d >>> 2)))
  let a := aa
  let b := bb
  let c := cc
  let d := dd
  let aa := (a &&& (a >>> 4)) ^^^ (b &&& (b >>> 4))
  let bb := (a &&& (b >>> 4)) ^^^ (b &&& ((a ^^^ b) >>> 4))
  let cc := cc ^^^ ((a &&& (c >>> 4)) ^^^ (b &&& (d >>> 4)))
  let dd := dd ^^^ ((b &&& (c >>> 4)) ^^^ ((a ^^^ b) &&& (d >>> 4)))
  let a := aa
  let b := bb
  let c := cc
  let d := dd
  let cc := cc ^^^ ((a &&& (c >>> 8)) ^^^ (b &&& (d >>> 8)))
  let dd := dd ^^^ ((b &&& (c >>> 8)) ^^^ ((a ^^^ b) &&& (d >>> 8)))
  let a := cc ^^^ (cc >>> 1)
  let b := dd ^^^ (dd >>> 1)
  let i0 := x ^^^ y
  let i1 := b ||| (0xFFFF ^^^ (i0 ||| a))
  let i0 := (i0 ||| shl32 i0 8) &&& 0x00FF00FF
  let i0 := (i0 ||| shl32 i0 4) &&& 0x0F0F0F0F
  let i0 := (i0 ||| shl32 i0 2) &&& 0x33333333
  let i0 := (i0 ||| shl32 i0 1) &&& 0x55555555
  let i1 := (i1 ||| shl32 i1 8) &&& 0x00FF00FF
  let i1 := (i1 ||| shl32 i1 4) &&& 0x0F0F0F0F
  let i1 := (i1 ||| shl32 i1 2) &&& 0x33333333
  let i1 := (i1 ||| shl32 i1 1) &&& 0x55555555
  shl32 i1 1 ||| i0

/-- Embeds scaled_hilbert: scales the point into 0..65535 on each axis
relative to the extent using 64-bit arithmetic (wrapping exactly where
the machine casts and multiplication do), then applies the hilbert
function. Division by a zero axis width panics in Rust; the writer below
models that panic explicitly, and this total function is only relied on
where the widths are nonzero. -/
def scaledHilbert (point : LngLat) (extent : Bounds) : Nat :=
  let x := intToU64 (point.lng - extent.min.lng) * hilbertMax % 2 ^ 64 /
    extent.unscaledLngWidth
  let y := intToU64 (point.lat - extent.min.lat) * hilbertMax % 2 ^ 64 /
    extent.unscaledLatHeight
  hilbert (x % 2 ^ 32) (y % 2 ^ 32)

/-! ### Writer (writer/mod.rs) -/

/-- Embeds DEFAULT_PAGE_SIZE_GOAL (Writer::new sets 1024 * 64). -/
def defaultPageSizeGoal : Nat := 1024 * 64

/-- Page codec: the identity or the zstd frame codec, selected per file
by the compression flag. The zstd implementation is an external crate;
it enters the model as an abstract encode/decode pair. -/
structure Codec where
  encode : List Byte → List Byte
  decode : List Byte → List Byte

/-- Contract of a page codec: decoding an encoded frame restores the
input. The zstd crate provides this for its frames; the identity codec
satisfies it definitionally. -/
def Codec.Roundtrips (c : Codec) : Prop := ∀ bs, c.decode (c.encode bs) = bs

/-- Identity codec used for uncompressed pages. -/
def identityCodec : Codec := ⟨fun bs => bs, fun bs => bs⟩

/-- Embeds FeatureEntry (writer/mod.rs): the feature bounds plus the
offset of the serialized feature in the temporary feature store. -/
structure FeatureEntry where
  bounds : Bounds
  tmpOffset : Nat
  deriving DecidableEq

/-- Bytes a feature occupies in a page: an 8-byte length word followed by
the serialized feature (FeatureWriter Page::add_feature). -/
def featureBlock (f : Feature) : List Byte :=
  u64le (serFeature f).length ++ serFeature f

/-- State of the page currently being filled (writer/mod.rs Page): its
starting offset in the feature region, the bytes fed to the encoder so
far, and its feature count. The per-page running bounds of the source are
dropped: they are never read. -/
structure CurPage where
  startingOffset : Nat
  content : List Byte
  featureCount : Nat

/-- State of the FeatureWriter fold: the optional open page, the finished
pages (header plus encoded payload, in order), and the starting offset of
the next page. -/
structure PageAcc where
  cur : Option CurPage
  finished : List (PageHeader × List Byte)
  nextStart : Nat

/-- Initial FeatureWriter state (CurrentPage::Unstarted, offset zero). -/
def initPageAcc : PageAcc := ⟨none, [], 0⟩

/-- Embeds FeatureWriter::add_feature: starts a page if none is open,
records the feature location (the page starting offset and the encoder
input size so far, cast to u32), appends the length-prefixed feature
bytes, and finishes the page when its uncompressed size strictly exceeds
the goal. Finishing encodes the content, requires the encoded size to fit
in u32 (the source panics otherwise), and advances the next starting
offset by the encoded size plus the 12-byte page header. -/
def pageAddFeature (codec : Codec) (goal : Nat) (acc : PageAcc) (f : Feature) :
    Option (PageAcc × FeatureLocation) :=
  let page := match acc.cur with
    | some p => p
    | none => ⟨acc.nextStart, [], 0⟩
  let loc : FeatureLocation := ⟨page.startingOffset, page.content.length % 2 ^ 32⟩
  let content := page.content ++ featureBlock f
  let featureCount := page.featureCount + 1
  if content.length > goal then
    let encoded := codec.encode content
    if encoded.length < 2 ^ 32 then
      some ({ cur := none,
              finished := acc.finished ++
                [(⟨encoded.length, content.length % 2 ^ 32, featureCount % 2 ^ 32⟩,
                  encoded)],
              nextStart := acc.nextStart + encoded.length + PageHeader.serializedSize },
            loc)
    else none
  else
    some ({ acc with cur := some ⟨page.startingOffset, content, featureCount⟩ }, loc)

/-- Embeds FeatureWriter::finish: closes any open page (same encoding and
u32 check), then adds the sentinel page header (0,0,0) when no page was
produced at all. -/
def pagesFinish (codec : Codec) (acc : PageAcc) :
    Option (List (PageHeader × List Byte)) :=
  match acc.cur with
  | some page =>
    let encoded := codec.encode page.content
    if encoded.length < 2 ^ 32 then
      some (acc.finished ++
        [(⟨encoded.length, page.content.length % 2 ^ 32, page.featureCount % 2 ^ 32⟩,
          encoded)])
    else none
  | none =>
    if acc.finished.isEmpty then some [(⟨0, 0, 0⟩, [])] else some acc.finished

/-- Embeds FeatureWriter::write_features: walks the sorted entries,
re-reads each feature from the temporary store (seek to the recorded
offset, deserialize), feeds it to add_feature, and pushes the leaf node
(entry bounds, assigned location) for the index. -/
def writeFeaturesGo (codec : Codec) (goal : Nat) (tmp : List Byte) :
    List FeatureEntry → PageAcc → List Node → Option (PageAcc × List Node)
  | [], acc, leaves => some (acc, leaves)
  | e :: rest, acc, leaves =>
    match parseFeature tmp.length (tmp.drop e.tmpOffset) with
    | none => none
    | some fp =>
      match pageAddFeature codec goal acc fp.1 with
      | none => none
      | some al =>
        writeFeaturesGo codec goal tmp rest al.1 (leaves ++ [⟨e.bounds, al.2⟩])

/-- Embeds Writer::add_feature over a whole feature list: accumulates the
temporary serialized feature store, the entry list (bounds and temp
offset) and the running extent. -/
def writerTempAndEntries (features : List Feature) :
    List Byte × List FeatureEntry × Bounds :=
  features.foldl
    (fun st f =>
      let bounds := f.geometry.bounds
      (st.1 ++ serFeature f, st.2.1 ++ [⟨bounds, st.1.length⟩], st.2.2.extend bounds))
    ([], [], Bounds.empty)

/-- Descending stable sort of the entries by the Hilbert key of the entry
bounds center relative to the extent. Rust Vec::sort_by is stable, and a
stable insertion sort computes the same permutation for the same
comparator. -/
def sortEntries (extent : Bounds) (entries : List FeatureEntry) : List FeatureEntry :=
  List.insertionSort
    (fun a b => scaledHilbert (b.bounds.center) extent ≤
                scaledHilbert (a.bounds.center) extent)
    entries

/-- Embeds Writer::finish end to end: sorts the entries by descending
Hilbert key (the comparator divides by the extent widths, so with at
least two entries and a zero width the sort panics in Rust, modelled as
none), writes the features into pages, writes the index for the promised
leaf count, and emits header, index and page stream. The zstd codec is
chosen when the compression flag is set, the identity codec otherwise. -/
def writeFile (zstd : Codec) (isCompressed : Bool) (goal : Nat)
    (features : List Feature) : Option (List Byte) :=
  let codec := if isCompressed then zstd else identityCodec
  let tev := writerTempAndEntries features
  let tmp := tev.1
  let entries := tev.2.1
  let extent := tev.2.2
  if 2 ≤ entries.length ∧
      (extent.unscaledLngWidth = 0 ∨ extent.unscaledLatHeight = 0) then none
  else
    match writeFeaturesGo codec goal tmp (sortEntries extent entries) initPageAcc [] with
    | none => none
    | some (acc, leaves) =>
      match pagesFinish codec acc with
      | none => none
      | some pages =>
        match rtreeWrite entries.length leaves with
        | .error _ => none
        | .ok indexBytes =>
          let header : Header := ⟨isCompressed, pages.length, features.length⟩
          some (serHeader header ++ indexBytes ++
            (pages.map (fun pg => serPageHeader pg.1 ++ pg.2)).flatten)

end Geomedea

namespace Geomedea

/-! ### Page reader (reader.rs)

The reader state carries the remaining raw bytes of the feature region,
the count of raw bytes consumed so far (CountingReader), and the current
page. Raw page payloads are accounted as consumed when the page is
opened; the source consumes them lazily, but every offset the fast
forward compares against lies at or beyond the end of the open page, so
the observable behaviour is identical and the modelled rewind assertions
are the strictest reading of the source asserts. -/

/-- Current page of the reader: its starting offset in the feature
region, the decoded length announced by its page header, and the decoded
bytes not yet consumed. -/
structure CurrentPage where
  pageStartingOffset : Nat
  decodedLen : Nat
  decodedRemaining : List Byte
  deriving DecidableEq

/-- State of the PageReader. -/
structure PageReaderSt where
  stream : List Byte
  pos : Nat
  cur : CurrentPage
  deriving DecidableEq

/-- Opens the page at the head of the stream (new_page_decoder plus the
surrounding PageHeader read): parses the 12-byte header, takes the
encoded payload, and decodes it with the zstd codec bounded by the
decoded length when the file is compressed, or reads it directly when
not. -/
def openPage (zstd : Codec) (isCompressed : Bool) (pos : Nat) (stream : List Byte) :
    Option PageReaderSt :=
  match parsePageHeader stream with
  | none => none
  | some (ph, rest) =>
    match takeN ph.encodedPageLength rest with
    | none => none
    | some (payload, rest2) =>
      let decoded := if isCompressed then (zstd.decode payload).take ph.decodedPageLength
        else payload
      some ⟨rest2, pos + PageHeader.serializedSize + ph.encodedPageLength,
        ⟨pos, ph.decodedPageLength, decoded⟩⟩

/-- Embeds PageReader::new: opens the first page at offset zero. -/
def newPageReader (zstd : Codec) (isCompressed : Bool) (stream : List Byte) :
    Option PageReaderSt :=
  openPage zstd isCompressed 0 stream

/-- Embeds PageDecoder::was_read_to_end: the current page has no decoded
bytes left. -/
def wasReadToEnd (st : PageReaderSt) : Bool := st.cur.decodedRemaining.isEmpty

/-- Embeds PageReader::ff_past_any_header: when the current page is fully
consumed, the next page starts at the current raw read count. -/
def ffPastAnyHeader (zstd : Codec) (isCompressed : Bool) (st : PageReaderSt) :
    Option PageReaderSt :=
  if wasReadToEnd st then openPage zstd isCompressed st.pos st.stream
  else some st

/-- Offset within the decoded page content
(ZstdPageDecoder::offset_within_decoded_page_content, and the running
current_feature_offset of the uncompressed decoder). -/
def offsetWithin (st : PageReaderSt) : Nat :=
  st.cur.decodedLen - st.cur.decodedRemaining.length

/-- Embeds PageDecoder::ff_to_feature_offset: asserts the target is not
behind the current offset (the rewind assertion), skips forward, and
asserts the skip copied the full distance. -/
def ffWithinPage (st : PageReaderSt) (target : Nat) : Option PageReaderSt :=
  if offsetWithin st ≤ target then
    let distance := target - offsetWithin st
    if distance ≤ st.cur.decodedRemaining.length then
      some { st with cur :=
        { st.cur with decodedRemaining := st.cur.decodedRemaining.drop distance } }
    else none
  else none

/-- Embeds PageReader::ff_to_location: stay in the current page when the
location names it; otherwise assert the location is on a later page and
not behind the raw read position (the page-level rewind assertion), skip
raw bytes, open the page there, and fast-forward within it. -/
def ffToLocation (zstd : Codec) (isCompressed : Bool) (st : PageReaderSt)
    (loc : FeatureLocation) : Option PageReaderSt :=
  if st.cur.pageStartingOffset = loc.pageStartingOffset then
    ffWithinPage st loc.featureOffset
  else if loc.pageStartingOffset > st.cur.pageStartingOffset then
    if st.pos ≤ loc.pageStartingOffset then
      match openPage zstd isCompressed loc.pageStartingOffset
          (st.stream.drop (loc.pageStartingOffset - st.pos)) with
      | none => none
      | some st2 => ffWithinPage st2 loc.featureOffset
    else none
  else none

/-- Embeds the feature read of FeatureIter::next: an 8-byte length word
(read and discarded) followed by the feature, both pulled from the
current page decoder. -/
def readFeatureFromPage (st : PageReaderSt) : Option (Feature × PageReaderSt) :=
  match readU64 st.cur.decodedRemaining with
  | none => none
  | some (_, rest) =>
    match parseFeature rest.length rest with
    | none => none
    | some (f, rest2) =>
      some (f, { st with cur := { st.cur with decodedRemaining := rest2 } })

/-- Iteration of FeatureIter::next for a full scan: features_left many
times, fast-forward past any finished page and read one feature. -/
def selectAllGo (zstd : Codec) (isCompressed : Bool) :
    Nat → PageReaderSt → Option (List Feature)
  | 0, _ => some []
  | n + 1, st =>
    match ffPastAnyHeader zstd isCompressed st with
    | none => none
    | some st1 =>
      match readFeatureFromPage st1 with
      | none => none
      | some (f, st2) => (selectAllGo zstd isCompressed n st2).map (fun fs => f :: fs)

/-- Embeds Reader::select_all: parse the header, drain the index as an
opaque byte range, open the first page, and iterate feature_count
reads. -/
def selectAll (zstd : Codec) (file : List Byte) : Option (List Feature) :=
  match parseHeader file with
  | none => none
  | some (h, rest) =>
    match newPageReader zstd h.isCompressed (rest.drop (indexSize h.featureCount)) with
    | none => none
    | some st => selectAllGo zstd h.isCompressed h.featureCount st

/-! ### Packed R-tree local reader (packed_r_tree/reader.rs) -/

/-- Parser of the node at a given node index of the serialized index
region. The stream reader of the source deserializes nodes sequentially;
a successful node parse consumes exactly 28 bytes, so node i starts at
byte 28 i. -/
def parseNodeAt (region : List Byte) (i : Nat) : Option Node :=
  (parseNode (region.drop (i * Node.serializedSize))).map (fun p => p.1)

/-- Sequential parse of count consecutive nodes starting at a node
index; mirrors read_node_range, which also deserializes (and discards)
the skipped nodes. -/
def readNodesSeq (region : List Byte) : Nat → Nat → Option (List Node)
  | _, 0 => some []
  | i, k + 1 =>
    (parseNodeAt region i).bind (fun n =>
      (readNodesSeq region (i + 1) k).map (fun ns => n :: ns))

/-- Embeds PackedRTreeReader::read_node_range: asserts the stream
position is not past the range start and the range is nonempty, parses
the skipped nodes and then the requested ones, and returns the nodes
paired with their indices. -/
def readNodeRange (region : List Byte) (nodePos : Nat) (r : NodeRange) :
    Option (List (Nat × Node)) :=
  if nodePos ≤ r.start ∧ r.start < r.stop then
    (readNodesSeq region nodePos (r.start - nodePos)).bind (fun _ =>
      (readNodesSeq region r.start (r.stop - r.start)).map
        (fun ns => (List.range' r.start (r.stop - r.start)).zip ns))
  else none

/-- Node loop of PackedRTreeReader::select_bbox: skip nodes that do not
intersect the query, emit the location of intersecting leaves, and queue
the children range of intersecting internal nodes. -/
def processNodes (leafCount : Nat) (bbox : Bounds) :
    List (Nat × Node) → List NodeRange → List FeatureLocation →
    List NodeRange × List FeatureLocation
  | [], queue, results => (queue, results)
  | (idx, node) :: rest, queue, results =>
    if node.bounds.intersects bbox then
      if isLeafNode leafCount idx then
        processNodes leafCount bbox rest queue (results ++ [node.offset])
      else
        match childrenRange leafCount idx with
        | some children => processNodes leafCount bbox rest (queue ++ [children]) results
        | none => processNodes leafCount bbox rest queue results
    else processNodes leafCount bbox rest queue results

/-- Queue loop of PackedRTreeReader::select_bbox. The fuel is a modelling
device bounding the number of pops; the source loops until the queue
drains, and the supplied fuel is proved sufficient for every reachable
queue. -/
def rtreeGo (leafCount : Nat) (region : List Byte) (bbox : Bounds) :
    Nat → List NodeRange → Nat → List FeatureLocation →
    Option (List FeatureLocation)
  | 0, _, _, _ => none
  | _ + 1, [], _, results => some results
  | fuel + 1, r :: queue, nodePos, results =>
    match readNodeRange region nodePos r with
    | none => none
    | some pairs =>
      let st := processNodes leafCount bbox pairs queue results
      rtreeGo leafCount region bbox fuel st.1 r.stop st.2

/-- Embeds PackedRTreeReader::select_bbox: empty result for an empty
tree, otherwise a queue traversal from the root range. -/
def rtreeSelectBbox (leafCount : Nat) (region : List Byte) (bbox : Bounds) :
    Option (List FeatureLocation) :=
  if leafCount = 0 then some []
  else rtreeGo leafCount region bbox (2 * nodeCount leafCount + 2) [⟨0, 1⟩] 0 []

/-- Fast-forward loop of FeatureIter::next for a bounded query: while
features remain, pull the next location, fast-forward to it, and read the
feature there. -/
def selectBboxGo (zstd : Codec) (isCompressed : Bool) :
    Nat → List FeatureLocation → PageReaderSt → Option (List Feature)
  | 0, _, _ => some []
  | _ + 1, [], _ => some []
  | n + 1, loc :: locs, st =>
    match ffToLocation zstd isCompressed st loc with
    | none => none
    | some st1 =>
      match readFeatureFromPage st1 with
      | none => none
      | some (f, st2) =>
        (selectBboxGo zstd isCompressed n locs st2).map (fun fs => f :: fs)

/-- Embeds Reader::select_bbox: parse the header, run the index traversal
over the index byte range, drain the rest of the index, open the first
page and fast-forward through the selected locations. -/
def selectBbox (zstd : Codec) (file : List Byte) (bbox : Bounds) :
    Option (List Feature) :=
  match parseHeader file with
  | none => none
  | some (h, rest) =>
    match rtreeSelectBbox h.featureCount (rest.take (indexSize h.featureCount)) bbox with
    | none => none
    | some locs =>
      match newPageReader zstd h.isCompressed (rest.drop (indexSize h.featureCount)) with
      | none => none
      | some st => selectBboxGo zstd h.isCompressed h.featureCount locs st

/-! ### HTTP tree traversal with range merging
(packed_r_tree/reader.rs, mod http) -/

/-- Embeds the combine_request_threshold constant: 16000 bytes. -/
def combineRequestThreshold : Nat := 16000

/-- Embeds combine_request_node_threshold: the byte threshold divided by
the node size (usize division). -/
def combineRequestNodeThreshold : Nat := combineRequestThreshold / Node.serializedSize

/-- Record of one children-range push of the HTTP traversal: the queue
tail inspected at that moment (if any), the pushed children range, and
whether the two were fused into one contiguous range. -/
structure PushEvent where
  tail : Option NodeRange
  children : NodeRange
  fused : Bool
  deriving DecidableEq

/-- Embeds the push of a children range in PackedRTreeHttpReader::
select_bbox: push onto an empty queue; never fuse across levels; fuse
with the tail when the new range starts within the node threshold of the
tail end; otherwise push a separate range. -/
def pushChildrenRange (leafCount : Nat) (queue : List NodeRange)
    (children : NodeRange) : List NodeRange × PushEvent :=
  match queue.getLast? with
  | none => (queue ++ [children], ⟨none, children, false⟩)
  | some tail =>
    if levelForNodeIdx leafCount tail.start ≠ levelForNodeIdx leafCount children.start
    then (queue ++ [children], ⟨some tail, children, false⟩)
    else if tail.stop + combineRequestNodeThreshold > children.start then
      (queue.dropLast ++ [⟨tail.start, children.stop⟩], ⟨some tail, children, true⟩)
    else (queue ++ [children], ⟨some tail, children, false⟩)

/-- Node loop of the HTTP select_bbox, accumulating push events. -/
def processNodesHttp (leafCount : Nat) (bbox : Bounds) :
    List (Nat × Node) → List NodeRange → List FeatureLocation → List PushEvent →
    List NodeRange × List FeatureLocation × List PushEvent
  | [], queue, results, events => (queue, results, events)
  | (idx, node) :: rest, queue, results, events =>
    if node.bounds.intersects bbox then
      if isLeafNode leafCount idx then
        processNodesHttp leafCount bbox rest queue (results ++ [node.offset]) events
      else
        match childrenRange leafCount idx with
        | some children =>
          let qe := pushChildrenRange leafCount queue children
          processNodesHttp leafCount bbox rest qe.1 results (events ++ [qe.2])
        | none => processNodesHttp leafCount bbox rest queue results events
    else processNodesHttp leafCount bbox rest queue results events

/-- Slice of the index nodes covered by a range, as the ranged HTTP read
plus node deserialization returns them (the HTTP reader addresses node i
at byte 28 i of the index and reads nodes by absolute ranges). -/
def sliceNodes (nodes : List Node) (r : NodeRange) : List (Nat × Node) :=
  (List.range' r.start (r.stop - r.start)).zip ((nodes.drop r.start).take (r.stop - r.start))

/-- Queue loop of the HTTP select_bbox, with the same fuel device as the
local traversal. -/
def httpGo (leafCount : Nat) (nodes : List Node) (bbox : Bounds) :
    Nat → List NodeRange → List FeatureLocation → List PushEvent →
    Option (List FeatureLocation × List PushEvent)
  | 0, _, _, _ => none
  | _ + 1, [], results, events => some (results, events)
  | fuel + 1, r :: queue, results, events =>
    let st := processNodesHttp leafCount bbox (sliceNodes nodes r) queue results events
    httpGo leafCount nodes bbox fuel st.1 st.2.1 st.2.2

/-- Embeds PackedRTreeHttpReader::select_bbox over the deserialized index
nodes, returning the found locations together with the log of push
events. -/
def httpSelectBbox (leafCount : Nat) (nodes : List Node) (bbox : Bounds) :
    Option (List FeatureLocation × List PushEvent) :=
  if leafCount = 0 then some ([], [])
  else httpGo leafCount nodes bbox (2 * nodeCount leafCount + 2) [⟨0, 1⟩] [] []

/-! ### Specification-side descriptions used by the theorems -/

/-- Extent of a feature list: the union of the feature bounds, as
Writer::add_feature accumulates it. -/
def extentOf (features : List Feature) : Bounds :=
  features.foldl (fun b f => b.extend f.geometry.bounds) Bounds.empty

/-- Hilbert key of a feature relative to an extent: the key of the center
of its bounds. -/
def featureKey (extent : Bounds) (f : Feature) : Nat :=
  scaledHilbert ((featureBounds f).center) extent

/-- Features in the order the writer lays them out: the stable descending
sort by Hilbert key relative to the extent of the whole list. -/
def hilbertSorted (features : List Feature) : List Feature :=
  List.insertionSort
    (fun a b => featureKey (extentOf features) b ≤ featureKey (extentOf features) a)
    features

/-- Page grouping by the rollover rule: a page accumulates elements until
its size sum strictly exceeds the goal; the element that crosses the
threshold closes the page. This is the grouping FeatureWriter::
add_feature and finish produce. -/
def paginateGo (goal : Nat) (size : α → Nat) :
    List α → List α → Nat → List (List α)
  | [], cur, _ => if cur.isEmpty then [] else [cur]
  | a :: rest, cur, curSize =>
    let cur2 := cur ++ [a]
    let s2 := curSize + size a
    if s2 > goal then cur2 :: paginateGo goal size rest [] 0
    else paginateGo goal size rest cur2 s2

/-- Pages of a list under the rollover rule. -/
def paginate (goal : Nat) (size : α → Nat) (l : List α) : List (List α) :=
  paginateGo goal size l [] 0

/-- Size of the feature block of a feature within a page. -/
def blockSize (f : Feature) : Nat := (featureBlock f).length

/-- Lexicographic order on feature locations: page offset first, feature
offset second. -/
def locLe (a b : FeatureLocation) : Prop :=
  a.pageStartingOffset < b.pageStartingOffset ∨
    (a.pageStartingOffset = b.pageStartingOffset ∧ a.featureOffset ≤ b.featureOffset)

instance locLeTrans : IsTrans FeatureLocation locLe :=
  ⟨fun a b c hab hbc => by
    rcases hab with h | ⟨h1, h2⟩ <;> rcases hbc with h3 | ⟨h3, h4⟩
    · exact Or.inl (by omega)
    · exact Or.inl (by omega)
    · exact Or.inl (by omega)
    · exact Or.inr ⟨by omega, by omega⟩⟩

/-- Concrete point feature at k times ten million scaled units on both
axes; LngLat::degrees(k, k) for whole k scales exactly to these values. -/
def diagPoint (k : Int) : Feature :=
  ⟨.point ⟨k * 10 ^ 7, k * 10 ^ 7⟩, .nil⟩

/-- Concrete four-point input of scenario S3: (0,0), (1,1), (2,2), (3,3)
in degrees. -/
def fourPoints : List Feature := [diagPoint 0, diagPoint 1, diagPoint 2, diagPoint 3]

/-- Query rectangle RECT(1 1, 2 2) in scaled units. -/
def rect12 : Bounds := ⟨⟨10 ^ 7, 10 ^ 7⟩, ⟨2 * 10 ^ 7, 2 * 10 ^ 7⟩⟩

/-- Well-formedness of an index node: in-range coordinates and location
words that fit their widths. -/
def wfNode (n : Node) : Bool :=
  wfLngLat n.bounds.min && wfLngLat n.bounds.max &&
  decide (n.offset.pageStartingOffset < 2 ^ 64) && decide (n.offset.featureOffset < 2 ^ 32)

/-- Number of levels of the packed R-tree. -/
def numLevels (L : Nat) : Nat := (nodesPerLevel L).length

/-- First node index of level i (levels counted root first). -/
def levelStart (L i : Nat) : Nat := ((nodesPerLevel L).take i).sum

/-- Number of nodes of level i. -/
def levelWidth (L i : Nat) : Nat := ((nodesPerLevel L)[i]?).getD 0

/-- First node index of the leaf level. -/
def leafStart (L : Nat) : Nat := levelStart L (numLevels L - 1)

/-- Decoded content of a page holding the given features: the
concatenation of their length-prefixed blocks. -/
def pageDecoded (g : List Feature) : List Byte := (g.map featureBlock).flatten

/-- Encoded payload of a page holding the given features. -/
def encPage (codec : Codec) (g : List Feature) : List Byte :=
  codec.encode (pageDecoded g)

/-- Page record (header and encoded payload) of a finished page holding
the given features, with the u32 casts the writer performs. -/
def pageRecOf (codec : Codec) (g : List Feature) : PageHeader × List Byte :=
  (⟨(encPage codec g).length, (pageDecoded g).length % 2 ^ 32, g.length % 2 ^ 32⟩,
   encPage codec g)

/-- Closed form of the page records the feature writer produces from the
remaining features, given the features already on the open page. -/
def contPages (codec : Codec) (goal : Nat) :
    List Feature → List Feature → List (PageHeader × List Byte)
  | [], cur => if cur.isEmpty then [] else [pageRecOf codec cur]
  | f :: rest, cur =>
    let cur2 := cur ++ [f]
    if (pageDecoded cur2).length > goal then
      pageRecOf codec cur2 :: contPages codec goal rest []
    else contPages codec goal rest cur2

/-- Closed form of the feature locations the feature writer assigns to
the remaining features, given the starting offset of the open page and
the features already on it. -/
def contLocs (codec : Codec) (goal : Nat) :
    List Feature → Nat → List Feature → List FeatureLocation
  | [], _, _ => []
  | f :: rest, pageStart, cur =>
    ⟨pageStart, (pageDecoded cur).length % 2 ^ 32⟩ ::
    (let cur2 := cur ++ [f]
     if (pageDecoded cur2).length > goal then
       contLocs codec goal rest
         (pageStart + (encPage codec cur2).length + PageHeader.serializedSize) []
     else contLocs codec goal rest pageStart cur2)

/-- Pairs of nodes built from bounds and locations, as write_features
pushes them. -/
def zipLeaves (bs : List Bounds) (locs : List FeatureLocation) : List Node :=
  (bs.zip locs).map (fun p => ⟨p.1, p.2⟩)

/-- Contents of the temporary feature store after all add_feature calls:
the serialized features in input order. -/
def tmpStore (features : List Feature) : List Byte := (features.map serFeature).flatten

/-- Entry list the writer accumulates, paired with the feature each entry
stands for; the offset argument is the store length when the walk
starts. -/
def pairsSpec : List Feature → Nat → List (FeatureEntry × Feature)
  | [], _ => []
  | f :: rest, off =>
    (⟨f.geometry.bounds, off⟩, f) :: pairsSpec rest (off + (serFeature f).length)

/-- A relation on pairs looking only at the first component. -/
def liftRel {α β : Type} (r : α → α → Prop) (a b : α × β) : Prop := r a.1 b.1

instance liftRelDec {α β : Type} (r : α → α → Prop) [DecidableRel r] :
    DecidableRel (@liftRel α β r) :=
  fun a b => inferInstanceAs (Decidable (r a.1 b.1))

/-- The descending comparator of Writer::finish on entries. -/
def entryCmp (extent : Bounds) (a b : FeatureEntry) : Prop :=
  scaledHilbert b.bounds.center extent ≤ scaledHilbert a.bounds.center extent

instance entryCmpDec (extent : Bounds) : DecidableRel (entryCmp extent) :=
  fun a b => inferInstanceAs (Decidable (_ ≤ _))

/-- The same descending comparator expressed on features. -/
def keyCmp (extent : Bounds) (a b : Feature) : Prop :=
  featureKey extent b ≤ featureKey extent a

instance keyCmpDec (extent : Bounds) : DecidableRel (keyCmp extent) :=
  fun a b => inferInstanceAs (Decidable (_ ≤ _))

/-- Index bytes of a nonempty tree: the levels root first, serialized
node by node. -/
def indexBytesOf (leaves : List Node) : List Byte :=
  ((rtreeLevels leaves).reverse.map (fun lvl => (lvl.map serNode).flatten)).flatten

/-- Page records the writer emits for the sorted feature list: the closed
form pages, or the single sentinel page when there are none. -/
def writtenPages (codec : Codec) (goal : Nat) (sorted : List Feature) :
    List (PageHeader × List Byte) :=
  if (contPages codec goal sorted []).isEmpty then [(⟨0, 0, 0⟩, [])]
  else contPages codec goal sorted []

/-- Feature locations the writer assigns to the sorted feature list. -/
def writtenLocs (codec : Codec) (goal : Nat) (sorted : List Feature) :
    List FeatureLocation :=
  contLocs codec goal sorted 0 []

/-- Index leaves the writer pushes for the sorted feature list. -/
def writtenLeaves (codec : Codec) (goal : Nat) (sorted : List Feature) : List Node :=
  zipLeaves (sorted.map featureBounds) (writtenLocs codec goal sorted)

/-- Byte stream of the feature pages: each page header followed by its
encoded payload. -/
def pageStream (pages : List (PageHeader × List Byte)) : List Byte :=
  (pages.map (fun pg => serPageHeader pg.1 ++ pg.2)).flatten

/-- Codec the file is written and read with. -/
def fileCodec (zstd : Codec) (isCompressed : Bool) : Codec :=
  if isCompressed then zstd else identityCodec

/-- Two distinct point features sharing a longitude: their extent has a
zero longitude width, so the Hilbert comparator of Writer::finish divides
by zero on this input. -/
def samePoints : List Feature :=
  [⟨.point ⟨0, 0⟩, .nil⟩, ⟨.point ⟨0, 10 ^ 7⟩, .nil⟩]

/-- All index nodes root level first, in the order the index serializes
them. -/
def treeNodes (leaves : List Node) : List Node :=
  ((rtreeLevels leaves).reverse).flatten

/-- Level sizes leaf first obtained by iterating the parent level size k
times from a start size. -/
def sizesIter : Nat → Nat → List Nat
  | 0, _ => []
  | k + 1, n => n :: sizesIter k (nextLevelSize n)

/-- Shape invariant of a queued range of the HTTP traversal: it lies
within one level, its start is sixteen-aligned within the level, and its
stop is sixteen-aligned or the level end. -/
def rangeWfHttp (L : Nat) (r : NodeRange) : Prop :=
  ∃ i, i < numLevels L ∧ levelStart L i ≤ r.start ∧ r.start < levelStart L (i + 1) ∧
    levelStart L i ≤ r.stop ∧ r.stop ≤ levelStart L (i + 1) ∧
    (r.start - levelStart L i) % 16 = 0 ∧
    ((r.stop - levelStart L i) % 16 = 0 ∨ r.stop = levelStart L (i + 1))

/-- The claim C4 reading of one push event: fused exactly when the tail
exists, lies on the same level, and the gap from the tail end to the new
start is at most b — for every cutoff b between 560 and 575, which covers
both the floor 571 = 16000 / 28 the code uses and the ceiling 572 of the
spec text. -/
def fuseEventOk (L : Nat) (ev : PushEvent) : Prop :=
  ∀ b : Nat, 560 ≤ b → b < 576 →
    (ev.fused = true ↔ ∃ t, ev.tail = some t ∧
      levelForNodeIdx L t.start = levelForNodeIdx L ev.children.start ∧
      ev.children.start - t.stop ≤ b)

/-- Well-formed bounds: both corners have in-range coordinates. -/
def wfBounds (b : Bounds) : Bool := wfLngLat b.min && wfLngLat b.max

/-- Features the local tree traversal should emit from one node: nothing
when the node does not intersect the query, the node location at a leaf,
and the concatenation over the children for an inner node. The fuel is
the tree depth. -/
def emitNode (L : Nat) (nds : List Node) (bbox : Bounds) :
    Nat → Nat → List FeatureLocation
  | 0, _ => []
  | fuel + 1, idx =>
    match nds[idx]? with
    | none => []
    | some node =>
      if node.bounds.intersects bbox then
        if isLeafNode L idx then [node.offset]
        else
          match childrenRange L idx with
          | none => []
          | some c =>
            ((List.range' c.start (c.stop - c.start)).map
              (emitNode L nds bbox fuel)).flatten
      else []

/-- Emissions of a whole node range. -/
def emitRange (L : Nat) (nds : List Node) (bbox : Bounds) (fuel : Nat)
    (r : NodeRange) : List FeatureLocation :=
  ((List.range' r.start (r.stop - r.start)).map (emitNode L nds bbox fuel)).flatten

/-- Location and feature of each feature of one page, walking from the
features already placed before them. -/
def pageItemsGo (start : Nat) : List Feature → List Feature →
    List (FeatureLocation × Feature)
  | _, [] => []
  | pre, f :: rest =>
    (⟨start, (pageDecoded pre).length % 2 ^ 32⟩, f) :: pageItemsGo start (pre ++ [f]) rest

/-- Location and feature of every feature of a page sequence starting at
a byte position of the feature region. -/
def streamItems (codec : Codec) : Nat → List (List Feature) →
    List (FeatureLocation × Feature)
  | _, [] => []
  | pos, gs :: rest =>
    pageItemsGo pos [] gs ++
      streamItems codec (pos + PageHeader.serializedSize + (encPage codec gs).length) rest

/-- Locations paired with their features along the rollover recursion of
the feature writer; the first projection is contLocs. -/
def contItems (codec : Codec) (goal : Nat) :
    List Feature → Nat → List Feature → List (FeatureLocation × Feature)
  | [], _, _ => []
  | f :: rest, pageStart, cur =>
    (⟨pageStart, (pageDecoded cur).length % 2 ^ 32⟩, f) ::
    (if (pageDecoded (cur ++ [f])).length > goal then
      contItems codec goal rest
        (pageStart + (encPage codec (cur ++ [f])).length + PageHeader.serializedSize) []
    else contItems codec goal rest pageStart (cur ++ [f]))

/-- Level j of the built tree counted from the leaves: apply the parent
construction j times. -/
def levelNodes (leaves : List Node) : Nat → List Node
  | 0 => leaves
  | j + 1 => parentNodes (levelNodes leaves j)

/-- Leaves of the subtree rooted at position p of depth-j level: the
segment of sixteen-to-the-j consecutive leaves starting at p times that
width, clamped at the end. -/
def segLeaves (leaves : List Node) (j p : Nat) : List Node :=
  (leaves.drop (p * branchingFactor ^ j)).take (branchingFactor ^ j)

/-- Width of the tree level at depth j above the leaves. -/
def depthWidth (L : Nat) : Nat → Nat
  | 0 => L
  | j + 1 => nextLevelSize (depthWidth L j)

/-- Containment order on bounds: the first rectangle lies inside the
second. -/
def boundsLe (inner outer : Bounds) : Prop :=
  outer.min.lng ≤ inner.min.lng ∧ outer.min.lat ≤ inner.min.lat ∧
    inner.max.lng ≤ outer.max.lng ∧ inner.max.lat ≤ outer.max.lat

/-- Relation between a reader state and the written page layout: the
current page holds the features pre then post with pre consumed, and the
raw stream holds the encoded later pages. -/
def pageMatch (codec : Codec) (st : PageReaderSt) (pageStart : Nat)
    (pre post : List Feature) (gss : List (List Feature)) : Prop :=
  st.cur.pageStartingOffset = pageStart ∧
  st.cur.decodedLen = (pageDecoded (pre ++ post)).length ∧
  st.cur.decodedRemaining = pageDecoded post ∧
  st.pos = pageStart + PageHeader.serializedSize +
    (encPage codec (pre ++ post)).length ∧
  st.stream = pageStream (gss.map (pageRecOf codec))

end Geomedea

namespace Geomedea

/-! ## Lemmas: little-endian primitives -/

theorem takeN_append (l r : List Byte) : takeN l.length (l ++ r) = some (l, r) := by
  simp [takeN]

theorem takeN_append_of_eq {k : Nat} (l r : List Byte) (h : l.length = k) :
    takeN k (l ++ r) = some (l, r) := by
  subst h; exact takeN_append l r

theorem u32le_length (n : Nat) : (u32le n).length = 4 := by simp [u32le]

theorem u64le_length (n : Nat) : (u64le n).length = 8 := by simp [u64le]

theorem u16le_length (n : Nat) : (u16le n).length = 2 := by simp [u16le]

theorem u8le_length (n : Nat) : (u8le n).length = 1 := by simp [u8le]

theorem leValue_u32le (n : Nat) (h : n < 2 ^ 32) : leValue (u32le n) = n := by
  simp only [u32le, leValue, List.foldr]
  omega

theorem leValue_u64le (n : Nat) (h : n < 2 ^ 64) : leValue (u64le n) = n := by
  simp only [u64le, leValue, List.foldr]
  omega

theorem leValue_u16le (n : Nat) (h : n < 2 ^ 16) : leValue (u16le n) = n := by
  simp only [u16le, leValue, List.foldr]
  omega

theorem leValue_u8le (n : Nat) (h : n < 2 ^ 8) : leValue (u8le n) = n := by
  simp only [u8le, leValue, List.foldr]
  omega

theorem readU32_u32le (n : Nat) (r : List Byte) (h : n < 2 ^ 32) :
    readU32 (u32le n ++ r) = some (n, r) := by
  simp [readU32, takeN_append_of_eq _ _ (u32le_length n), leValue_u32le n h]

theorem readU64_u64le (n : Nat) (r : List Byte) (h : n < 2 ^ 64) :
    readU64 (u64le n ++ r) = some (n, r) := by
  simp [readU64, takeN_append_of_eq _ _ (u64le_length n), leValue_u64le n h]

theorem readU16_u16le (n : Nat) (r : List Byte) (h : n < 2 ^ 16) :
    readU16 (u16le n ++ r) = some (n, r) := by
  simp [readU16, takeN_append_of_eq _ _ (u16le_length n), leValue_u16le n h]

theorem readU8_u8le (n : Nat) (r : List Byte) (h : n < 2 ^ 8) :
    readU8 (u8le n ++ r) = some (n, r) := by
  simp [readU8, takeN_append_of_eq _ _ (u8le_length n), leValue_u8le n h]

theorem intToU32_lt (z : Int) : intToU32 z < 2 ^ 32 := by
  simp only [intToU32]
  omega

theorem intToU64_lt (z : Int) : intToU64 z < 2 ^ 64 := by
  simp only [intToU64]
  omega

theorem intToU16_lt (z : Int) : intToU16 z < 2 ^ 16 := by
  simp only [intToU16]
  omega

theorem intToU8_lt (z : Int) : intToU8 z < 2 ^ 8 := by
  simp only [intToU8]
  omega

theorem u32ToInt_intToU32 (z : Int) (h1 : i32Min ≤ z) (h2 : z ≤ i32Max) :
    u32ToInt (intToU32 z) = z := by
  simp only [u32ToInt, intToU32, i32Min, i32Max] at *
  omega

theorem u64ToInt_intToU64 (z : Int) (h1 : -(2 ^ 63) ≤ z) (h2 : z < 2 ^ 63) :
    u64ToInt (intToU64 z) = z := by
  simp only [u64ToInt, intToU64] at *
  omega

theorem u16ToInt_intToU16 (z : Int) (h1 : -(2 ^ 15) ≤ z) (h2 : z < 2 ^ 15) :
    u16ToInt (intToU16 z) = z := by
  simp only [u16ToInt, intToU16] at *
  omega

theorem u8ToInt_intToU8 (z : Int) (h1 : -(2 ^ 7) ≤ z) (h2 : z < 2 ^ 7) :
    u8ToInt (intToU8 z) = z := by
  simp only [u8ToInt, intToU8] at *
  omega

theorem readI32_i32le (z : Int) (r : List Byte) (h1 : i32Min ≤ z) (h2 : z ≤ i32Max) :
    readI32 (i32le z ++ r) = some (z, r) := by
  simp [readI32, i32le, readU32_u32le _ _ (intToU32_lt z), u32ToInt_intToU32 z h1 h2]

theorem readI64_i64le (z : Int) (r : List Byte) (h1 : -(2 ^ 63) ≤ z) (h2 : z < 2 ^ 63) :
    readI64 (i64le z ++ r) = some (z, r) := by
  simp [readI64, i64le, readU64_u64le _ _ (intToU64_lt z), u64ToInt_intToU64 z h1 h2]

theorem readI16_i16le (z : Int) (r : List Byte) (h1 : -(2 ^ 15) ≤ z) (h2 : z < 2 ^ 15) :
    readI16 (i16le z ++ r) = some (z, r) := by
  simp [readI16, i16le, readU16_u16le _ _ (intToU16_lt z), u16ToInt_intToU16 z h1 h2]

theorem readI8_i8le (z : Int) (r : List Byte) (h1 : -(2 ^ 7) ≤ z) (h2 : z < 2 ^ 7) :
    readI8 (i8le z ++ r) = some (z, r) := by
  simp [readI8, i8le, readU8_u8le _ _ (intToU8_lt z), u8ToInt_intToU8 z h1 h2]

theorem readBool_ser (b : Bool) (r : List Byte) :
    readBool ((if b then 1 else 0) :: r) = some (b, r) := by
  cases b <;> simp [readBool]

end Geomedea

namespace Geomedea

/-! ## Lemmas: record round trips -/

theorem parseLngLat_ser (p : LngLat) (r : List Byte) (h : wfLngLat p = true) :
    parseLngLat (serLngLat p ++ r) = some (p, r) := by
  simp only [wfLngLat, Bool.and_eq_true, decide_eq_true_eq] at h
  simp [parseLngLat, serLngLat, List.append_assoc,
    readI32_i32le _ _ h.1.1.1 h.1.1.2, readI32_i32le _ _ h.1.2 h.2]

theorem parseBounds_ser (b : Bounds) (r : List Byte)
    (h1 : wfLngLat b.min = true) (h2 : wfLngLat b.max = true) :
    parseBounds (serBounds b ++ r) = some (b, r) := by
  simp [parseBounds, serBounds, List.append_assoc, parseLngLat_ser _ _ h1,
    parseLngLat_ser _ _ h2]

theorem parseFeatureLocation_ser (loc : FeatureLocation) (r : List Byte)
    (h1 : loc.pageStartingOffset < 2 ^ 64) (h2 : loc.featureOffset < 2 ^ 32) :
    parseFeatureLocation (serFeatureLocation loc ++ r) = some (loc, r) := by
  simp [parseFeatureLocation, serFeatureLocation, List.append_assoc,
    readU64_u64le _ _ h1, readU32_u32le _ _ h2]

theorem parseNode_ser (n : Node) (r : List Byte) (h : wfNode n = true) :
    parseNode (serNode n ++ r) = some (n, r) := by
  simp only [wfNode, Bool.and_eq_true, decide_eq_true_eq] at h
  simp [parseNode, serNode, List.append_assoc, parseBounds_ser _ _ h.1.1.1 h.1.1.2,
    parseFeatureLocation_ser _ _ h.1.2 h.2]

theorem serNode_length (n : Node) : (serNode n).length = Node.serializedSize := by
  simp [serNode, serBounds, serLngLat, serFeatureLocation, i32le, u32le, u64le,
    Node.serializedSize]

theorem parsePageHeader_ser (h : PageHeader) (r : List Byte)
    (h1 : h.encodedPageLength < 2 ^ 32) (h2 : h.decodedPageLength < 2 ^ 32)
    (h3 : h.featureCount < 2 ^ 32) :
    parsePageHeader (serPageHeader h ++ r) = some (h, r) := by
  simp [parsePageHeader, serPageHeader, List.append_assoc, readU32_u32le _ _ h1,
    readU32_u32le _ _ h2, readU32_u32le _ _ h3]

theorem serPageHeader_length (h : PageHeader) :
    (serPageHeader h).length = PageHeader.serializedSize := by
  simp [serPageHeader, u32le, PageHeader.serializedSize]

theorem parseHeader_ser (h : Header) (r : List Byte)
    (h1 : h.pageCount < 2 ^ 64) (h2 : h.featureCount < 2 ^ 64) :
    parseHeader (serHeader h ++ r) = some (h, r) := by
  simp [parseHeader, serHeader, List.append_assoc, readBool_ser, readU64_u64le _ _ h1,
    readU64_u64le _ _ h2]

theorem serHeader_length (h : Header) : (serHeader h).length = 17 := by
  cases h with
  | mk c p f => cases c <;> simp [serHeader, u64le]

end Geomedea

namespace Geomedea

/-! ## Lemmas: geometry and feature round trip -/

theorem parseLngLatSeq_ser (ps : List LngLat) (r : List Byte)
    (h : ps.all wfLngLat = true) :
    parseLngLatSeq ps.length ((ps.map serLngLat).flatten ++ r) = some (ps, r) := by
  induction ps with
  | nil => simp [parseLngLatSeq]
  | cons p tl ih =>
    simp only [List.all_cons, Bool.and_eq_true] at h
    simp [parseLngLatSeq, List.append_assoc, parseLngLat_ser p _ h.1, ih h.2]

theorem parseVecLngLat_ser (ps : List LngLat) (r : List Byte)
    (h : wfPointList ps = true) :
    parseVecLngLat (serVec serLngLat ps ++ r) = some (ps, r) := by
  simp only [wfPointList, Bool.and_eq_true, wfLen, decide_eq_true_eq] at h
  simp [parseVecLngLat, serVec, List.append_assoc, readU64_u64le _ _ h.1,
    parseLngLatSeq_ser ps r h.2]

theorem parseRingSeq_ser (rs : List (List LngLat)) (r : List Byte)
    (h : rs.all wfPointList = true) :
    parseRingSeq rs.length ((rs.map (serVec serLngLat)).flatten ++ r) = some (rs, r) := by
  induction rs with
  | nil => simp [parseRingSeq]
  | cons ring tl ih =>
    simp only [List.all_cons, Bool.and_eq_true] at h
    simp [parseRingSeq, List.append_assoc, parseVecLngLat_ser ring _ h.1, ih h.2]

theorem parseVecRings_ser (rs : List (List LngLat)) (r : List Byte)
    (h : wfRingList rs = true) :
    parseVecRings (serVec (serVec serLngLat) rs ++ r) = some (rs, r) := by
  simp only [wfRingList, Bool.and_eq_true, wfLen, decide_eq_true_eq] at h
  simp [parseVecRings, serVec, List.append_assoc, readU64_u64le _ _ h.1,
    parseRingSeq_ser rs r h.2]

theorem parsePolygonSeq_ser (ps : List (List (List LngLat))) (r : List Byte)
    (h : ps.all wfRingList = true) :
    parsePolygonSeq ps.length ((ps.map (serVec (serVec serLngLat))).flatten ++ r) =
      some (ps, r) := by
  induction ps with
  | nil => simp [parsePolygonSeq]
  | cons poly tl ih =>
    simp only [List.all_cons, Bool.and_eq_true] at h
    simp [parsePolygonSeq, List.append_assoc, parseVecRings_ser poly _ h.1, ih h.2]

theorem parseVecPolygons_ser (ps : List (List (List LngLat))) (r : List Byte)
    (h : wfPolygonList ps = true) :
    parseVecPolygons (serVec (serVec (serVec serLngLat)) ps ++ r) = some (ps, r) := by
  simp only [wfPolygonList, Bool.and_eq_true, wfLen, decide_eq_true_eq] at h
  simp [parseVecPolygons, serVec, List.append_assoc, readU64_u64le _ _ h.1,
    parsePolygonSeq_ser ps r h.2]

theorem geometry_fuelMeasure_pos (g : Geometry) : 1 ≤ g.fuelMeasure := by
  cases g <;> simp [Geometry.fuelMeasure]

theorem parseGeometry_ser (g : Geometry) :
    wfGeometry g = true → ∀ fuel r, g.fuelMeasure ≤ fuel →
      parseGeometry fuel (serGeometry g ++ r) = some (g, r) := by
  refine @Geometry.rec
    (fun g => wfGeometry g = true → ∀ fuel r, g.fuelMeasure ≤ fuel →
      parseGeometry fuel (serGeometry g ++ r) = some (g, r))
    (fun gs => wfGeometryList gs = true → ∀ fuel r, gs.fuelMeasure ≤ fuel →
      parseGeometrySeq fuel gs.length (serGeometryList gs ++ r) = some (gs, r))
    ?_ ?_ ?_ ?_ ?_ ?_ ?_ ?_ ?_ g
  · intro p h fuel r hf
    obtain ⟨f, rfl⟩ : ∃ f, fuel = f + 1 :=
      ⟨fuel - 1, by have := geometry_fuelMeasure_pos (.point p); omega⟩
    simp only [wfGeometry] at h
    simp [parseGeometry, serGeometry, List.append_assoc,
      readU32_u32le 0 _ (by norm_num), parseLngLat_ser p _ h]
  · intro ps h fuel r hf
    obtain ⟨f, rfl⟩ : ∃ f, fuel = f + 1 :=
      ⟨fuel - 1, by have := geometry_fuelMeasure_pos (.lineString ps); omega⟩
    simp only [wfGeometry] at h
    simp [parseGeometry, serGeometry, List.append_assoc,
      readU32_u32le 1 _ (by norm_num), parseVecLngLat_ser ps _ h]
  · intro rs h fuel r hf
    obtain ⟨f, rfl⟩ : ∃ f, fuel = f + 1 :=
      ⟨fuel - 1, by have := geometry_fuelMeasure_pos (.polygon rs); omega⟩
    simp only [wfGeometry] at h
    simp [parseGeometry, serGeometry, List.append_assoc,
      readU32_u32le 2 _ (by norm_num), parseVecRings_ser rs _ h]
  · intro ps h fuel r hf
    obtain ⟨f, rfl⟩ : ∃ f, fuel = f + 1 :=
      ⟨fuel - 1, by have := geometry_fuelMeasure_pos (.multiPoint ps); omega⟩
    simp only [wfGeometry] at h
    simp [parseGeometry, serGeometry, List.append_assoc,
      readU32_u32le 3 _ (by norm_num), parseVecLngLat_ser ps _ h]
  · intro ls h fuel r hf
    obtain ⟨f, rfl⟩ : ∃ f, fuel = f + 1 :=
      ⟨fuel - 1, by have := geometry_fuelMeasure_pos (.multiLineString ls); omega⟩
    simp only [wfGeometry] at h
    simp [parseGeometry, serGeometry, List.append_assoc,
      readU32_u32le 4 _ (by norm_num), parseVecRings_ser ls _ h]
  · intro ps h fuel r hf
    obtain ⟨f, rfl⟩ : ∃ f, fuel = f + 1 :=
      ⟨fuel - 1, by have := geometry_fuelMeasure_pos (.multiPolygon ps); omega⟩
    simp only [wfGeometry] at h
    simp [parseGeometry, serGeometry, List.append_assoc,
      readU32_u32le 5 _ (by norm_num), parseVecPolygons_ser ps _ h]
  · intro gs ih h fuel r hf
    obtain ⟨f, rfl⟩ : ∃ f, fuel = f + 1 :=
      ⟨fuel - 1, by have := geometry_fuelMeasure_pos (.geometryCollection gs); omega⟩
    simp only [wfGeometry, Bool.and_eq_true, wfLen, decide_eq_true_eq] at h
    have hm : gs.fuelMeasure ≤ f := by
      simp only [Geometry.fuelMeasure] at hf; omega
    simp [parseGeometry, serGeometry, List.append_assoc,
      readU32_u32le 6 _ (by norm_num), readU64_u64le _ _ h.1, ih h.2 f r hm]
  · intro _ fuel r _
    simp [parseGeometrySeq, GeometryList.length, serGeometryList]
  · intro g gs ihg ihgs h fuel r hf
    simp only [wfGeometryList, Bool.and_eq_true] at h
    simp only [GeometryList.fuelMeasure] at hf
    obtain ⟨f, rfl⟩ : ∃ f, fuel = f + 1 := ⟨fuel - 1, by omega⟩
    have hlen : GeometryList.length (.cons g gs) = gs.length + 1 := by
      simp [GeometryList.length, Nat.add_comm]
    rw [hlen]
    simp [parseGeometrySeq, serGeometryList, List.append_assoc,
      ihg h.1 f _ (by omega), ihgs h.2 f r (by omega)]

end Geomedea

namespace Geomedea

theorem propertyValue_fuelMeasure_pos (v : PropertyValue) : 1 ≤ v.fuelMeasure := by
  cases v <;> simp [PropertyValue.fuelMeasure]

theorem parsePropertyValue_ser (v : PropertyValue) :
    wfPropertyValue v = true → ∀ fuel r, v.fuelMeasure ≤ fuel →
      parsePropertyValue fuel (serPropertyValue v ++ r) = some (v, r) := by
  refine @PropertyValue.rec
    (fun v => wfPropertyValue v = true → ∀ fuel r, v.fuelMeasure ≤ fuel →
      parsePropertyValue fuel (serPropertyValue v ++ r) = some (v, r))
    (fun vs => wfPropertyValueList vs = true → ∀ fuel r, vs.fuelMeasure ≤ fuel →
      parsePropertyValueSeq fuel vs.length (serPropertyValueList vs ++ r) = some (vs, r))
    (fun ps => wfPropertyPairList ps = true → ∀ fuel r, ps.fuelMeasure ≤ fuel →
      parsePropertyPairSeq fuel ps.length (serPropertyPairList ps ++ r) = some (ps, r))
    ?_ ?_ ?_ ?_ ?_ ?_ ?_ ?_ ?_ ?_ ?_ ?_ ?_ ?_ ?_ ?_ ?_ ?_ ?_ v
  · intro b _ fuel r hf
    obtain ⟨f, rfl⟩ : ∃ f, fuel = f + 1 :=
      ⟨fuel - 1, by have := propertyValue_fuelMeasure_pos (.boolV b); omega⟩
    simp [parsePropertyValue, serPropertyValue, List.append_assoc,
      readU32_u32le 0 _ (by norm_num), readBool_ser]
  · intro z h fuel r hf
    obtain ⟨f, rfl⟩ : ∃ f, fuel = f + 1 :=
      ⟨fuel - 1, by have := propertyValue_fuelMeasure_pos (.int8 z); omega⟩
    simp only [wfPropertyValue, Bool.and_eq_true, decide_eq_true_eq] at h
    simp [parsePropertyValue, serPropertyValue, List.append_assoc,
      readU32_u32le 1 _ (by norm_num), readI8_i8le _ _ h.1 h.2]
  · intro n h fuel r hf
    obtain ⟨f, rfl⟩ : ∃ f, fuel = f + 1 :=
      ⟨fuel - 1, by have := propertyValue_fuelMeasure_pos (.uint8 n); omega⟩
    simp only [wfPropertyValue, decide_eq_true_eq] at h
    simp [parsePropertyValue, serPropertyValue, List.append_assoc,
      readU32_u32le 2 _ (by norm_num), readU8_u8le _ _ h]
  · intro z h fuel r hf
    obtain ⟨f, rfl⟩ : ∃ f, fuel = f + 1 :=
      ⟨fuel - 1, by have := propertyValue_fuelMeasure_pos (.int16 z); omega⟩
    simp only [wfPropertyValue, Bool.and_eq_true, decide_eq_true_eq] at h
    simp [parsePropertyValue, serPropertyValue, List.append_assoc,
      readU32_u32le 3 _ (by norm_num), readI16_i16le _ _ h.1 h.2]
  · intro n h fuel r hf
    obtain ⟨f, rfl⟩ : ∃ f, fuel = f + 1 :=
      ⟨fuel - 1, by have := propertyValue_fuelMeasure_pos (.uint16 n); omega⟩
    simp only [wfPropertyValue, decide_eq_true_eq] at h
    simp [parsePropertyValue, serPropertyValue, List.append_assoc,
      readU32_u32le 4 _ (by norm_num), readU16_u16le _ _ h]
  · intro z h fuel r hf
    obtain ⟨f, rfl⟩ : ∃ f, fuel = f + 1 :=
      ⟨fuel - 1, by have := propertyValue_fuelMeasure_pos (.int32 z); omega⟩
    simp only [wfPropertyValue, Bool.and_eq_true, decide_eq_true_eq] at h
    have h1 : i32Min ≤ z := by simp only [i32Min]; omega
    have h2 : z ≤ i32Max := by simp only [i32Max]; omega
    simp [parsePropertyValue, serPropertyValue, List.append_assoc,
      readU32_u32le 5 _ (by norm_num), readI32_i32le _ _ h1 h2]
  · intro n h fuel r hf
    obtain ⟨f, rfl⟩ : ∃ f, fuel = f + 1 :=
      ⟨fuel - 1, by have := propertyValue_fuelMeasure_pos (.uint32 n); omega⟩
    simp only [wfPropertyValue, decide_eq_true_eq] at h
    simp [parsePropertyValue, serPropertyValue, List.append_assoc,
      readU32_u32le 6 _ (by norm_num), readU32_u32le _ _ h]
  · intro z h fuel r hf
    obtain ⟨f, rfl⟩ : ∃ f, fuel = f + 1 :=
      ⟨fuel - 1, by have := propertyValue_fuelMeasure_pos (.int64 z); omega⟩
    simp only [wfPropertyValue, Bool.and_eq_true, decide_eq_true_eq] at h
    simp [parsePropertyValue, serPropertyValue, List.append_assoc,
      readU32_u32le 7 _ (by norm_num), readI64_i64le _ _ h.1 h.2]
  · intro n h fuel r hf
    obtain ⟨f, rfl⟩ : ∃ f, fuel = f + 1 :=
      ⟨fuel - 1, by have := propertyValue_fuelMeasure_pos (.uint64 n); omega⟩
    simp only [wfPropertyValue, decide_eq_true_eq] at h
    simp [parsePropertyValue, serPropertyValue, List.append_assoc,
      readU32_u32le 8 _ (by norm_num), readU64_u64le _ _ h]
  · intro bits h fuel r hf
    obtain ⟨f, rfl⟩ : ∃ f, fuel = f + 1 :=
      ⟨fuel - 1, by have := propertyValue_fuelMeasure_pos (.float32 bits); omega⟩
    simp only [wfPropertyValue, decide_eq_true_eq] at h
    simp [parsePropertyValue, serPropertyValue, List.append_assoc,
      readU32_u32le 9 _ (by norm_num), readU32_u32le _ _ h]
  · intro bits h fuel r hf
    obtain ⟨f, rfl⟩ : ∃ f, fuel = f + 1 :=
      ⟨fuel - 1, by have := propertyValue_fuelMeasure_pos (.float64 bits); omega⟩
    simp only [wfPropertyValue, decide_eq_true_eq] at h
    simp [parsePropertyValue, serPropertyValue, List.append_assoc,
      readU32_u32le 10 _ (by norm_num), readU64_u64le _ _ h]
  · intro bs h fuel r hf
    obtain ⟨f, rfl⟩ : ∃ f, fuel = f + 1 :=
      ⟨fuel - 1, by have := propertyValue_fuelMeasure_pos (.bytes bs); omega⟩
    simp only [wfPropertyValue, Bool.and_eq_true, wfLen, decide_eq_true_eq] at h
    simp [parsePropertyValue, serPropertyValue, List.append_assoc,
      readU32_u32le 11 _ (by norm_num), readU64_u64le _ _ h.1, takeN_append]
  · intro s h fuel r hf
    obtain ⟨f, rfl⟩ : ∃ f, fuel = f + 1 :=
      ⟨fuel - 1, by have := propertyValue_fuelMeasure_pos (.stringV s); omega⟩
    simp only [wfPropertyValue, Bool.and_eq_true, wfLen, decide_eq_true_eq] at h
    simp [parsePropertyValue, serPropertyValue, List.append_assoc,
      readU32_u32le 12 _ (by norm_num), readU64_u64le _ _ h.1, takeN_append]
  · intro vs ih h fuel r hf
    obtain ⟨f, rfl⟩ : ∃ f, fuel = f + 1 :=
      ⟨fuel - 1, by have := propertyValue_fuelMeasure_pos (.vec vs); omega⟩
    simp only [wfPropertyValue, Bool.and_eq_true, wfLen, decide_eq_true_eq] at h
    have hm : vs.fuelMeasure ≤ f := by
      simp only [PropertyValue.fuelMeasure] at hf; omega
    simp [parsePropertyValue, serPropertyValue, List.append_assoc,
      readU32_u32le 13 _ (by norm_num), readU64_u64le _ _ h.1, ih h.2 f r hm]
  · intro ps ih h fuel r hf
    obtain ⟨f, rfl⟩ : ∃ f, fuel = f + 1 :=
      ⟨fuel - 1, by have := propertyValue_fuelMeasure_pos (.mapV ps); omega⟩
    simp only [wfPropertyValue, Bool.and_eq_true, wfLen, decide_eq_true_eq] at h
    have hm : ps.fuelMeasure ≤ f := by
      simp only [PropertyValue.fuelMeasure] at hf; omega
    simp [parsePropertyValue, serPropertyValue, List.append_assoc,
      readU32_u32le 14 _ (by norm_num), readU64_u64le _ _ h.1, ih h.2 f r hm]
  · intro _ fuel r _
    simp [parsePropertyValueSeq, PropertyValueList.length, serPropertyValueList]
  · intro v vs ihv ihvs h fuel r hf
    simp only [wfPropertyValueList, Bool.and_eq_true] at h
    simp only [PropertyValueList.fuelMeasure] at hf
    have hvp := propertyValue_fuelMeasure_pos v
    obtain ⟨f, rfl⟩ : ∃ f, fuel = f + 1 := ⟨fuel - 1, by omega⟩
    have hlen : PropertyValueList.length (.cons v vs) = vs.length + 1 := by
      simp [PropertyValueList.length, Nat.add_comm]
    rw [hlen]
    simp [parsePropertyValueSeq, serPropertyValueList, List.append_assoc,
      ihv h.1 f _ (by omega), ihvs h.2 f r (by omega)]
  · intro _ fuel r _
    simp [parsePropertyPairSeq, PropertyPairList.length, serPropertyPairList]
  · intro k v ps ihv ihps h fuel r hf
    simp only [wfPropertyPairList, Bool.and_eq_true, wfLen, decide_eq_true_eq] at h
    simp only [PropertyPairList.fuelMeasure] at hf
    have hvp := propertyValue_fuelMeasure_pos v
    obtain ⟨f, rfl⟩ : ∃ f, fuel = f + 1 := ⟨fuel - 1, by omega⟩
    have hlen : PropertyPairList.length (.cons k v ps) = ps.length + 1 := by
      simp [PropertyPairList.length, Nat.add_comm]
    rw [hlen]
    simp [parsePropertyPairSeq, serPropertyPairList, List.append_assoc,
      readU64_u64le _ _ h.1.1.1, takeN_append, ihv h.1.2 f _ (by omega),
      ihps h.2 f r (by omega)]

theorem geometryListInduction (motive : GeometryList → Prop)
    (hnil : motive .nil) (hcons : ∀ g tl, motive tl → motive (.cons g tl)) :
    ∀ gs, motive gs :=
  fun gs => @GeometryList.rec (fun _ => True) motive
    (fun _ => trivial) (fun _ => trivial) (fun _ => trivial) (fun _ => trivial)
    (fun _ => trivial) (fun _ => trivial) (fun _ _ => trivial)
    hnil (fun g tl _ htl => hcons g tl htl) gs

theorem propertyValueListInduction (motive : PropertyValueList → Prop)
    (hnil : motive .nil) (hcons : ∀ v tl, motive tl → motive (.cons v tl)) :
    ∀ vs, motive vs :=
  fun vs => @PropertyValueList.rec (fun _ => True) motive (fun _ => True)
    (fun _ => trivial) (fun _ => trivial) (fun _ => trivial) (fun _ => trivial)
    (fun _ => trivial) (fun _ => trivial) (fun _ => trivial) (fun _ => trivial)
    (fun _ => trivial) (fun _ => trivial) (fun _ => trivial) (fun _ => trivial)
    (fun _ => trivial) (fun _ _ => trivial) (fun _ _ => trivial)
    hnil (fun v tl _ htl => hcons v tl htl)
    trivial (fun _ _ _ _ _ => trivial) vs

theorem propertyPairListInduction (motive : PropertyPairList → Prop)
    (hnil : motive .nil) (hcons : ∀ k v tl, motive tl → motive (.cons k v tl)) :
    ∀ ps, motive ps :=
  fun ps => @PropertyPairList.rec (fun _ => True) (fun _ => True) motive
    (fun _ => trivial) (fun _ => trivial) (fun _ => trivial) (fun _ => trivial)
    (fun _ => trivial) (fun _ => trivial) (fun _ => trivial) (fun _ => trivial)
    (fun _ => trivial) (fun _ => trivial) (fun _ => trivial) (fun _ => trivial)
    (fun _ => trivial) (fun _ _ => trivial) (fun _ _ => trivial)
    trivial (fun _ _ _ _ => trivial)
    hnil (fun k v tl _ htl => hcons k v tl htl) ps

theorem parsePropertyPairSeq_ser (ps : PropertyPairList) :
    wfPropertyPairList ps = true → ∀ fuel r, ps.fuelMeasure ≤ fuel →
    parsePropertyPairSeq fuel ps.length (serPropertyPairList ps ++ r) = some (ps, r) := by
  induction ps using propertyPairListInduction with
  | hnil =>
    intro _ fuel r _
    simp [parsePropertyPairSeq, PropertyPairList.length, serPropertyPairList]
  | hcons k v tl ih =>
    intro h fuel r hf
    simp only [wfPropertyPairList, Bool.and_eq_true, wfLen, decide_eq_true_eq] at h
    simp only [PropertyPairList.fuelMeasure] at hf
    have hvp := propertyValue_fuelMeasure_pos v
    obtain ⟨f, rfl⟩ : ∃ f, fuel = f + 1 := ⟨fuel - 1, by omega⟩
    have hlen : PropertyPairList.length (.cons k v tl) = tl.length + 1 := by
      simp [PropertyPairList.length, Nat.add_comm]
    rw [hlen]
    simp [parsePropertyPairSeq, serPropertyPairList, List.append_assoc,
      readU64_u64le _ _ h.1.1.1, takeN_append,
      parsePropertyValue_ser v h.1.2 f _ (by omega),
      ih h.2 f r (by omega)]

theorem parseProperties_ser (ps : PropertyPairList)
    (h : wfPropertyPairList ps = true) (hlen : ps.length < 2 ^ 64)
    (fuel : Nat) (r : List Byte) (hf : ps.fuelMeasure ≤ fuel) :
    parseProperties fuel (serProperties ps ++ r) = some (ps, r) := by
  simp [parseProperties, serProperties, List.append_assoc, readU64_u64le _ _ hlen,
    parsePropertyPairSeq_ser ps h fuel r hf]

theorem parseFeature_ser (f : Feature) (hwf : wfFeature f = true) (fuel : Nat)
    (r : List Byte) (hf : f.fuelMeasure ≤ fuel) :
    parseFeature fuel (serFeature f ++ r) = some (f, r) := by
  simp only [wfFeature, Bool.and_eq_true, wfLen, decide_eq_true_eq] at hwf
  simp only [Feature.fuelMeasure] at hf
  have h1 : f.geometry.fuelMeasure ≤ fuel := by omega
  have h2 : f.properties.fuelMeasure ≤ fuel := by omega
  simp [parseFeature, serFeature, List.append_assoc,
    parseGeometry_ser f.geometry hwf.1.1.1 fuel _ h1,
    parseProperties_ser f.properties hwf.1.2 hwf.1.1.2 fuel r h2]

end Geomedea

namespace Geomedea

/-! ## Lemmas: fuel measures are bounded by serialized lengths -/

theorem geometry_fuelMeasure_le_ser (g : Geometry) :
    g.fuelMeasure + 1 ≤ (serGeometry g).length := by
  refine @Geometry.rec
    (fun g => g.fuelMeasure + 1 ≤ (serGeometry g).length)
    (fun gs => gs.fuelMeasure ≤ (serGeometryList gs).length)
    ?_ ?_ ?_ ?_ ?_ ?_ ?_ ?_ ?_ g
  · intro p; simp [Geometry.fuelMeasure, serGeometry, u32le, serLngLat, i32le]
  · intro ps; simp [Geometry.fuelMeasure, serGeometry, u32le, serVec, u64le]
  · intro rs; simp [Geometry.fuelMeasure, serGeometry, u32le, serVec, u64le]
  · intro ps; simp [Geometry.fuelMeasure, serGeometry, u32le, serVec, u64le]
  · intro ls; simp [Geometry.fuelMeasure, serGeometry, u32le, serVec, u64le]
  · intro ps; simp [Geometry.fuelMeasure, serGeometry, u32le, serVec, u64le]
  · intro gs ih
    simp only [Geometry.fuelMeasure, serGeometry, List.length_append, u32le, u64le]
    simp at ih ⊢
    omega
  · simp [GeometryList.fuelMeasure, serGeometryList]
  · intro g tl ihg ihtl
    simp only [GeometryList.fuelMeasure, serGeometryList, List.length_append]
    omega

theorem propertyValue_fuelMeasure_le_ser (v : PropertyValue) :
    v.fuelMeasure + 1 ≤ (serPropertyValue v).length := by
  refine @PropertyValue.rec
    (fun v => v.fuelMeasure + 1 ≤ (serPropertyValue v).length)
    (fun vs => vs.fuelMeasure ≤ (serPropertyValueList vs).length)
    (fun ps => ps.fuelMeasure ≤ (serPropertyPairList ps).length)
    ?_ ?_ ?_ ?_ ?_ ?_ ?_ ?_ ?_ ?_ ?_ ?_ ?_ ?_ ?_ ?_ ?_ ?_ ?_ v
  · intro b; simp [PropertyValue.fuelMeasure, serPropertyValue, u32le]
  · intro z; simp [PropertyValue.fuelMeasure, serPropertyValue, u32le, i8le, u8le]
  · intro n; simp [PropertyValue.fuelMeasure, serPropertyValue, u32le, u8le]
  · intro z; simp [PropertyValue.fuelMeasure, serPropertyValue, u32le, i16le, u16le]
  · intro n; simp [PropertyValue.fuelMeasure, serPropertyValue, u32le, u16le]
  · intro z; simp [PropertyValue.fuelMeasure, serPropertyValue, u32le, i32le]
  · intro n; simp [PropertyValue.fuelMeasure, serPropertyValue, u32le]
  · intro z; simp [PropertyValue.fuelMeasure, serPropertyValue, u32le, i64le, u64le]
  · intro n; simp [PropertyValue.fuelMeasure, serPropertyValue, u32le, u64le]
  · intro bits; simp [PropertyValue.fuelMeasure, serPropertyValue, u32le]
  · intro bits; simp [PropertyValue.fuelMeasure, serPropertyValue, u32le, u64le]
  · intro bs; simp [PropertyValue.fuelMeasure, serPropertyValue, u32le, u64le]
  · intro s; simp [PropertyValue.fuelMeasure, serPropertyValue, u32le, u64le]
  · intro vs ih
    simp only [PropertyValue.fuelMeasure, serPropertyValue, List.length_append, u32le, u64le]
    simp at ih ⊢
    omega
  · intro ps ih
    simp only [PropertyValue.fuelMeasure, serPropertyValue, List.length_append, u32le, u64le]
    simp at ih ⊢
    omega
  · simp [PropertyValueList.fuelMeasure, serPropertyValueList]
  · intro v tl ihv ihtl
    simp only [PropertyValueList.fuelMeasure, serPropertyValueList, List.length_append]
    omega
  · simp [PropertyPairList.fuelMeasure, serPropertyPairList]
  · intro k v tl ihv ihtl
    simp only [PropertyPairList.fuelMeasure, serPropertyPairList, List.length_append,
      u64le]
    simp at ihtl ⊢
    omega

theorem propertyPairList_fuelMeasure_le_ser (ps : PropertyPairList) :
    ps.fuelMeasure ≤ (serPropertyPairList ps).length := by
  induction ps using propertyPairListInduction with
  | hnil => simp [PropertyPairList.fuelMeasure, serPropertyPairList]
  | hcons k v tl ih =>
    have := propertyValue_fuelMeasure_le_ser v
    simp only [PropertyPairList.fuelMeasure, serPropertyPairList, List.length_append]
    omega

theorem feature_fuelMeasure_le_ser (f : Feature) :
    f.fuelMeasure ≤ (serFeature f).length := by
  have h1 := geometry_fuelMeasure_le_ser f.geometry
  have h2 := propertyPairList_fuelMeasure_le_ser f.properties
  simp only [Feature.fuelMeasure, serFeature, serProperties, List.length_append, u64le]
  simp at h2 ⊢
  omega

/-- Round trip of a feature when the parser fuel is the length of the
remaining input, as every call site of the reader supplies it. -/
theorem parseFeature_ser_len (f : Feature) (hwf : wfFeature f = true) (r : List Byte)
    (extra : Nat) (hx : (serFeature f).length + r.length ≤ extra) :
    parseFeature extra (serFeature f ++ r) = some (f, r) := by
  refine parseFeature_ser f hwf extra r ?_
  have := feature_fuelMeasure_le_ser f
  omega

end Geomedea

namespace Geomedea

/-! ## Lemmas: packed R-tree level shape -/

theorem nextLevelSize_eq (n : Nat) : nextLevelSize n = (n + 15) / 16 := by
  simp only [nextLevelSize, branchingFactor]
  split <;> omega

theorem nextLevelSize_lt {n : Nat} (h : 2 ≤ n) : nextLevelSize n < n := by
  rw [nextLevelSize_eq]; omega

theorem nextLevelSize_pos {n : Nat} (h : 1 ≤ n) : 1 ≤ nextLevelSize n := by
  rw [nextLevelSize_eq]; omega

theorem levelSizesAsc_facts :
    ∀ n fuel, 1 ≤ n → n ≤ fuel + 1 →
      (levelSizesAsc fuel n).head? = some n ∧
      (levelSizesAsc fuel n).getLast? = some 1 ∧
      List.Chain' (fun a b => b = nextLevelSize a) (levelSizesAsc fuel n) ∧
      (∀ m ∈ levelSizesAsc fuel n, 1 ≤ m) := by
  intro n
  induction n using Nat.strong_induction_on with
  | _ n ih =>
    intro fuel h1 h2
    match fuel with
    | 0 =>
      have : n = 1 := by omega
      subst this
      simp [levelSizesAsc]
    | fuel + 1 =>
      by_cases hn : n > 1
      · have hrec := ih (nextLevelSize n) (nextLevelSize_lt hn) fuel
          (nextLevelSize_pos (by omega)) (by have := nextLevelSize_lt hn; omega)
        simp only [levelSizesAsc, if_pos hn]
        have hne : levelSizesAsc fuel (nextLevelSize n) ≠ [] := by
          intro habs
          rw [habs] at hrec
          simp at hrec
        obtain ⟨y, ys, hys⟩ := List.exists_cons_of_ne_nil hne
        refine ⟨by simp, ?_, ?_, ?_⟩
        · rw [hys, List.getLast?_cons_cons, ← hys]
          exact hrec.2.1
        · rw [List.chain'_cons']
          refine ⟨?_, hrec.2.2.1⟩
          intro z hz
          rw [hrec.1] at hz
          simp at hz
          omega
        · intro m hm
          rw [List.mem_cons] at hm
          rcases hm with rfl | hm
          · omega
          · exact hrec.2.2.2 _ hm
      · have : n = 1 := by omega
        subst this
        simp [levelSizesAsc]

theorem nodesPerLevel_ne_nil {L : Nat} (h : 1 ≤ L) : nodesPerLevel L ≠ [] := by
  have := (levelSizesAsc_facts L L h (by omega)).1
  simp only [nodesPerLevel, if_neg (by omega : ¬L = 0)]
  intro habs
  have := List.reverse_eq_nil_iff.mp habs
  rw [this] at *
  simp_all

theorem nodesPerLevel_head {L : Nat} (h : 1 ≤ L) :
    (nodesPerLevel L).head? = some 1 := by
  simp only [nodesPerLevel, if_neg (by omega : ¬L = 0)]
  rw [List.head?_reverse]
  exact (levelSizesAsc_facts L L h (by omega)).2.1

theorem nodesPerLevel_getLast {L : Nat} (h : 1 ≤ L) :
    (nodesPerLevel L).getLast? = some L := by
  simp only [nodesPerLevel, if_neg (by omega : ¬L = 0)]
  rw [List.getLast?_reverse]
  exact (levelSizesAsc_facts L L h (by omega)).1

theorem nodesPerLevel_chain (L : Nat) :
    List.Chain' (fun a b => a = nextLevelSize b) (nodesPerLevel L) := by
  by_cases h : L = 0
  · simp [nodesPerLevel, h]
  · simp only [nodesPerLevel, if_neg h]
    rw [List.chain'_reverse]
    exact (levelSizesAsc_facts L L (by omega) (by omega)).2.2.1

theorem nodesPerLevel_pos {L : Nat} : ∀ m ∈ nodesPerLevel L, 1 ≤ m := by
  by_cases h : L = 0
  · simp [nodesPerLevel, h]
  · simp only [nodesPerLevel, if_neg h]
    intro m hm
    exact (levelSizesAsc_facts L L (by omega) (by omega)).2.2.2 m (List.mem_reverse.mp hm)

theorem nodeCount_pos {L : Nat} (h : 1 ≤ L) : 1 ≤ nodeCount L := by
  have hne := nodesPerLevel_ne_nil h
  have hpos := @nodesPerLevel_pos L
  rcases hd : nodesPerLevel L with _ | ⟨w, ws⟩
  · exact absurd hd hne
  · have := hpos w (by rw [hd]; exact List.mem_cons_self _ _)
    simp only [nodeCount, hd, List.sum_cons]
    omega

/-! ## Lemmas: node ranges by level -/

theorem nodeRangesGo_length (ws : List Nat) : ∀ off, (nodeRangesGo off ws).length = ws.length := by
  induction ws with
  | nil => intro off; simp [nodeRangesGo]
  | cons w ws ih => intro off; simp [nodeRangesGo, ih]

theorem nodeRangesGo_getElem (ws : List Nat) :
    ∀ off i, i < ws.length →
      (nodeRangesGo off ws)[i]? =
        some ⟨off + (ws.take i).sum, off + (ws.take (i + 1)).sum⟩ := by
  induction ws with
  | nil => intro off i h; simp at h
  | cons w ws ih =>
    intro off i h
    match i with
    | 0 => simp [nodeRangesGo]
    | i + 1 =>
      simp only [nodeRangesGo, List.getElem?_cons_succ]
      rw [ih (off + w) i (by simpa using h)]
      simp [List.take_cons, Nat.add_assoc]

theorem nodeRangesByLevel_getElem {L i : Nat} (h : i < (nodesPerLevel L).length) :
    (nodeRangesByLevel L)[i]? =
      some ⟨((nodesPerLevel L).take i).sum, ((nodesPerLevel L).take (i + 1)).sum⟩ := by
  have := nodeRangesGo_getElem (nodesPerLevel L) 0 i h
  simpa [nodeRangesByLevel] using this

theorem nodeRangesByLevel_length (L : Nat) :
    (nodeRangesByLevel L).length = (nodesPerLevel L).length := by
  simp [nodeRangesByLevel, nodeRangesGo_length]

end Geomedea

namespace Geomedea

theorem levelStart_zero (L : Nat) : levelStart L 0 = 0 := by simp [levelStart]

theorem levelStart_succ {L i : Nat} (h : i < numLevels L) :
    levelStart L (i + 1) = levelStart L i + levelWidth L i := by
  simp only [levelStart, levelWidth, numLevels] at *
  rw [List.sum_take_succ _ _ h, List.getElem?_eq_getElem h]
  simp

theorem sum_take_le (l : List Nat) (k : Nat) : (l.take k).sum ≤ l.sum := by
  have := List.sum_take_add_sum_drop l k
  omega

theorem levelStart_mono {L : Nat} {i j : Nat} (h : i ≤ j) :
    levelStart L i ≤ levelStart L j := by
  simp only [levelStart]
  have : (nodesPerLevel L).take i = ((nodesPerLevel L).take j).take i := by
    rw [List.take_take, Nat.min_eq_left h]
  rw [this]
  exact sum_take_le _ _

theorem levelStart_full (L : Nat) : levelStart L (numLevels L) = nodeCount L := by
  simp only [levelStart, numLevels, nodeCount]
  rw [List.take_of_length_le (le_refl _)]

theorem levelWidth_pos {L i : Nat} (h : i < numLevels L) : 1 ≤ levelWidth L i := by
  simp only [levelWidth, numLevels] at *
  rw [List.getElem?_eq_getElem h]
  exact nodesPerLevel_pos _ (List.getElem_mem h)

theorem levelWidth_rel {L i : Nat} (h : i + 1 < numLevels L) :
    levelWidth L i = nextLevelSize (levelWidth L (i + 1)) := by
  have hc := nodesPerLevel_chain L
  rw [List.chain'_iff_get] at hc
  simp only [numLevels] at h
  have := hc i (by omega)
  simp only [levelWidth]
  rw [List.getElem?_eq_getElem (by omega : i < (nodesPerLevel L).length),
    List.getElem?_eq_getElem (by omega : i + 1 < (nodesPerLevel L).length)]
  simpa [List.get_eq_getElem] using this

theorem levelWidth_zero {L : Nat} (h : 1 ≤ L) : levelWidth L 0 = 1 := by
  have := nodesPerLevel_head h
  have hne := nodesPerLevel_ne_nil h
  simp only [levelWidth]
  rcases hd : nodesPerLevel L with _ | ⟨w, ws⟩
  · exact absurd hd hne
  · rw [hd] at this
    simp at this
    simp [this]

theorem levelWidth_last {L : Nat} (h : 1 ≤ L) :
    levelWidth L (numLevels L - 1) = L := by
  have := nodesPerLevel_getLast h
  rw [List.getLast?_eq_getElem?] at this
  simp only [levelWidth, numLevels]
  rw [this]
  rfl

theorem numLevels_pos {L : Nat} (h : 1 ≤ L) : 1 ≤ numLevels L := by
  have hne := nodesPerLevel_ne_nil h
  simp only [numLevels]
  rcases hd : nodesPerLevel L with _ | ⟨w, ws⟩
  · exact absurd hd hne
  · simp

theorem levelRange_eq {L i : Nat} (h : i < numLevels L) :
    (nodeRangesByLevel L)[i]? = some ⟨levelStart L i, levelStart L (i + 1)⟩ :=
  nodeRangesByLevel_getElem h

/-- A node index below the node count lies in a unique level. -/
theorem exists_level (L : Nat) {idx : Nat} (h : idx < nodeCount L) :
    ∃ i < numLevels L, levelStart L i ≤ idx ∧ idx < levelStart L (i + 1) := by
  have main : ∀ k, k ≤ numLevels L → idx < levelStart L k →
      ∃ i < k, levelStart L i ≤ idx ∧ idx < levelStart L (i + 1) := by
    intro k
    induction k with
    | zero => intro _ habs; rw [levelStart_zero] at habs; omega
    | succ k ih =>
      intro hk hlt
      rcases le_or_lt (levelStart L k) idx with hge | hlt2
      · exact ⟨k, by omega, hge, hlt⟩
      · obtain ⟨i, hi, h1, h2⟩ := ih (by omega) hlt2
        exact ⟨i, by omega, h1, h2⟩
  have := main (numLevels L) (le_refl _) (by rw [levelStart_full]; exact h)
  obtain ⟨i, hi, h1, h2⟩ := this
  exact ⟨i, hi, h1, h2⟩

theorem findLevelPos_go (ws : List Nat) :
    ∀ off i idx, i < ws.length →
      off + (ws.take i).sum ≤ idx → idx < off + (ws.take (i + 1)).sum →
      findLevelPos (nodeRangesGo off ws) idx =
        some (idx - (off + (ws.take i).sum), (nodeRangesGo off ws).drop (i + 1)) := by
  induction ws with
  | nil => intro off i idx h; simp at h
  | cons w ws ih =>
    intro off i idx h h1 h2
    match i with
    | 0 =>
      have h1x : off ≤ idx := by simpa using h1
      have h2x : idx < off + w := by simpa [List.take_succ_cons] using h2
      simp only [nodeRangesGo, findLevelPos]
      rw [if_pos ⟨h1x, h2x⟩]
      simp
    | i + 1 =>
      have h1x : off + (w + (ws.take i).sum) ≤ idx := by
        simpa [List.take_succ_cons] using h1
      have h2x : idx < off + (w + (ws.take (i + 1)).sum) := by
        simpa [List.take_succ_cons] using h2
      simp only [nodeRangesGo, findLevelPos, List.take_succ_cons, List.sum_cons,
        List.drop_succ_cons]
      rw [if_neg (by intro ⟨ha, hb⟩; omega)]
      rw [ih (off + w) i idx (by simpa using h) (by omega) (by omega)]
      congr 2
      omega

theorem findLevelPos_spec {L i idx : Nat} (h : i < numLevels L)
    (h1 : levelStart L i ≤ idx) (h2 : idx < levelStart L (i + 1)) :
    findLevelPos (nodeRangesByLevel L) idx =
      some (idx - levelStart L i, (nodeRangesByLevel L).drop (i + 1)) := by
  have := findLevelPos_go (nodesPerLevel L) 0 i idx (by simpa [numLevels] using h)
    (by simpa [levelStart] using h1) (by simpa [levelStart] using h2)
  simpa [nodeRangesByLevel, levelStart] using this

theorem findLevelPos_none (ws : List Nat) :
    ∀ off idx, off + ws.sum ≤ idx → findLevelPos (nodeRangesGo off ws) idx = none := by
  induction ws with
  | nil => intro off idx _; simp [nodeRangesGo, findLevelPos]
  | cons w ws ih =>
    intro off idx h
    simp only [List.sum_cons] at h
    simp only [nodeRangesGo, findLevelPos]
    rw [if_neg (by intro ⟨ha, hb⟩; omega)]
    exact ih (off + w) idx (by omega)

theorem findLevelPos_none_of_ge {L idx : Nat} (h : nodeCount L ≤ idx) :
    findLevelPos (nodeRangesByLevel L) idx = none := by
  have := findLevelPos_none (nodesPerLevel L) 0 idx (by simpa [nodeCount] using h)
  simpa [nodeRangesByLevel] using this

end Geomedea

namespace Geomedea

/-! ## Lemmas: children ranges -/

theorem childrenRange_spec {L i idx : Nat} (h : i + 1 < numLevels L)
    (h1 : levelStart L i ≤ idx) (h2 : idx < levelStart L (i + 1)) :
    childrenRange L idx =
      some ⟨levelStart L (i + 1) + (idx - levelStart L i) * 16,
        min (levelStart L (i + 1) + (idx - levelStart L i) * 16 + 16)
          (levelStart L (i + 2))⟩ := by
  have hspec := findLevelPos_spec (by omega) h1 h2
  have hhead : ((nodeRangesByLevel L).drop (i + 1)).head? =
      some ⟨levelStart L (i + 1), levelStart L (i + 2)⟩ := by
    rw [List.head?_drop]
    exact levelRange_eq h
  obtain ⟨tail, htail⟩ : ∃ t, (nodeRangesByLevel L).drop (i + 1) =
      NodeRange.mk (levelStart L (i + 1)) (levelStart L (i + 2)) :: t := by
    rcases hd : (nodeRangesByLevel L).drop (i + 1) with _ | ⟨x, t⟩
    · rw [hd] at hhead; simp at hhead
    · rw [hd] at hhead; simp at hhead; exact ⟨t, by rw [hhead]⟩
  simp only [childrenRange, hspec, htail, branchingFactor]

theorem childrenRange_none_of_leaf {L idx : Nat} (hL : 1 ≤ L)
    (h1 : levelStart L (numLevels L - 1) ≤ idx) (h2 : idx < nodeCount L) :
    childrenRange L idx = none := by
  have hn := numLevels_pos hL
  have hspec := findLevelPos_spec (i := numLevels L - 1) (by omega) h1
    (by rw [show numLevels L - 1 + 1 = numLevels L by omega, levelStart_full]; exact h2)
  have hdrop : (nodeRangesByLevel L).drop (numLevels L - 1 + 1) = [] := by
    apply List.drop_eq_nil_of_le
    rw [nodeRangesByLevel_length]
    simp only [numLevels] at *
    omega
  simp only [childrenRange, hspec, hdrop]

theorem childrenRange_none_of_ge {L idx : Nat} (h : nodeCount L ≤ idx) :
    childrenRange L idx = none := by
  simp only [childrenRange, findLevelPos_none_of_ge h]

theorem childrenRange_bounds {L i idx : Nat} (h : i + 1 < numLevels L)
    (h1 : levelStart L i ≤ idx) (h2 : idx < levelStart L (i + 1)) :
    levelStart L (i + 1) ≤ levelStart L (i + 1) + (idx - levelStart L i) * 16 ∧
    levelStart L (i + 1) + (idx - levelStart L i) * 16 <
      min (levelStart L (i + 1) + (idx - levelStart L i) * 16 + 16)
        (levelStart L (i + 2)) ∧
    min (levelStart L (i + 1) + (idx - levelStart L i) * 16 + 16)
      (levelStart L (i + 2)) ≤ levelStart L (i + 2) := by
  have hw := levelWidth_rel h
  have hs1 := levelStart_succ (L := L) (i := i) (by omega)
  have hs2 := levelStart_succ (L := L) (i := i + 1) (by omega)
  rw [show i + 1 + 1 = i + 2 from rfl] at hs2
  have hwpos := levelWidth_pos (L := L) (i := i + 1) (by omega)
  rw [nextLevelSize_eq] at hw
  refine ⟨by omega, ?_, by omega⟩
  have hpos : idx - levelStart L i < levelWidth L i := by omega
  have : (idx - levelStart L i) * 16 < levelWidth L (i + 1) := by
    rw [hw] at hpos
    omega
  omega

/-- A node strictly precedes its children. -/
theorem childrenRange_gt {L i idx : Nat} (h2 : idx < levelStart L (i + 1)) :
    idx < levelStart L (i + 1) + (idx - levelStart L i) * 16 := by
  omega

/-- Children ranges are monotone in the parent index: the children of an
earlier parent end no later than the children of a later parent start. -/
theorem childrenRange_mono {L ip iq p q : Nat} (hq : iq + 1 < numLevels L)
    (hp : ip + 1 < numLevels L)
    (hp1 : levelStart L ip ≤ p) (hp2 : p < levelStart L (ip + 1))
    (hq1 : levelStart L iq ≤ q) (hq2 : q < levelStart L (iq + 1))
    (hpq : p < q) {cp cq : NodeRange}
    (hcp : childrenRange L p = some cp) (hcq : childrenRange L q = some cq) :
    cp.stop ≤ cq.start := by
  rw [childrenRange_spec hp hp1 hp2] at hcp
  rw [childrenRange_spec hq hq1 hq2] at hcq
  obtain rfl : cp = _ := by injection hcp with hh; exact hh.symm
  obtain rfl : cq = _ := by injection hcq with hh; exact hh.symm
  simp only
  rcases Nat.lt_trichotomy ip iq with hlt | rfl | hgt
  · have : ip + 2 ≤ iq + 1 := by omega
    have hm := levelStart_mono (L := L) this
    have hb := (childrenRange_bounds hq hq1 hq2).1
    omega
  · have : p - levelStart L ip < q - levelStart L ip := by omega
    omega
  · exfalso
    have : iq + 1 ≤ ip := by omega
    have hm := levelStart_mono (L := L) this
    omega

/-- Every node of a non-root level is inside the children range of a
parent on the level above. -/
theorem parent_exists {L i idx : Nat} (h : i + 1 < numLevels L)
    (h1 : levelStart L (i + 1) ≤ idx) (h2 : idx < levelStart L (i + 2)) :
    ∃ p, levelStart L i ≤ p ∧ p < levelStart L (i + 1) ∧
      ∃ c, childrenRange L p = some c ∧ c.start ≤ idx ∧ idx < c.stop := by
  have hw := levelWidth_rel h
  have hs1 := levelStart_succ (L := L) (i := i) (by omega)
  have hs2 := levelStart_succ (L := L) (i := i + 1) (by omega)
  rw [show i + 1 + 1 = i + 2 from rfl] at hs2
  rw [nextLevelSize_eq] at hw
  refine ⟨levelStart L i + (idx - levelStart L (i + 1)) / 16, by omega, ?_, ?_⟩
  · have : (idx - levelStart L (i + 1)) / 16 < levelWidth L i := by
      rw [hw]
      omega
    omega
  · have hplt : levelStart L i + (idx - levelStart L (i + 1)) / 16 <
        levelStart L (i + 1) := by
      have : (idx - levelStart L (i + 1)) / 16 < levelWidth L i := by
        rw [hw]; omega
      omega
    rw [childrenRange_spec h (by omega) hplt]
    refine ⟨_, rfl, ?_, ?_⟩
    · simp only
      omega
    · simp only
      omega

end Geomedea

namespace Geomedea

/-! ## Lemmas: writer normal form -/

theorem pageDecoded_append_one (cur : List Feature) (f : Feature) :
    pageDecoded (cur ++ [f]) = pageDecoded cur ++ featureBlock f := by
  simp [pageDecoded]

theorem pageDecoded_nil : pageDecoded [] = [] := by simp [pageDecoded]

theorem zipLeaves_cons (b : Bounds) (bs : List Bounds) (loc : FeatureLocation)
    (locs : List FeatureLocation) :
    zipLeaves (b :: bs) (loc :: locs) = ⟨b, loc⟩ :: zipLeaves bs locs := by
  simp [zipLeaves]

theorem contLocs_length (codec : Codec) (goal : Nat) :
    ∀ (gs : List Feature) (start : Nat) (cur : List Feature),
      (contLocs codec goal gs start cur).length = gs.length := by
  intro gs
  induction gs with
  | nil => intro start cur; simp [contLocs]
  | cons f rest ih =>
    intro start cur
    simp only [contLocs]
    split <;> simp [ih]


/-- Effect of add_feature when the new content exceeds the goal: the
page is finished and encoded. -/
theorem pageAddFeature_close (codec : Codec) (goal : Nat) (start : Nat)
    (fin : List (PageHeader × List Byte)) (cur : List Feature) (f : Feature)
    (hgoal : (pageDecoded (cur ++ [f])).length > goal)
    (hfit : (encPage codec (cur ++ [f])).length < 2 ^ 32) :
    pageAddFeature codec goal
      ⟨if cur.isEmpty then none else some ⟨start, pageDecoded cur, cur.length⟩,
        fin, start⟩ f =
    some (⟨none, fin ++ [pageRecOf codec (cur ++ [f])],
      start + (encPage codec (cur ++ [f])).length + PageHeader.serializedSize⟩,
      ⟨start, (pageDecoded cur).length % 2 ^ 32⟩) := by
  have hpage : (match (if cur.isEmpty then none
      else some (⟨start, pageDecoded cur, cur.length⟩ : CurPage)) with
    | some p => p
    | none => (⟨start, [], 0⟩ : CurPage)) =
      (⟨start, pageDecoded cur, cur.length⟩ : CurPage) := by
    rcases cur with _ | ⟨c, cs⟩ <;> simp [pageDecoded]
  rw [pageDecoded_append_one] at hgoal
  simp only [encPage] at hfit
  rw [pageDecoded_append_one] at hfit
  simp only [pageAddFeature, hpage]
  simp only [if_pos hgoal, if_pos hfit]
  simp [pageRecOf, encPage, pageDecoded_append_one]

/-- Effect of add_feature when the new content stays within the goal:
the page stays open. -/
theorem pageAddFeature_keep (codec : Codec) (goal : Nat) (start : Nat)
    (fin : List (PageHeader × List Byte)) (cur : List Feature) (f : Feature)
    (hgoal : ¬(pageDecoded (cur ++ [f])).length > goal) :
    pageAddFeature codec goal
      ⟨if cur.isEmpty then none else some ⟨start, pageDecoded cur, cur.length⟩,
        fin, start⟩ f =
    some (⟨some ⟨start, pageDecoded (cur ++ [f]), (cur ++ [f]).length⟩, fin, start⟩,
      ⟨start, (pageDecoded cur).length % 2 ^ 32⟩) := by
  have hpage : (match (if cur.isEmpty then none
      else some (⟨start, pageDecoded cur, cur.length⟩ : CurPage)) with
    | some p => p
    | none => (⟨start, [], 0⟩ : CurPage)) =
      (⟨start, pageDecoded cur, cur.length⟩ : CurPage) := by
    rcases cur with _ | ⟨c, cs⟩ <;> simp [pageDecoded]
  rw [pageDecoded_append_one] at hgoal
  simp only [pageAddFeature, hpage]
  simp only [if_neg hgoal]
  simp [pageDecoded_append_one]

theorem writeFeaturesGo_cons (codec : Codec) (goal : Nat) (tmp : List Byte)
    (e : FeatureEntry) (entries : List FeatureEntry) (acc : PageAcc)
    (leaves : List Node) (f : Feature) (r : List Byte)
    (hr : parseFeature tmp.length (tmp.drop e.tmpOffset) = some (f, r))
    (acc2 : PageAcc) (loc : FeatureLocation)
    (hadd : pageAddFeature codec goal acc f = some (acc2, loc)) :
    writeFeaturesGo codec goal tmp (e :: entries) acc leaves =
      writeFeaturesGo codec goal tmp entries acc2 (leaves ++ [⟨e.bounds, loc⟩]) := by
  simp [writeFeaturesGo, hr, hadd]

/-- Central normal form of write_features: from a synchronized state the
fold produces exactly the closed-form locations, and finishing produces
exactly the closed-form page records (with the sentinel page for an empty
run). -/
theorem writeFeaturesGo_norm (codec : Codec) (goal : Nat) (tmp : List Byte) :
    ∀ (pairs : List (FeatureEntry × Feature)) (cur : List Feature)
      (fin : List (PageHeader × List Byte)) (start : Nat) (leaves0 : List Node),
      (∀ pr ∈ pairs, ∃ r, parseFeature tmp.length (tmp.drop pr.1.tmpOffset) =
        some (pr.2, r)) →
      (∀ p ∈ contPages codec goal (pairs.map Prod.snd) cur,
        p.1.encodedPageLength < 2 ^ 32) →
      ∃ accF,
        writeFeaturesGo codec goal tmp (pairs.map Prod.fst)
          ⟨if cur.isEmpty then none else some ⟨start, pageDecoded cur, cur.length⟩,
            fin, start⟩ leaves0 =
          some (accF, leaves0 ++
            zipLeaves (pairs.map (fun pr => pr.1.bounds))
              (contLocs codec goal (pairs.map Prod.snd) start cur)) ∧
        pagesFinish codec accF =
          some (if (fin ++ contPages codec goal (pairs.map Prod.snd) cur).isEmpty then
              [(⟨0, 0, 0⟩, [])]
            else fin ++ contPages codec goal (pairs.map Prod.snd) cur) := by
  intro pairs
  induction pairs with
  | nil =>
    intro cur fin start leaves0 _ hfit
    simp only [List.map_nil] at hfit ⊢
    refine ⟨⟨if cur.isEmpty then none else some ⟨start, pageDecoded cur, cur.length⟩,
      fin, start⟩, ?_, ?_⟩
    · simp [writeFeaturesGo, contLocs, zipLeaves]
    · rcases cur with _ | ⟨f, cs⟩
      · simp only [List.isEmpty_nil, if_pos]
        simp only [contPages, List.isEmpty_nil, if_pos, List.append_nil]
        simp only [pagesFinish]
        rcases fin with _ | ⟨p, ps⟩ <;> simp
      · have hmem : pageRecOf codec (f :: cs) ∈
            contPages codec goal ([] : List Feature) (f :: cs) := by
          simp [contPages]
        have hfit2 := hfit _ hmem
        simp only [pageRecOf, encPage] at hfit2
        simp [pagesFinish, contPages, pageRecOf, encPage, hfit2]
        omega
  | cons pr rest ih =>
    intro cur fin start leaves0 hfetch hfit
    obtain ⟨r, hr⟩ := hfetch pr (List.mem_cons_self _ _)
    have hfetchR : ∀ q ∈ rest, ∃ r2, parseFeature tmp.length (tmp.drop q.1.tmpOffset) =
        some (q.2, r2) := fun q hq => hfetch q (List.mem_cons_of_mem _ hq)
    by_cases hgoal : (pageDecoded (cur ++ [pr.2])).length > goal
    · have hmem : pageRecOf codec (cur ++ [pr.2]) ∈
          contPages codec goal ((pr :: rest).map Prod.snd) cur := by
        simp only [List.map_cons, contPages, if_pos hgoal]
        exact List.mem_cons_self _ _
      have hfitHead := hfit _ hmem
      simp only [pageRecOf] at hfitHead
      have hadd := pageAddFeature_close codec goal start fin cur pr.2 hgoal hfitHead
      have hfitR : ∀ p ∈ contPages codec goal (rest.map Prod.snd) [],
          p.1.encodedPageLength < 2 ^ 32 := by
        intro p hp
        refine hfit p ?_
        simp only [List.map_cons, contPages, if_pos hgoal]
        exact List.mem_cons_of_mem _ hp
      obtain ⟨accF, h1, h2⟩ := ih []
        (fin ++ [pageRecOf codec (cur ++ [pr.2])])
        (start + (encPage codec (cur ++ [pr.2])).length + PageHeader.serializedSize)
        (leaves0 ++ [⟨pr.1.bounds, ⟨start, (pageDecoded cur).length % 2 ^ 32⟩⟩])
        hfetchR hfitR
      simp only [List.isEmpty_nil, if_pos, pageDecoded_nil, List.length_nil] at h1
      refine ⟨accF, ?_, ?_⟩
      · rw [List.map_cons,
          writeFeaturesGo_cons codec goal tmp pr.1 (rest.map Prod.fst) _ leaves0 pr.2 r
            hr _ _ hadd, h1]
        congr 1
        congr 1
        simp only [List.map_cons, contLocs, if_pos hgoal, zipLeaves_cons]
        all_goals simp [List.append_assoc]
      · rw [h2]
        simp only [List.map_cons, contPages, if_pos hgoal]
        all_goals simp [List.append_assoc]
    · have hadd := pageAddFeature_keep codec goal start fin cur pr.2 hgoal
      have hfitR : ∀ p ∈ contPages codec goal (rest.map Prod.snd) (cur ++ [pr.2]),
          p.1.encodedPageLength < 2 ^ 32 := by
        intro p hp
        refine hfit p ?_
        simp only [List.map_cons, contPages, if_neg hgoal]
        exact hp
      obtain ⟨accF, h1, h2⟩ := ih (cur ++ [pr.2]) fin start
        (leaves0 ++ [⟨pr.1.bounds, ⟨start, (pageDecoded cur).length % 2 ^ 32⟩⟩])
        hfetchR hfitR
      rw [if_neg (by simp : ¬((cur ++ [pr.2]).isEmpty = true))] at h1
      refine ⟨accF, ?_, ?_⟩
      · rw [List.map_cons,
          writeFeaturesGo_cons codec goal tmp pr.1 (rest.map Prod.fst) _ leaves0 pr.2 r
            hr _ _ hadd, h1]
        congr 1
        congr 1
        simp only [List.map_cons, contLocs, if_neg hgoal, zipLeaves_cons]
        all_goals simp [List.append_assoc]
      · rw [h2]
        simp only [List.map_cons, contPages, if_neg hgoal]

/-! ## Lemmas: the temporary store and the entry list -/

theorem pairsSpec_map_snd (fs : List Feature) :
    ∀ off, (pairsSpec fs off).map Prod.snd = fs := by
  induction fs with
  | nil => intro off; simp [pairsSpec]
  | cons f rest ih => intro off; simp [pairsSpec, ih]

theorem pairsSpec_length (fs : List Feature) :
    ∀ off, (pairsSpec fs off).length = fs.length := by
  induction fs with
  | nil => intro off; simp [pairsSpec]
  | cons f rest ih => intro off; simp [pairsSpec, ih]

theorem pairsSpec_bounds (fs : List Feature) :
    ∀ off, ∀ pr ∈ pairsSpec fs off, pr.1.bounds = featureBounds pr.2 := by
  induction fs with
  | nil => intro off pr h; simp [pairsSpec] at h
  | cons f rest ih =>
    intro off pr h
    simp only [pairsSpec, List.mem_cons] at h
    rcases h with h | h
    · subst h; rfl
    · exact ih _ pr h

theorem tmpStore_cons (f : Feature) (rest : List Feature) :
    tmpStore (f :: rest) = serFeature f ++ tmpStore rest := by
  simp [tmpStore]

theorem pairsSpec_drop (fs : List Feature) :
    ∀ (pre : List Byte), ∀ pr ∈ pairsSpec fs pre.length,
      ∃ r, (pre ++ tmpStore fs).drop pr.1.tmpOffset = serFeature pr.2 ++ r := by
  induction fs with
  | nil => intro pre pr h; simp [pairsSpec] at h
  | cons f rest ih =>
    intro pre pr h
    simp only [pairsSpec, List.mem_cons] at h
    rcases h with h | h
    · subst h
      refine ⟨tmpStore rest, ?_⟩
      rw [tmpStore_cons, show pre ++ (serFeature f ++ tmpStore rest) =
        pre ++ (serFeature f ++ tmpStore rest) from rfl]
      have : (⟨f.geometry.bounds, pre.length⟩ : FeatureEntry).tmpOffset = pre.length := rfl
      rw [this, ← List.append_assoc]
      rw [show pre ++ serFeature f ++ tmpStore rest =
        (pre ++ serFeature f) ++ tmpStore rest from rfl]
      rw [List.drop_append_of_le_length (by simp)]
      simp [List.drop_left]
    · obtain ⟨r, hr⟩ := ih (pre ++ serFeature f) pr
        (by simpa [List.length_append] using h)
      refine ⟨r, ?_⟩
      simpa [tmpStore_cons, List.append_assoc] using hr

theorem pairsSpec_parse (fs : List Feature) (hwf : ∀ f ∈ fs, wfFeature f = true) :
    ∀ pr ∈ pairsSpec fs 0,
      ∃ r, parseFeature (tmpStore fs).length ((tmpStore fs).drop pr.1.tmpOffset) =
        some (pr.2, r) := by
  intro pr h
  obtain ⟨r, hr⟩ := pairsSpec_drop fs [] pr (by simpa using h)
  simp only [List.nil_append] at hr
  have hmem : pr.2 ∈ fs := by
    have := List.mem_map_of_mem Prod.snd h
    rwa [pairsSpec_map_snd fs 0] at this
  refine ⟨r, ?_⟩
  rw [hr]
  refine parseFeature_ser pr.2 (hwf _ hmem) _ r ?_
  have h1 := feature_fuelMeasure_le_ser pr.2
  have h2 : (serFeature pr.2).length + r.length ≤ (tmpStore fs).length := by
    have h3 : ((tmpStore fs).drop pr.1.tmpOffset).length ≤ (tmpStore fs).length := by
      simp
    rw [hr] at h3
    simpa using h3
  omega

theorem writerTempAndEntries_go (features : List Feature) :
    ∀ (tmp0 : List Byte) (es0 : List FeatureEntry) (b0 : Bounds),
      features.foldl
        (fun st f =>
          (st.1 ++ serFeature f, st.2.1 ++ [⟨f.geometry.bounds, st.1.length⟩],
            st.2.2.extend f.geometry.bounds))
        (tmp0, es0, b0) =
      (tmp0 ++ tmpStore features,
        es0 ++ (pairsSpec features tmp0.length).map Prod.fst,
        features.foldl (fun b f => b.extend f.geometry.bounds) b0) := by
  induction features with
  | nil => intro tmp0 es0 b0; simp [tmpStore, pairsSpec]
  | cons f rest ih =>
    intro tmp0 es0 b0
    simp only [List.foldl_cons]
    rw [ih]
    simp [tmpStore, pairsSpec, List.append_assoc, List.length_append]

theorem writerTempAndEntries_spec (features : List Feature) :
    writerTempAndEntries features =
      (tmpStore features, (pairsSpec features 0).map Prod.fst, extentOf features) := by
  have h := writerTempAndEntries_go features [] [] Bounds.empty
  simpa [writerTempAndEntries, extentOf] using h

/-! ## Lemmas: sorting pairs and its projections -/

theorem orderedInsert_liftRel_fst {α β : Type} (r : α → α → Prop) [DecidableRel r]
    (p : α × β) (l : List (α × β)) :
    (List.orderedInsert (liftRel r) p l).map Prod.fst =
      List.orderedInsert r p.1 (l.map Prod.fst) := by
  induction l with
  | nil => simp [List.orderedInsert]
  | cons q l ih =>
    by_cases h : r p.1 q.1
    · simp [List.orderedInsert, liftRel, h]
    · simp [List.orderedInsert, liftRel, h, ih]

theorem insertionSort_liftRel_fst {α β : Type} (r : α → α → Prop) [DecidableRel r]
    (l : List (α × β)) :
    (List.insertionSort (liftRel r) l).map Prod.fst =
      List.insertionSort r (l.map Prod.fst) := by
  induction l with
  | nil => simp
  | cons p l ih =>
    simp only [List.insertionSort, List.map_cons]
    rw [orderedInsert_liftRel_fst, ih]

theorem orderedInsert_liftRel_snd {α β : Type} (r : α → α → Prop) [DecidableRel r]
    (s : β → β → Prop) [DecidableRel s] (p : α × β) (l : List (α × β))
    (hp : ∀ q ∈ l, (r p.1 q.1 ↔ s p.2 q.2)) :
    (List.orderedInsert (liftRel r) p l).map Prod.snd =
      List.orderedInsert s p.2 (l.map Prod.snd) := by
  induction l with
  | nil => simp [List.orderedInsert]
  | cons q l ih =>
    have h1 := hp q (List.mem_cons_self _ _)
    by_cases h : r p.1 q.1
    · simp [List.orderedInsert, liftRel, h, h1.mp h]
    · have h2 : ¬s p.2 q.2 := fun hs => h (h1.mpr hs)
      simp [List.orderedInsert, liftRel, h, h2,
        ih (fun q2 hq2 => hp q2 (List.mem_cons_of_mem _ hq2))]

theorem insertionSort_liftRel_snd {α β : Type} (r : α → α → Prop) [DecidableRel r]
    (s : β → β → Prop) [DecidableRel s] (l : List (α × β))
    (hall : ∀ a ∈ l, ∀ b ∈ l, (r a.1 b.1 ↔ s a.2 b.2)) :
    (List.insertionSort (liftRel r) l).map Prod.snd =
      List.insertionSort s (l.map Prod.snd) := by
  induction l with
  | nil => simp
  | cons p l ih =>
    simp only [List.insertionSort, List.map_cons]
    rw [orderedInsert_liftRel_snd r s p _ ?_,
      ih (fun a ha b hb => hall a (List.mem_cons_of_mem _ ha) b (List.mem_cons_of_mem _ hb))]
    intro q hq
    have hq2 : q ∈ l := by
      have := (List.perm_insertionSort (liftRel r) l).mem_iff.mp hq
      exact this
    exact hall p (List.mem_cons_self _ _) q (List.mem_cons_of_mem _ hq2)

/-! ## Lemmas: the sorted entry list projects to the sorted feature list -/

theorem sortEntries_eq (extent : Bounds) (es : List FeatureEntry) :
    sortEntries extent es = List.insertionSort (entryCmp extent) es := rfl

theorem hilbertSorted_eq (fs : List Feature) :
    hilbertSorted fs = List.insertionSort (keyCmp (extentOf fs)) fs := rfl

theorem sortedPairs_snd (extent : Bounds) (l : List (FeatureEntry × Feature))
    (hb : ∀ pr ∈ l, pr.1.bounds = featureBounds pr.2) :
    (List.insertionSort (liftRel (entryCmp extent)) l).map Prod.snd =
      List.insertionSort (keyCmp extent) (l.map Prod.snd) := by
  refine insertionSort_liftRel_snd (entryCmp extent) (keyCmp extent) l ?_
  intro a ha b hb2
  rw [entryCmp, keyCmp]
  rw [hb a ha, hb b hb2]
  simp [featureKey]

theorem mem_sorted_pairs {extent : Bounds} {l : List (FeatureEntry × Feature)}
    {pr : FeatureEntry × Feature}
    (h : pr ∈ List.insertionSort (liftRel (entryCmp extent)) l) : pr ∈ l :=
  (List.perm_insertionSort (liftRel (entryCmp extent)) l).mem_iff.mp h

theorem zipLeaves_length (bs : List Bounds) (locs : List FeatureLocation) :
    (zipLeaves bs locs).length = min bs.length locs.length := by
  simp [zipLeaves]

theorem rtreeWrite_ok (leaves : List Node) :
    rtreeWrite leaves.length leaves =
      .ok (if leaves.length = 0 then [] else indexBytesOf leaves) := by
  by_cases h : leaves.length = 0
  · simp [rtreeWrite, h]
  · simp [rtreeWrite, h, indexBytesOf]

/-- Normal form of Writer::finish: under the guard that the Hilbert sort
does not divide by zero, that every feature is well formed and that every
encoded page fits in u32, the file is the header, the index over the
written leaves, and the page stream of the closed-form pages of the
Hilbert-sorted features. -/
theorem writeFile_norm (zstd : Codec) (isCompressed : Bool) (goal : Nat)
    (features : List Feature)
    (hwf : ∀ f ∈ features, wfFeature f = true)
    (hguard : ¬(2 ≤ features.length ∧
      ((extentOf features).unscaledLngWidth = 0 ∨
        (extentOf features).unscaledLatHeight = 0)))
    (hfit : ∀ p ∈ contPages (fileCodec zstd isCompressed) goal (hilbertSorted features) [],
      p.1.encodedPageLength < 2 ^ 32) :
    writeFile zstd isCompressed goal features =
      some (serHeader ⟨isCompressed,
          (writtenPages (fileCodec zstd isCompressed) goal (hilbertSorted features)).length,
          features.length⟩ ++
        (if features.length = 0 then [] else
          indexBytesOf (writtenLeaves (fileCodec zstd isCompressed) goal
            (hilbertSorted features))) ++
        pageStream (writtenPages (fileCodec zstd isCompressed) goal (hilbertSorted features))) := by
  have hcodec : (if isCompressed then zstd else identityCodec) = fileCodec zstd isCompressed :=
    rfl
  have hsnd : (List.insertionSort (liftRel (entryCmp (extentOf features)))
      (pairsSpec features 0)).map Prod.snd = hilbertSorted features := by
    rw [sortedPairs_snd (extentOf features) _ (pairsSpec_bounds features 0),
      pairsSpec_map_snd, hilbertSorted_eq]
  have hfst : (List.insertionSort (liftRel (entryCmp (extentOf features)))
      (pairsSpec features 0)).map Prod.fst =
      sortEntries (extentOf features) ((pairsSpec features 0).map Prod.fst) := by
    rw [insertionSort_liftRel_fst, sortEntries_eq]
  have hsortedlen : (hilbertSorted features).length = features.length := by
    rw [hilbertSorted_eq]
    exact (List.perm_insertionSort (keyCmp (extentOf features)) features).length_eq
  have hfetch : ∀ pr ∈ List.insertionSort (liftRel (entryCmp (extentOf features)))
      (pairsSpec features 0),
      ∃ r, parseFeature (tmpStore features).length
        ((tmpStore features).drop pr.1.tmpOffset) = some (pr.2, r) :=
    fun pr hpr => pairsSpec_parse features hwf pr (mem_sorted_pairs hpr)
  have hfit2 : ∀ p ∈ contPages (fileCodec zstd isCompressed) goal
      ((List.insertionSort (liftRel (entryCmp (extentOf features)))
        (pairsSpec features 0)).map Prod.snd) [],
      p.1.encodedPageLength < 2 ^ 32 := by
    rw [hsnd]; exact hfit
  obtain ⟨accF, h1, h2⟩ := writeFeaturesGo_norm (fileCodec zstd isCompressed) goal
    (tmpStore features)
    (List.insertionSort (liftRel (entryCmp (extentOf features))) (pairsSpec features 0))
    [] [] 0 [] hfetch hfit2
  simp only [List.isEmpty_nil, if_pos, pageDecoded_nil, List.length_nil, List.nil_append,
    hsnd] at h1 h2
  have hbounds : (List.insertionSort (liftRel (entryCmp (extentOf features)))
      (pairsSpec features 0)).map (fun pr => pr.1.bounds) =
      (hilbertSorted features).map featureBounds := by
    rw [List.map_congr_left (fun pr hpr =>
      pairsSpec_bounds features 0 pr (mem_sorted_pairs hpr))]
    rw [show (fun pr : FeatureEntry × Feature => featureBounds pr.2) =
      featureBounds ∘ Prod.snd from rfl]
    rw [← List.map_map, hsnd]
  rw [hbounds] at h1
  have hleaves : (zipLeaves ((hilbertSorted features).map featureBounds)
      (contLocs (fileCodec zstd isCompressed) goal (hilbertSorted features) 0 [])).length =
      features.length := by
    rw [zipLeaves_length, contLocs_length]
    simp [hsortedlen]
  simp only [writeFile, hcodec]
  rw [writerTempAndEntries_spec]
  simp only []
  rw [if_neg (by
    simp only [List.length_map, pairsSpec_length]
    exact hguard)]
  rw [hfst] at h1
  rw [show initPageAcc = (⟨none, [], 0⟩ : PageAcc) from rfl]
  rw [h1]
  dsimp only
  rw [h2]
  dsimp only
  rw [show ((pairsSpec features 0).map Prod.fst).length = features.length by
    simp [pairsSpec_length]]
  rw [show features.length =
    (zipLeaves ((hilbertSorted features).map featureBounds)
      (contLocs (fileCodec zstd isCompressed) goal (hilbertSorted features) 0 [])).length
    from hleaves.symm]
  rw [rtreeWrite_ok]
  simp only [hleaves]
  by_cases hzero : features.length = 0
  · simp only [hzero, if_pos]
    simp [writtenPages, writtenLeaves, writtenLocs, pageStream]
  · simp only [if_neg hzero]
    simp [writtenPages, writtenLeaves, writtenLocs, pageStream]

/-! ## Lemmas: pagination -/

theorem contPages_eq_paginateGo (codec : Codec) (goal : Nat) :
    ∀ (fs cur : List Feature),
      contPages codec goal fs cur =
        (paginateGo goal blockSize fs cur (pageDecoded cur).length).map
          (pageRecOf codec) := by
  intro fs
  induction fs with
  | nil =>
    intro cur
    by_cases h : cur.isEmpty <;> simp [contPages, paginateGo, h]
  | cons f rest ih =>
    intro cur
    simp only [contPages, paginateGo]
    have hlen : (pageDecoded cur).length + blockSize f = (pageDecoded (cur ++ [f])).length := by
      rw [pageDecoded_append_one]
      simp [blockSize]
    rw [hlen]
    by_cases h : (pageDecoded (cur ++ [f])).length > goal
    · simp only [if_pos h, List.map_cons]
      rw [ih []]
      simp [pageDecoded_nil]
    · simp only [if_neg h]
      rw [ih (cur ++ [f])]

theorem contPages_eq_paginate (codec : Codec) (goal : Nat) (fs : List Feature) :
    contPages codec goal fs [] =
      (paginate goal blockSize fs).map (pageRecOf codec) := by
  rw [contPages_eq_paginateGo, paginate, pageDecoded_nil]
  simp

theorem paginateGo_flatten {α : Type} (goal : Nat) (size : α → Nat) :
    ∀ (l cur : List α) (n : Nat),
      (paginateGo goal size l cur n).flatten = cur ++ l := by
  intro l
  induction l with
  | nil =>
    intro cur n
    by_cases h : cur.isEmpty
    · have : cur = [] := List.isEmpty_iff.mp h
      simp [paginateGo, h, this]
    · simp [paginateGo, h]
  | cons a rest ih =>
    intro cur n
    simp only [paginateGo]
    by_cases h : n + size a > goal
    · simp only [if_pos h, List.flatten_cons, ih]
      simp
    · simp only [if_neg h, ih]
      simp

theorem paginate_flatten {α : Type} (goal : Nat) (size : α → Nat) (l : List α) :
    (paginate goal size l).flatten = l := by
  rw [paginate, paginateGo_flatten]
  simp

theorem paginateGo_ne_nil {α : Type} (goal : Nat) (size : α → Nat) :
    ∀ (l cur : List α) (n : Nat) (p : List α),
      p ∈ paginateGo goal size l cur n → p ≠ [] := by
  intro l
  induction l with
  | nil =>
    intro cur n p hp
    by_cases h : cur.isEmpty
    · simp [paginateGo, h] at hp
    · simp only [paginateGo] at hp
      rw [if_neg h, List.mem_singleton] at hp
      subst hp
      exact fun hc => by simp [hc] at h
  | cons a rest ih =>
    intro cur n p hp
    simp only [paginateGo] at hp
    by_cases h : n + size a > goal
    · rw [if_pos h] at hp
      rcases List.mem_cons.mp hp with h2 | h2
      · subst h2; simp
      · exact ih [] 0 p h2
    · rw [if_neg h] at hp
      exact ih (cur ++ [a]) (n + size a) p hp

theorem sum_map_dropLast_le {α : Type} (size : α → Nat) :
    ∀ (p : List α), (p.dropLast.map size).sum ≤ (p.map size).sum := by
  intro p
  induction p with
  | nil => simp
  | cons a t ih =>
    cases t with
    | nil => simp
    | cons b t2 =>
      rw [List.dropLast_cons_of_ne_nil (by simp)]
      simp only [List.map_cons, List.sum_cons]
      have h2 : ((b :: t2).dropLast.map size).sum ≤ ((b :: t2).map size).sum := ih
      simp only [List.map_cons, List.sum_cons] at h2
      omega

theorem paginateGo_sums {α : Type} (goal : Nat) (size : α → Nat) :
    ∀ (l cur : List α) (n : Nat), n = (cur.map size).sum → n ≤ goal →
      (∀ p ∈ (paginateGo goal size l cur n).dropLast, (p.map size).sum > goal) ∧
      (∀ p ∈ paginateGo goal size l cur n, (p.dropLast.map size).sum ≤ goal) := by
  intro l
  induction l with
  | nil =>
    intro cur n hn hle
    by_cases h : cur.isEmpty
    · simp [paginateGo, h]
    · simp only [paginateGo, if_neg h]
      refine ⟨by simp, ?_⟩
      intro p hp
      rw [List.mem_singleton] at hp
      subst hp
      calc (p.dropLast.map size).sum ≤ (p.map size).sum := sum_map_dropLast_le size p
        _ ≤ goal := by omega
  | cons a rest ih =>
    intro cur n hn hle
    simp only [paginateGo]
    by_cases h : n + size a > goal
    · simp only [if_pos h]
      have hrest := ih [] 0 (by simp) (by omega)
      have hcur2 : ((cur ++ [a]).map size).sum = n + size a := by
        simp [hn]
      have hcur2d : ((cur ++ [a]).dropLast.map size).sum ≤ goal := by
        rw [List.dropLast_concat]
        omega
      constructor
      · intro p hp
        cases hrec : paginateGo goal size rest [] 0 with
        | nil => simp [hrec] at hp
        | cons q qs =>
          rw [hrec, List.dropLast_cons_of_ne_nil (by simp)] at hp
          rcases List.mem_cons.mp hp with h2 | h2
          · subst h2; omega
          · exact hrest.1 p (by rw [hrec]; exact h2)
      · intro p hp
        rcases List.mem_cons.mp hp with h2 | h2
        · subst h2; exact hcur2d
        · exact hrest.2 p h2
    · simp only [if_neg h]
      exact ih (cur ++ [a]) (n + size a) (by simp [hn]) (by omega)

theorem paginate_sums {α : Type} (goal : Nat) (size : α → Nat) (l : List α) :
    (∀ p ∈ (paginate goal size l).dropLast, (p.map size).sum > goal) ∧
    (∀ p ∈ paginate goal size l, (p.dropLast.map size).sum ≤ goal) :=
  paginateGo_sums goal size l [] 0 (by simp) (by omega)

theorem paginate_ne_nil {α : Type} (goal : Nat) (size : α → Nat) (l : List α)
    (p : List α) (hp : p ∈ paginate goal size l) : p ≠ [] :=
  paginateGo_ne_nil goal size l [] 0 p hp

/-! ## Lemmas: last level range -/

theorem nodeRangesByLevel_getLast {L : Nat} (h : 1 ≤ L) :
    (nodeRangesByLevel L).getLast? = some ⟨leafStart L, nodeCount L⟩ := by
  rw [List.getLast?_eq_getElem?, nodeRangesByLevel_length,
    show (nodesPerLevel L).length = numLevels L from rfl]
  have hn := numLevels_pos h
  have hg := levelRange_eq (L := L) (i := numLevels L - 1) (by omega)
  rw [hg, show numLevels L - 1 + 1 = numLevels L by omega, levelStart_full]
  rfl

theorem leafStart_add {L : Nat} (h : 1 ≤ L) : leafStart L + L = nodeCount L := by
  have hn := numLevels_pos h
  have h1 := levelStart_succ (L := L) (i := numLevels L - 1) (by omega)
  rw [show numLevels L - 1 + 1 = numLevels L by omega, levelStart_full,
    levelWidth_last h] at h1
  simp only [leafStart]
  omega

theorem writtenPages_paginate (codec : Codec) (goal : Nat) (s : List Feature) :
    writtenPages codec goal s =
      if (paginate goal blockSize s).isEmpty then [(⟨0, 0, 0⟩, [])]
      else (paginate goal blockSize s).map (pageRecOf codec) := by
  rw [writtenPages, contPages_eq_paginate]
  rcases h : paginate goal blockSize s with _ | ⟨p, ps⟩ <;> simp

/-! ## Claims -/

/-- C1: the round-trip property fails: the claim quantifies over every
finite feature sequence, but Writer::finish panics (a division by zero in
scaled_hilbert, reached through the Hilbert sort comparator) whenever at
least two features are written and the extent has a zero longitude or
latitude width — for instance two distinct points on the same meridian.
The first conjunct shows the writer fails on such an input for every
codec, compression flag and page size goal; the second shows the very
same point set minus one feature writes fine, so the failure is the
comparator division, not input validity. -/
theorem claim_C1 :
    (∀ (zstd : Codec) (c : Bool) (goal : Nat), writeFile zstd c goal samePoints = none) ∧
    (writeFile identityCodec false defaultPageSizeGoal (samePoints.take 1)).isSome = true := by
  constructor
  · intro zstd c goal
    rfl
  · rfl

/-- C5: pages accumulate features until the uncompressed page content
strictly exceeds the page size goal (default 65536): the writer pages are
exactly the rollover grouping of the sorted features, the grouping
partitions the input in order with nonempty groups (no feature is split),
every group except the last strictly exceeds the goal while every group
minus its final feature fits within the goal (so the crossing feature
stays in its page, and an oversized feature forms a singleton page), and
through writeFile the emitted page records are exactly the groups of the
Hilbert-sorted features. -/
theorem claim_C5 :
    defaultPageSizeGoal = 65536 ∧
    (∀ (codec : Codec) (goal : Nat) (fs : List Feature),
      contPages codec goal fs [] = (paginate goal blockSize fs).map (pageRecOf codec)) ∧
    (∀ (goal : Nat) (fs : List Feature),
      (paginate goal blockSize fs).flatten = fs ∧
      (∀ p ∈ paginate goal blockSize fs, p ≠ []) ∧
      (∀ p ∈ (paginate goal blockSize fs).dropLast, goal < (p.map blockSize).sum) ∧
      (∀ p ∈ paginate goal blockSize fs, (p.dropLast.map blockSize).sum ≤ goal)) ∧
    (∀ (zstd : Codec) (c : Bool) (goal : Nat) (features : List Feature),
      (∀ f ∈ features, wfFeature f = true) →
      ¬(2 ≤ features.length ∧
        ((extentOf features).unscaledLngWidth = 0 ∨
          (extentOf features).unscaledLatHeight = 0)) →
      (∀ p ∈ contPages (fileCodec zstd c) goal (hilbertSorted features) [],
        p.1.encodedPageLength < 2 ^ 32) →
      writeFile zstd c goal features =
        some (serHeader ⟨c,
            (if (paginate goal blockSize (hilbertSorted features)).isEmpty then
              [((⟨0, 0, 0⟩ : PageHeader), ([] : List Byte))]
            else (paginate goal blockSize (hilbertSorted features)).map
              (pageRecOf (fileCodec zstd c))).length,
            features.length⟩ ++
          (if features.length = 0 then [] else
            indexBytesOf (writtenLeaves (fileCodec zstd c) goal (hilbertSorted features))) ++
          pageStream (if (paginate goal blockSize (hilbertSorted features)).isEmpty then
              [((⟨0, 0, 0⟩ : PageHeader), ([] : List Byte))]
            else (paginate goal blockSize (hilbertSorted features)).map
              (pageRecOf (fileCodec zstd c))))) := by
  refine ⟨rfl, contPages_eq_paginate, ?_, ?_⟩
  · intro goal fs
    exact ⟨paginate_flatten goal blockSize fs, paginate_ne_nil goal blockSize fs,
      (paginate_sums goal blockSize fs).1, (paginate_sums goal blockSize fs).2⟩
  · intro zstd c goal features hwf hguard hfit
    have h := writeFile_norm zstd c goal features hwf hguard hfit
    rw [writtenPages_paginate] at h
    exact h

/-- C6: for a leaf count of at least one, the level list (root first)
ends with the leaf count, each level size is the ceiling of the next
deeper level size divided by sixteen, the topmost level has exactly one
node; the index size is the node count times 28 bytes, and zero for a
zero leaf count. -/
theorem claim_C6 (L : Nat) (hL : 1 ≤ L) :
    (nodesPerLevel L).getLast? = some L ∧
    List.Chain' (fun a b => a = (b + 15) / 16) (nodesPerLevel L) ∧
    (nodesPerLevel L).head? = some 1 ∧
    indexSize L = nodeCount L * 28 ∧
    indexSize 0 = 0 := by
  refine ⟨nodesPerLevel_getLast hL, ?_, nodesPerLevel_head hL, rfl, rfl⟩
  have h := nodesPerLevel_chain L
  have he : (fun a b : Nat => a = nextLevelSize b) =
      (fun a b : Nat => a = (b + 15) / 16) := by
    funext a b
    rw [nextLevelSize_eq]
  rwa [he] at h

theorem claim_C6_witness :
    (nodesPerLevel 257).getLast? = some 257 ∧
    List.Chain' (fun a b => a = (b + 15) / 16) (nodesPerLevel 257) ∧
    (nodesPerLevel 257).head? = some 1 ∧
    indexSize 257 = nodeCount 257 * 28 ∧
    indexSize 0 = 0 :=
  claim_C6 257 (by decide)

/-- C7: for a nonempty tree and a node index inside the tree,
is_leaf_node holds exactly when the index falls in the last level range,
the half open interval of the L leaf indices starting at the leaf level
start. -/
theorem claim_C7 (L idx : Nat) (hL : 1 ≤ L) (hidx : idx < nodeCount L) :
    isLeafNode L idx = true ↔ (leafStart L ≤ idx ∧ idx < leafStart L + L) := by
  have hlast := nodeRangesByLevel_getLast hL
  have hadd := leafStart_add hL
  simp only [isLeafNode, hlast, ge_iff_le, decide_eq_true_eq]
  omega

theorem claim_C7_witness :
    (isLeafNode 257 20 = true ↔ (leafStart 257 ≤ 20 ∧ 20 < leafStart 257 + 257)) ∧
    (isLeafNode 257 19 = true ↔ (leafStart 257 ≤ 19 ∧ 19 < leafStart 257 + 257)) :=
  ⟨claim_C7 257 20 (by decide) (by decide), claim_C7 257 19 (by decide) (by decide)⟩

/-- C10: when fewer leaves were pushed than promised at construction,
PackedRTreeWriter::write returns the count mismatch error and emits no
index bytes. -/
theorem claim_C10 (promised : Nat) (leaves : List Node)
    (h : leaves.length < promised) :
    rtreeWrite promised leaves =
      .error (.featureCountMismatch promised leaves.length) := by
  simp [rtreeWrite, Nat.ne_of_lt h]

theorem claim_C10_witness :
    rtreeWrite 3 [] = .error (.featureCountMismatch 3 0) := by
  have h := claim_C10 3 [] (by decide)
  simpa using h

theorem claim_C5_witness :
    writeFile identityCodec false 3 fourPoints =
      some (serHeader ⟨false,
          (if (paginate 3 blockSize (hilbertSorted fourPoints)).isEmpty then
            [((⟨0, 0, 0⟩ : PageHeader), ([] : List Byte))]
          else (paginate 3 blockSize (hilbertSorted fourPoints)).map
            (pageRecOf (fileCodec identityCodec false))).length,
          fourPoints.length⟩ ++
        (if fourPoints.length = 0 then [] else
          indexBytesOf (writtenLeaves (fileCodec identityCodec false) 3
            (hilbertSorted fourPoints))) ++
        pageStream (if (paginate 3 blockSize (hilbertSorted fourPoints)).isEmpty then
            [((⟨0, 0, 0⟩ : PageHeader), ([] : List Byte))]
          else (paginate 3 blockSize (hilbertSorted fourPoints)).map
            (pageRecOf (fileCodec identityCodec false)))) :=
  claim_C5.2.2.2 identityCodec false 3 fourPoints (by decide) (by decide) (by decide)

/-- C9: writing zero features uncompressed produces exactly 29 bytes,
which decompose as the 17 byte header (compression off, one page, zero
features), no index bytes, and the single 12 byte sentinel page header
(0,0,0) with an empty payload; select_all over the file yields no
features. -/
theorem claim_C9 :
    (writeFile identityCodec false defaultPageSizeGoal []).map List.length = some 29 ∧
    writeFile identityCodec false defaultPageSizeGoal [] =
      some (serHeader ⟨false, 1, 0⟩ ++ pageStream [(⟨0, 0, 0⟩, [])]) ∧
    (writeFile identityCodec false defaultPageSizeGoal []).bind
      (selectAll identityCodec) = some [] := by
  exact ⟨rfl, rfl, rfl⟩

/-! ## Lemmas: shape of the built index -/

theorem chunksOf16_length : ∀ (fuel : Nat) (l : List Node), l.length ≤ fuel →
    (chunksOf16 fuel l).length = nextLevelSize l.length := by
  intro fuel
  induction fuel with
  | zero =>
    intro l hl
    have : l = [] := List.length_eq_zero.mp (by omega)
    subst this
    simp [chunksOf16, nextLevelSize]
  | succ fuel ih =>
    intro l hl
    rcases l with _ | ⟨n, l2⟩
    · simp [chunksOf16, nextLevelSize]
    · simp only [chunksOf16, List.length_cons]
      rw [ih ((n :: l2).drop branchingFactor) (by
        simp only [List.length_drop, List.length_cons, branchingFactor]
        simp only [List.length_cons] at hl
        omega)]
      rw [nextLevelSize_eq, nextLevelSize_eq]
      simp only [List.length_drop, List.length_cons, branchingFactor]
      omega

theorem parentNodes_length (ns : List Node) :
    (parentNodes ns).length = nextLevelSize ns.length := by
  rw [parentNodes, List.length_map, chunksOf16_length ns.length ns (le_refl _)]

theorem buildLevelsGo_map_length : ∀ (ws : List Nat) (cur : List Node),
    (buildLevelsGo ws cur).map List.length = sizesIter ws.length cur.length := by
  intro ws
  induction ws with
  | nil => intro cur; simp [buildLevelsGo, sizesIter]
  | cons w ws ih =>
    intro cur
    simp only [buildLevelsGo, List.map_cons, List.length_cons, sizesIter]
    rw [ih, parentNodes_length]

theorem sizesIter_of_chain : ∀ (l : List Nat),
    List.Chain' (fun a b => b = nextLevelSize a) l →
    ∀ n, l.head? = some n → sizesIter l.length n = l := by
  intro l
  induction l with
  | nil => intro _ n h; simp at h
  | cons a t ih =>
    intro hch n hh
    simp only [List.head?_cons, Option.some.injEq] at hh
    subst hh
    rcases t with _ | ⟨b, t2⟩
    · simp [sizesIter]
    · rw [List.chain'_cons] at hch
      have hb : b = nextLevelSize a := hch.1
      have ht := ih hch.2 b rfl
      simp only [List.length_cons] at ht ⊢
      rw [show sizesIter (t2.length + 1 + 1) a =
        a :: sizesIter (t2.length + 1) (nextLevelSize a) from rfl]
      rw [← hb, ht]

theorem rtreeLevels_map_length {leaves : List Node} (h : 1 ≤ leaves.length) :
    (rtreeLevels leaves).map List.length =
      levelSizesAsc leaves.length leaves.length := by
  have hfacts := levelSizesAsc_facts leaves.length leaves.length h (by omega)
  rw [rtreeLevels, buildLevelsGo_map_length]
  rw [show (nodesPerLevel leaves.length).length =
      (levelSizesAsc leaves.length leaves.length).length by
    rw [nodesPerLevel, if_neg (by omega : ¬leaves.length = 0), List.length_reverse]]
  exact sizesIter_of_chain _ hfacts.2.2.1 _ hfacts.1

theorem treeNodes_length {leaves : List Node} (h : 1 ≤ leaves.length) :
    (treeNodes leaves).length = nodeCount leaves.length := by
  rw [treeNodes, List.length_flatten,
    show (rtreeLevels leaves).reverse.map List.length =
      ((rtreeLevels leaves).map List.length).reverse from List.map_reverse _ _,
    rtreeLevels_map_length h, List.sum_reverse, nodeCount, nodesPerLevel,
    if_neg (by omega : ¬leaves.length = 0), List.sum_reverse]

theorem flatten_map_flatten {α β : Type} (ll : List (List α)) (f : α → List β) :
    (ll.map (fun l => (l.map f).flatten)).flatten = ((ll.flatten).map f).flatten := by
  induction ll with
  | nil => simp
  | cons l ll ih => simp [ih]

theorem indexBytesOf_eq (leaves : List Node) :
    indexBytesOf leaves = ((treeNodes leaves).map serNode).flatten := by
  rw [indexBytesOf, treeNodes, flatten_map_flatten]

theorem flatten_map_serNode_length (ns : List Node) :
    ((ns.map serNode).flatten).length = ns.length * Node.serializedSize := by
  induction ns with
  | nil => simp
  | cons n ns ih =>
    simp only [List.map_cons, List.flatten_cons, List.length_append, ih,
      serNode_length, List.length_cons]
    ring

theorem indexBytesOf_length {leaves : List Node} (h : 1 ≤ leaves.length) :
    (indexBytesOf leaves).length = indexSize leaves.length := by
  rw [indexBytesOf_eq, flatten_map_serNode_length, treeNodes_length h, indexSize]

/-! ## Lemmas: page reader on written pages -/

theorem pageDecoded_cons (f : Feature) (g : List Feature) :
    pageDecoded (f :: g) = featureBlock f ++ pageDecoded g := by
  simp [pageDecoded]

theorem pageDecoded_cons_ne_nil (f : Feature) (g : List Feature) :
    pageDecoded (f :: g) ≠ [] := by
  simp [pageDecoded_cons, featureBlock, u64le]

theorem readU64_any (n : Nat) (r : List Byte) :
    readU64 (u64le n ++ r) = some (leValue (u64le n), r) := by
  simp [readU64, takeN_append_of_eq _ _ (u64le_length n)]

theorem readFeatureFromPage_block (st : PageReaderSt) (f : Feature) (g : List Feature)
    (hwf : wfFeature f = true)
    (hrem : st.cur.decodedRemaining = pageDecoded (f :: g)) :
    readFeatureFromPage st =
      some (f, { st with cur := { st.cur with decodedRemaining := pageDecoded g } }) := by
  simp only [readFeatureFromPage, hrem, pageDecoded_cons, featureBlock,
    List.append_assoc]
  rw [readU64_any]
  dsimp only
  rw [parseFeature_ser_len f hwf (pageDecoded g) _ (by simp)]

theorem mod_lt_2_32 (n : Nat) : n % 2 ^ 32 < 2 ^ 32 := Nat.mod_lt _ (by norm_num)

theorem openPage_pageRec (zstd : Codec) (c : Bool) (hrt : (fileCodec zstd c).Roundtrips)
    (pos : Nat) (gs : List Feature) (rest : List Byte)
    (hfit : (encPage (fileCodec zstd c) gs).length < 2 ^ 32)
    (hdec : (pageDecoded gs).length < 2 ^ 32) :
    openPage zstd c pos (serPageHeader (pageRecOf (fileCodec zstd c) gs).1 ++
      ((pageRecOf (fileCodec zstd c) gs).2 ++ rest)) =
    some ⟨rest, pos + PageHeader.serializedSize + (encPage (fileCodec zstd c) gs).length,
      ⟨pos, (pageDecoded gs).length % 2 ^ 32, pageDecoded gs⟩⟩ := by
  have hph := parsePageHeader_ser (pageRecOf (fileCodec zstd c) gs).1
    ((pageRecOf (fileCodec zstd c) gs).2 ++ rest) (by simpa [pageRecOf] using hfit)
    (by simp [pageRecOf]; omega) (by simp [pageRecOf]; omega)
  simp only [openPage, hph]
  have htake : takeN (pageRecOf (fileCodec zstd c) gs).1.encodedPageLength
      ((pageRecOf (fileCodec zstd c) gs).2 ++ rest) =
      some ((pageRecOf (fileCodec zstd c) gs).2, rest) :=
    takeN_append_of_eq _ _ rfl
  rw [htake]
  cases c with
  | false =>
    simp [pageRecOf, encPage, fileCodec, identityCodec]
  | true =>
    have hd : zstd.decode (zstd.encode (pageDecoded gs)) = pageDecoded gs :=
      hrt (pageDecoded gs)
    simp [pageRecOf, encPage, fileCodec, hd, Nat.mod_eq_of_lt hdec, List.take_length]
    omega

/-- Full-scan loop: from a state whose current page still holds the
features g and whose raw stream holds the written pages of the groups
gss, reading one feature per iteration yields g followed by the
concatenation of the groups. -/
theorem selectAllGo_pages (zstd : Codec) (c : Bool)
    (hrt : (fileCodec zstd c).Roundtrips) :
    ∀ (count : Nat) (g : List Feature) (gss : List (List Feature)) (st : PageReaderSt),
      count = g.length + gss.flatten.length →
      (∀ f ∈ g, wfFeature f = true) →
      (∀ gs ∈ gss, (∀ f ∈ gs, wfFeature f = true) ∧ gs ≠ [] ∧
        (encPage (fileCodec zstd c) gs).length < 2 ^ 32 ∧
        (pageDecoded gs).length < 2 ^ 32) →
      st.cur.decodedRemaining = pageDecoded g →
      st.stream = pageStream (gss.map (pageRecOf (fileCodec zstd c))) →
      selectAllGo zstd c count st = some (g ++ gss.flatten) := by
  intro count
  induction count with
  | zero =>
    intro g gss st hcount hwf hpages hrem hstream
    have hg : g = [] := List.length_eq_zero.mp (by omega)
    have hfl : gss.flatten = [] := List.length_eq_zero.mp (by omega)
    subst hg
    simp [selectAllGo, hfl]
  | succ k ih =>
    intro g gss st hcount hwf hpages hrem hstream
    rcases g with _ | ⟨f, g2⟩
    · rcases gss with _ | ⟨gs, gss2⟩
      · simp at hcount
      · obtain ⟨hwfgs, hne, hfitgs, hdecgs⟩ := hpages gs (List.mem_cons_self _ _)
        obtain ⟨f, gs2, rfl⟩ := List.exists_cons_of_ne_nil hne
        have hread : wasReadToEnd st = true := by
          simp [wasReadToEnd, hrem, pageDecoded_nil]
        have hstream2 : st.stream =
            serPageHeader (pageRecOf (fileCodec zstd c) (f :: gs2)).1 ++
            ((pageRecOf (fileCodec zstd c) (f :: gs2)).2 ++
              pageStream (gss2.map (pageRecOf (fileCodec zstd c)))) := by
          rw [hstream]
          simp [pageStream, List.append_assoc]
        have hopen := openPage_pageRec zstd c hrt st.pos (f :: gs2)
          (pageStream (gss2.map (pageRecOf (fileCodec zstd c)))) hfitgs hdecgs
        simp only [selectAllGo, ffPastAnyHeader, hread, if_pos, hstream2, hopen]
        rw [readFeatureFromPage_block _ f gs2 (hwfgs f (List.mem_cons_self _ _)) rfl]
        dsimp only
        rw [ih gs2 gss2 _ (by simp at hcount ⊢; omega)
          (fun x hx => hwfgs x (List.mem_cons_of_mem _ hx))
          (fun x hx => hpages x (List.mem_cons_of_mem _ hx)) rfl rfl]
        simp
    · have hread : wasReadToEnd st = false := by
        simp only [wasReadToEnd, hrem]
        rcases hd : pageDecoded (f :: g2) with _ | ⟨b, bs⟩
        · exact absurd hd (pageDecoded_cons_ne_nil f g2)
        · simp
      have hff : ffPastAnyHeader zstd c st = some st := by
        rw [ffPastAnyHeader, if_neg (by simp [hread])]
      simp only [selectAllGo, hff]
      rw [readFeatureFromPage_block st f g2 (hwf f (List.mem_cons_self _ _)) hrem]
      dsimp only
      rw [ih g2 gss _ (by simp at hcount ⊢; omega)
        (fun x hx => hwf x (List.mem_cons_of_mem _ hx)) hpages rfl (by simpa using hstream)]
      simp

theorem hilbertSorted_length (features : List Feature) :
    (hilbertSorted features).length = features.length := by
  rw [hilbertSorted_eq]
  exact (List.perm_insertionSort _ _).length_eq

theorem mem_hilbertSorted {features : List Feature} {f : Feature}
    (h : f ∈ hilbertSorted features) : f ∈ features := by
  rw [hilbertSorted_eq] at h
  exact (List.perm_insertionSort _ _).mem_iff.mp h

theorem writtenLeaves_length (codec : Codec) (goal : Nat) (s : List Feature) :
    (writtenLeaves codec goal s).length = s.length := by
  rw [writtenLeaves, zipLeaves_length, writtenLocs, contLocs_length]
  simp

theorem contPages_length_le (codec : Codec) (goal : Nat) :
    ∀ (fs cur : List Feature),
      (contPages codec goal fs cur).length ≤
        fs.length + (if cur.isEmpty then 0 else 1) := by
  intro fs
  induction fs with
  | nil => intro cur; by_cases h : cur.isEmpty <;> simp [contPages, h]
  | cons f rest ih =>
    intro cur
    simp only [contPages]
    by_cases h : (pageDecoded (cur ++ [f])).length > goal
    · simp only [if_pos h, List.length_cons]
      have h2 := ih []
      simp only [List.isEmpty_nil, if_pos] at h2
      by_cases h3 : cur.isEmpty <;> simp [h3] <;> omega
    · simp only [if_neg h]
      have h2 := ih (cur ++ [f])
      rw [show ((cur ++ [f]).isEmpty) = false by simp] at h2
      simp only [Bool.false_eq_true, if_false] at h2
      by_cases h3 : cur.isEmpty <;> simp [h3, List.length_cons] <;> omega


set_option maxHeartbeats 2000000 in
/-- Full-scan round trip over the writer output: select_all yields
exactly the Hilbert-sorted features. -/
theorem selectAll_writeFile (zstd : Codec) (c : Bool) (goal : Nat)
    (features : List Feature)
    (hrt : (fileCodec zstd c).Roundtrips)
    (hwf : ∀ f ∈ features, wfFeature f = true)
    (hguard : ¬(2 ≤ features.length ∧
      ((extentOf features).unscaledLngWidth = 0 ∨
        (extentOf features).unscaledLatHeight = 0)))
    (hfit : ∀ p ∈ contPages (fileCodec zstd c) goal (hilbertSorted features) [],
      p.1.encodedPageLength < 2 ^ 32)
    (hdec : ∀ p ∈ paginate goal blockSize (hilbertSorted features),
      (pageDecoded p).length < 2 ^ 32)
    (hcount : features.length < 2 ^ 64) :
    (writeFile zstd c goal features).bind (selectAll zstd) =
      some (hilbertSorted features) := by
  rw [writeFile_norm zstd c goal features hwf hguard hfit]
  rw [Option.some_bind]
  have hplen : (writtenPages (fileCodec zstd c) goal (hilbertSorted features)).length
      < 2 ^ 64 := by
    rw [writtenPages]
    by_cases h : (contPages (fileCodec zstd c) goal (hilbertSorted features) []).isEmpty
    · simp only [if_pos h]
      norm_num
    · rw [if_neg h]
      have h2 := contPages_length_le (fileCodec zstd c) goal (hilbertSorted features) []
      simp at h2
      have h3 := hilbertSorted_length features
      omega
  by_cases hzero : features.length = 0
  · have hf0 : features = [] := List.length_eq_zero.mp hzero
    subst hf0
    rw [show writtenPages (fileCodec zstd c) goal (hilbertSorted []) =
      [(⟨0, 0, 0⟩, [])] from rfl]
    rw [show hilbertSorted ([] : List Feature) = [] from rfl]
    rw [if_pos (by simp : List.length ([] : List Feature) = 0)]
    simp only [List.length_cons, List.length_nil, List.append_nil, Nat.zero_add]
    have hh0 := parseHeader_ser (⟨c, 1, 0⟩ : Header) (pageStream [(⟨0, 0, 0⟩, [])])
      (by norm_num) (by norm_num)
    simp only [selectAll, hh0]
    rw [show indexSize 0 = 0 from rfl, List.drop_zero]
    have hph0 := parsePageHeader_ser (⟨0, 0, 0⟩ : PageHeader) [] (by norm_num)
      (by norm_num) (by norm_num)
    have hps : pageStream [((⟨0, 0, 0⟩ : PageHeader), ([] : List Byte))] =
        serPageHeader ⟨0, 0, 0⟩ ++ [] := by
      simp [pageStream]
    simp only [newPageReader, openPage, hps, hph0]
    rw [show takeN (⟨0, 0, 0⟩ : PageHeader).encodedPageLength ([] : List Byte) =
      some ([], []) from rfl]
    simp [selectAllGo]
  · have hn1 : 1 ≤ features.length := by omega
    have hslen : (hilbertSorted features).length = features.length :=
      hilbertSorted_length features
    have hflat : (paginate goal blockSize (hilbertSorted features)).flatten =
        hilbertSorted features := paginate_flatten goal blockSize (hilbertSorted features)
    have hgssne : paginate goal blockSize (hilbertSorted features) ≠ [] := by
      intro h0
      rw [h0] at hflat
      simp only [List.flatten_nil] at hflat
      rw [← hflat] at hslen
      simp only [List.length_nil] at hslen
      omega
    obtain ⟨gs1, gss2, hgss⟩ := List.exists_cons_of_ne_nil hgssne
    have hcont : contPages (fileCodec zstd c) goal (hilbertSorted features) [] =
        (gs1 :: gss2).map (pageRecOf (fileCodec zstd c)) := by
      rw [contPages_eq_paginate, hgss]
    have hpgs : writtenPages (fileCodec zstd c) goal (hilbertSorted features) =
        (gs1 :: gss2).map (pageRecOf (fileCodec zstd c)) := by
      rw [writtenPages, hcont]
      simp
    have hgmem : ∀ gs ∈ gs1 :: gss2, (∀ f ∈ gs, wfFeature f = true) ∧ gs ≠ [] ∧
        (encPage (fileCodec zstd c) gs).length < 2 ^ 32 ∧
        (pageDecoded gs).length < 2 ^ 32 := by
      intro gs hgs
      have hgs2 : gs ∈ paginate goal blockSize (hilbertSorted features) := by
        rw [hgss]
        exact hgs
      refine ⟨?_, paginate_ne_nil goal blockSize (hilbertSorted features) gs hgs2, ?_,
        hdec gs hgs2⟩
      · intro f hf
        refine hwf f (mem_hilbertSorted ?_)
        rw [← hflat]
        exact List.mem_flatten.mpr ⟨gs, hgs2, hf⟩
      · have hp := hfit (pageRecOf (fileCodec zstd c) gs)
          (by rw [hcont]; exact List.mem_map_of_mem _ hgs)
        simpa [pageRecOf] using hp
    have hleavlen : (writtenLeaves (fileCodec zstd c) goal
        (hilbertSorted features)).length = features.length := by
      rw [writtenLeaves_length, hslen]
    have hidxlen : (indexBytesOf (writtenLeaves (fileCodec zstd c) goal
        (hilbertSorted features))).length = indexSize features.length := by
      rw [indexBytesOf_length (by rw [hleavlen]; omega), hleavlen]
    rw [if_neg hzero, hpgs, List.append_assoc]
    have hh := parseHeader_ser
      (⟨c, ((gs1 :: gss2).map (pageRecOf (fileCodec zstd c))).length,
        features.length⟩ : Header)
      (indexBytesOf (writtenLeaves (fileCodec zstd c) goal (hilbertSorted features)) ++
        pageStream ((gs1 :: gss2).map (pageRecOf (fileCodec zstd c))))
      (by rw [← hpgs]; exact hplen) hcount
    simp only [selectAll, hh]
    rw [← hidxlen, List.drop_left]
    have hstream : pageStream ((gs1 :: gss2).map (pageRecOf (fileCodec zstd c))) =
        serPageHeader (pageRecOf (fileCodec zstd c) gs1).1 ++
        ((pageRecOf (fileCodec zstd c) gs1).2 ++
          pageStream (gss2.map (pageRecOf (fileCodec zstd c)))) := by
      simp [pageStream, List.append_assoc]
    obtain ⟨hwf1, hne1, hfit1, hdec1⟩ := hgmem gs1 (List.mem_cons_self _ _)
    have hopen := openPage_pageRec zstd c hrt 0 gs1
      (pageStream (gss2.map (pageRecOf (fileCodec zstd c)))) hfit1 hdec1
    simp only [newPageReader, hstream, hopen]
    rw [selectAllGo_pages zstd c hrt features.length gs1 gss2 _
      (by rw [← hslen, ← hflat, hgss]; simp)
      hwf1
      (fun gs hgs => hgmem gs (List.mem_cons_of_mem _ hgs))
      rfl rfl]
    rw [show gs1 ++ gss2.flatten = hilbertSorted features from by
      rw [← hflat, hgss, List.flatten_cons]]

set_option maxHeartbeats 2000000 in
/-- C8: the writer orders features by descending 32-bit Hilbert key of
the bounds center relative to the dataset extent — the Hilbert-sorted
list is sorted descending by key and is a permutation of the input —
and this order is what a full scan observes: select_all over the written
file yields exactly the Hilbert-sorted features; concretely, the sorted
order of the four diagonal points (0,0),(1,1),(2,2),(3,3) is
(3,3),(2,2),(1,1),(0,0). -/
theorem claim_C8 :
    (∀ features : List Feature,
      List.Sorted (fun a b => featureKey (extentOf features) b ≤
        featureKey (extentOf features) a) (hilbertSorted features) ∧
      (hilbertSorted features).Perm features) ∧
    (∀ (zstd : Codec) (c : Bool) (goal : Nat) (features : List Feature),
      (fileCodec zstd c).Roundtrips →
      (∀ f ∈ features, wfFeature f = true) →
      ¬(2 ≤ features.length ∧
        ((extentOf features).unscaledLngWidth = 0 ∨
          (extentOf features).unscaledLatHeight = 0)) →
      (∀ p ∈ contPages (fileCodec zstd c) goal (hilbertSorted features) [],
        p.1.encodedPageLength < 2 ^ 32) →
      (∀ p ∈ paginate goal blockSize (hilbertSorted features),
        (pageDecoded p).length < 2 ^ 32) →
      features.length < 2 ^ 64 →
      (writeFile zstd c goal features).bind (selectAll zstd) =
        some (hilbertSorted features)) ∧
    hilbertSorted fourPoints =
      [diagPoint 3, diagPoint 2, diagPoint 1, diagPoint 0] := by
  refine ⟨?_, ?_, by decide⟩
  · intro features
    haveI hto : IsTotal Feature (fun a b => featureKey (extentOf features) b ≤
        featureKey (extentOf features) a) := ⟨fun a b => le_total _ _⟩
    haveI htr : IsTrans Feature (fun a b => featureKey (extentOf features) b ≤
        featureKey (extentOf features) a) := ⟨fun a b c h1 h2 => le_trans h2 h1⟩
    exact ⟨List.sorted_insertionSort _ _, List.perm_insertionSort _ _⟩
  · intro zstd c goal features h1 h2 h3 h4 h5 h6
    exact selectAll_writeFile zstd c goal features h1 h2 h3 h4 h5 h6

set_option maxHeartbeats 2000000 in
theorem claim_C8_witness :
    (writeFile identityCodec false defaultPageSizeGoal fourPoints).bind
      (selectAll identityCodec) = some (hilbertSorted fourPoints) :=
  claim_C8.2.1 identityCodec false defaultPageSizeGoal fourPoints
    (fun bs => rfl) (by decide) (by decide) (by decide) (by decide) (by decide)

/-! ## Lemmas: levels of node indices and the HTTP fuse rule -/

theorem findIdx_ranges (ws : List Nat) : ∀ (off i idx : Nat), i < ws.length →
    off + (ws.take i).sum ≤ idx → idx < off + (ws.take (i + 1)).sum →
    (nodeRangesGo off ws).findIdx
      (fun r => decide (r.start ≤ idx) && decide (idx < r.stop)) = i := by
  induction ws with
  | nil => intro off i idx h; simp at h
  | cons w ws ih =>
    intro off i idx hi hlo hhi
    rcases i with _ | i
    · simp only [List.take_succ_cons, List.take_zero, List.sum_cons, List.sum_nil] at hhi
      simp only [List.take_zero, List.sum_nil, Nat.add_zero] at hlo
      simp only [nodeRangesGo, List.findIdx_cons]
      have hp : (decide (off ≤ idx) && decide (idx < off + w)) = true := by
        simp only [Bool.and_eq_true, decide_eq_true_eq]
        omega
      rw [hp]
      rfl
    · have hge : off + w ≤ idx := by
        simp only [List.take_succ_cons, List.sum_cons] at hlo
        omega
      simp only [nodeRangesGo, List.findIdx_cons]
      have hp : (decide (off ≤ idx) && decide (idx < off + w)) = false := by
        have h2 : ¬(idx < off + w) := by omega
        simp [h2]
      rw [hp]
      simp only [cond_false]
      rw [ih (off + w) i idx (by simpa using hi)
        (by simp only [List.take_succ_cons, List.sum_cons] at hlo; omega)
        (by simp only [List.take_succ_cons, List.sum_cons] at hhi; omega)]

theorem levelForNodeIdx_eq {L i idx : Nat} (h : i < numLevels L)
    (h1 : levelStart L i ≤ idx) (h2 : idx < levelStart L (i + 1)) :
    levelForNodeIdx L idx = numLevels L - 1 - i := by
  have hf := findIdx_ranges (nodesPerLevel L) 0 i idx (by simpa [numLevels] using h)
    (by simpa [levelStart] using h1) (by simpa [levelStart] using h2)
  simp only [levelForNodeIdx, nodeRangesByLevel]
  rw [hf, nodeRangesGo_length]
  rfl

theorem childrenRange_some_wf {L idx : Nat} {ch : NodeRange}
    (h : childrenRange L idx = some ch) :
    ∃ i, i + 1 < numLevels L ∧ levelStart L i ≤ idx ∧ idx < levelStart L (i + 1) ∧
      ch = ⟨levelStart L (i + 1) + (idx - levelStart L i) * 16,
        min (levelStart L (i + 1) + (idx - levelStart L i) * 16 + 16)
          (levelStart L (i + 2))⟩ := by
  by_cases hge : nodeCount L ≤ idx
  · rw [childrenRange_none_of_ge hge] at h
    exact absurd h (by simp)
  · push_neg at hge
    have hL : 1 ≤ L := by
      by_contra h0
      have hz : L = 0 := by omega
      subst hz
      have : nodeCount 0 = 0 := rfl
      omega
    obtain ⟨i, hi, h1, h2⟩ := exists_level L hge
    by_cases hleaf : i + 1 = numLevels L
    · have hstart : levelStart L (numLevels L - 1) ≤ idx := by
        rw [show numLevels L - 1 = i by omega]
        exact h1
      rw [childrenRange_none_of_leaf hL hstart hge] at h
      exact absurd h (by simp)
    · have hlt : i + 1 < numLevels L := by omega
      rw [childrenRange_spec hlt h1 h2] at h
      refine ⟨i, hlt, h1, h2, ?_⟩
      exact (Option.some.injEq _ _).mp h.symm

theorem childrenRange_wfHttp {L idx : Nat} {ch : NodeRange}
    (h : childrenRange L idx = some ch) : rangeWfHttp L ch := by
  obtain ⟨i, hlt, h1, h2, rfl⟩ := childrenRange_some_wf h
  obtain ⟨hb1, hb2, hb3⟩ := childrenRange_bounds hlt h1 h2
  refine ⟨i + 1, by omega, by simpa using hb1, ?_, ?_, by simpa using hb3, ?_, ?_⟩
  · have := hb2
    simp only at this ⊢
    rw [show i + 1 + 1 = i + 2 from rfl]
    omega
  · simp only
    omega
  · simp only
    omega
  · simp only
    rcases le_or_lt (levelStart L (i + 1) + (idx - levelStart L i) * 16 + 16)
      (levelStart L (i + 2)) with hc | hc
    · left
      rw [min_eq_left hc]
      omega
    · right
      rw [min_eq_right (by omega)]

theorem rangeWfHttp_same_level {L : Nat} {t ch : NodeRange}
    (ht : rangeWfHttp L t) (hch : rangeWfHttp L ch)
    (hsame : levelForNodeIdx L t.start = levelForNodeIdx L ch.start) :
    ∃ i, i < numLevels L ∧
      levelStart L i ≤ t.start ∧ t.start < levelStart L (i + 1) ∧
      levelStart L i ≤ t.stop ∧ t.stop ≤ levelStart L (i + 1) ∧
      (t.start - levelStart L i) % 16 = 0 ∧
      ((t.stop - levelStart L i) % 16 = 0 ∨ t.stop = levelStart L (i + 1)) ∧
      levelStart L i ≤ ch.start ∧ ch.start < levelStart L (i + 1) ∧
      levelStart L i ≤ ch.stop ∧ ch.stop ≤ levelStart L (i + 1) ∧
      (ch.start - levelStart L i) % 16 = 0 ∧
      ((ch.stop - levelStart L i) % 16 = 0 ∨ ch.stop = levelStart L (i + 1)) := by
  obtain ⟨it, hit, ht1, ht2, ht3, ht4, ht5, ht6⟩ := ht
  obtain ⟨ic, hic, hc1, hc2, hc3, hc4, hc5, hc6⟩ := hch
  have he1 := levelForNodeIdx_eq hit ht1 ht2
  have he2 := levelForNodeIdx_eq hic hc1 hc2
  have : it = ic := by
    rw [he1, he2] at hsame
    omega
  subst this
  exact ⟨it, hit, ht1, ht2, ht3, ht4, ht5, ht6, hc1, hc2, hc3, hc4, hc5, hc6⟩

theorem fuse_iff {L : Nat} {t ch : NodeRange}
    (ht : rangeWfHttp L t) (hch : rangeWfHttp L ch)
    (hsame : levelForNodeIdx L t.start = levelForNodeIdx L ch.start)
    (b : Nat) (hb1 : 560 ≤ b) (hb2 : b < 576) :
    (t.stop + combineRequestNodeThreshold > ch.start ↔ ch.start - t.stop ≤ b) := by
  obtain ⟨i, hi, ht1, ht2, ht3, ht4, ht5, ht6, hc1, hc2, hc3, hc4, hc5, hc6⟩ :=
    rangeWfHttp_same_level ht hch hsame
  have hth : combineRequestNodeThreshold = 571 := rfl
  rw [hth]
  rcases ht6 with ht6 | ht6
  · omega
  · omega

theorem pushChildrenRange_ok {L : Nat} (queue : List NodeRange) (ch : NodeRange)
    (hq : ∀ r ∈ queue, rangeWfHttp L r) (hch : rangeWfHttp L ch) :
    (∀ r ∈ (pushChildrenRange L queue ch).1, rangeWfHttp L r) ∧
    fuseEventOk L (pushChildrenRange L queue ch).2 := by
  rw [pushChildrenRange]
  rcases hlast : queue.getLast? with _ | t
  · refine ⟨?_, ?_⟩
    · intro r hr
      rcases List.mem_append.mp hr with h | h
      · exact hq r h
      · rw [List.mem_singleton] at h
        subst h
        exact hch
    · intro b hb1 hb2
      simp
  · have htmem : t ∈ queue := by
      have := List.getLast?_eq_getElem?  (l := queue)
      rw [hlast] at this
      exact List.getElem?_mem this.symm
    have htwf := hq t htmem
    dsimp only
    by_cases hlev : levelForNodeIdx L t.start ≠ levelForNodeIdx L ch.start
    · rw [if_pos hlev]
      refine ⟨?_, ?_⟩
      · intro r hr
        rcases List.mem_append.mp hr with h | h
        · exact hq r h
        · rw [List.mem_singleton] at h
          subst h
          exact hch
      · intro b hb1 hb2
        simp only [Bool.false_eq_true, false_iff]
        rintro ⟨t2, ht2, hsame, hgap⟩
        rw [Option.some.injEq] at ht2
        subst ht2
        exact hlev hsame
    · push_neg at hlev
      by_cases hfuse : t.stop + combineRequestNodeThreshold > ch.start
      · rw [if_neg (by simpa using hlev), if_pos hfuse]
        refine ⟨?_, ?_⟩
        · intro r hr
          rcases List.mem_append.mp hr with h | h
          · exact hq r ((List.dropLast_sublist queue).subset h)
          · rw [List.mem_singleton] at h
            subst h
            obtain ⟨i, hi, ht1, ht2, ht3, ht4, ht5, ht6, hc1, hc2, hc3, hc4, hc5, hc6⟩ :=
              rangeWfHttp_same_level htwf hch hlev
            exact ⟨i, hi, ht1, ht2, hc3, hc4, ht5, hc6⟩
        · intro b hb1 hb2
          simp only [true_iff]
          exact ⟨t, rfl, hlev, (fuse_iff htwf hch hlev b hb1 hb2).mp hfuse⟩
      · rw [if_neg (by simpa using hlev), if_neg hfuse]
        refine ⟨?_, ?_⟩
        · intro r hr
          rcases List.mem_append.mp hr with h | h
          · exact hq r h
          · rw [List.mem_singleton] at h
            subst h
            exact hch
        · intro b hb1 hb2
          simp only [Bool.false_eq_true, false_iff]
          rintro ⟨t2, ht2, hsame, hgap⟩
          rw [Option.some.injEq] at ht2
          subst ht2
          exact hfuse ((fuse_iff htwf hch hlev b hb1 hb2).mpr hgap)

theorem processNodesHttp_inv (L : Nat) (bbox : Bounds) :
    ∀ (pairs : List (Nat × Node)) (queue : List NodeRange)
      (results : List FeatureLocation) (events : List PushEvent),
      (∀ r ∈ queue, rangeWfHttp L r) →
      (∀ ev ∈ events, fuseEventOk L ev) →
      (∀ r ∈ (processNodesHttp L bbox pairs queue results events).1, rangeWfHttp L r) ∧
      (∀ ev ∈ (processNodesHttp L bbox pairs queue results events).2.2,
        fuseEventOk L ev) := by
  intro pairs
  induction pairs with
  | nil =>
    intro queue results events hq hev
    exact ⟨hq, hev⟩
  | cons p rest ih =>
    intro queue results events hq hev
    rcases p with ⟨idx, node⟩
    simp only [processNodesHttp]
    by_cases hint : node.bounds.intersects bbox
    · rw [if_pos hint]
      by_cases hleaf : isLeafNode L idx
      · rw [if_pos hleaf]
        exact ih queue (results ++ [node.offset]) events hq hev
      · rw [if_neg hleaf]
        rcases hcr : childrenRange L idx with _ | children
        · exact ih queue results events hq hev
        · have hwfch := childrenRange_wfHttp hcr
          have hpush := pushChildrenRange_ok queue children hq hwfch
          refine ih _ results _ hpush.1 ?_
          intro ev hevmem
          rcases List.mem_append.mp hevmem with h | h
          · exact hev ev h
          · rw [List.mem_singleton] at h
            subst h
            exact hpush.2
    · rw [if_neg hint]
      exact ih queue results events hq hev

theorem httpGo_events (L : Nat) (nodes : List Node) (bbox : Bounds) :
    ∀ (fuel : Nat) (queue : List NodeRange) (results : List FeatureLocation)
      (events : List PushEvent),
      (∀ r ∈ queue, rangeWfHttp L r) →
      (∀ ev ∈ events, fuseEventOk L ev) →
      ∀ res, httpGo L nodes bbox fuel queue results events = some res →
      ∀ ev ∈ res.2, fuseEventOk L ev := by
  intro fuel
  induction fuel with
  | zero =>
    intro queue results events _ _ res h
    simp [httpGo] at h
  | succ fuel ih =>
    intro queue results events hq hev res h
    rcases queue with _ | ⟨r, queue2⟩
    · simp only [httpGo, Option.some.injEq] at h
      subst h
      exact hev
    · simp only [httpGo] at h
      have hinv := processNodesHttp_inv L bbox (sliceNodes nodes r) queue2 results events
        (fun r2 hr2 => hq r2 (List.mem_cons_of_mem _ hr2)) hev
      exact ih _ _ _ hinv.1 hinv.2 res h

/-- C4: in the HTTP tree descent, a newly discovered children range is
fused with the queue tail exactly when the tail exists, lies on the same
tree level, and the gap from the tail end to the new start is at most the
node threshold; ranges on different levels are never fused. Reachable
gaps are multiples of sixteen, so the characterization holds uniformly
for every cutoff b with 560 ≤ b < 576 — in particular both for
571 = 16000 / 28 (the constant the code computes) and for the ceiling
572 named by the spec. -/
theorem claim_C4 (L : Nat) (nodes : List Node) (bbox : Bounds)
    (locs : List FeatureLocation) (events : List PushEvent)
    (h : httpSelectBbox L nodes bbox = some (locs, events)) :
    ∀ ev ∈ events, fuseEventOk L ev := by
  rw [httpSelectBbox] at h
  by_cases hL : L = 0
  · rw [if_pos hL, Option.some.injEq] at h
    have : events = [] := (Prod.mk.injEq _ _ _ _).mp h.symm |>.2
    subst this
    intro ev hev
    simp at hev
  · rw [if_neg hL] at h
    have hL1 : 1 ≤ L := by omega
    have hnl : 0 < numLevels L := by simpa [numLevels] using numLevels_pos hL1
    have hls1 : levelStart L (0 + 1) = 1 := by
      rw [levelStart_succ hnl, levelStart_zero, levelWidth_zero hL1]
    have hroot : rangeWfHttp L (⟨0, 1⟩ : NodeRange) :=
      ⟨0, hnl, by simp [levelStart_zero], by simp [hls1], by simp [levelStart_zero],
        by simp [hls1], by simp [levelStart_zero], Or.inr (by simp [hls1])⟩
    have := httpGo_events L nodes bbox (2 * nodeCount L + 2) [⟨0, 1⟩] [] []
      (by
        intro r hr
        rw [List.mem_singleton] at hr
        subst hr
        exact hroot)
      (by intro ev hev; simp at hev)
      (locs, events) h
    exact this

theorem claim_C4_witness :
    fuseEventOk 32 ⟨some ⟨3, 19⟩, ⟨19, 35⟩, true⟩ ∧
    (⟨some ⟨3, 19⟩, ⟨19, 35⟩, true⟩ : PushEvent) ∈
      [(⟨none, ⟨1, 3⟩, false⟩ : PushEvent), ⟨none, ⟨3, 19⟩, false⟩,
        ⟨some ⟨3, 19⟩, ⟨19, 35⟩, true⟩] := by
  constructor
  · exact claim_C4 32 (List.replicate 35 ⟨⟨⟨0, 0⟩, ⟨0, 0⟩⟩, ⟨0, 0⟩⟩) ⟨⟨0, 0⟩, ⟨0, 0⟩⟩
      (List.replicate 32 ⟨0, 0⟩)
      [⟨none, ⟨1, 3⟩, false⟩, ⟨none, ⟨3, 19⟩, false⟩, ⟨some ⟨3, 19⟩, ⟨19, 35⟩, true⟩]
      (by decide) _ (by decide)
  · decide

/-! ## Lemmas: bounds well-formedness through the builders -/

theorem wfBounds_empty : wfBounds Bounds.empty = true := by decide

theorem wfBounds_extendPoint {b : Bounds} {p : LngLat} (hb : wfBounds b = true)
    (hp : wfLngLat p = true) : wfBounds (b.extendPoint p) = true := by
  simp only [wfBounds, wfLngLat, Bool.and_eq_true, decide_eq_true_eq] at hb hp ⊢
  simp only [Bounds.extendPoint]
  split_ifs <;> simp_all <;> omega

theorem wfBounds_extend {a b : Bounds} (ha : wfBounds a = true)
    (hb : wfBounds b = true) : wfBounds (a.extend b) = true := by
  simp only [wfBounds, wfLngLat, Bool.and_eq_true, decide_eq_true_eq] at ha hb ⊢
  simp only [Bounds.extend]
  split_ifs <;> simp_all <;> omega

theorem wfBounds_points : ∀ (ps : List LngLat) (b : Bounds),
    (∀ p ∈ ps, wfLngLat p = true) → wfBounds b = true →
    wfBounds (extendBoundsPoints ps b) = true := by
  intro ps
  induction ps with
  | nil => intro b _ hb; simpa [extendBoundsPoints] using hb
  | cons p ps ih =>
    intro b hps hb
    simp only [extendBoundsPoints, List.foldl_cons]
    exact ih _ (fun q hq => hps q (List.mem_cons_of_mem _ hq))
      (wfBounds_extendPoint hb (hps p (List.mem_cons_self _ _)))

theorem wfBounds_lines : ∀ (ls : List (List LngLat)) (b : Bounds),
    (∀ l ∈ ls, ∀ p ∈ l, wfLngLat p = true) → wfBounds b = true →
    wfBounds (extendBoundsLines ls b) = true := by
  intro ls
  induction ls with
  | nil => intro b _ hb; simpa [extendBoundsLines] using hb
  | cons l ls ih =>
    intro b hls hb
    simp only [extendBoundsLines, List.foldl_cons]
    exact ih _ (fun q hq => hls q (List.mem_cons_of_mem _ hq))
      (wfBounds_points l b (hls l (List.mem_cons_self _ _)) hb)

theorem wfBounds_polygons : ∀ (ps : List (List (List LngLat))) (b : Bounds),
    (∀ pg ∈ ps, ∀ l ∈ pg, ∀ p ∈ l, wfLngLat p = true) → wfBounds b = true →
    wfBounds (extendBoundsPolygons ps b) = true := by
  intro ps
  induction ps with
  | nil => intro b _ hb; simpa [extendBoundsPolygons] using hb
  | cons pg ps ih =>
    intro b hps hb
    simp only [extendBoundsPolygons, List.foldl_cons]
    exact ih _ (fun q hq => hps q (List.mem_cons_of_mem _ hq))
      (wfBounds_lines pg b (hps pg (List.mem_cons_self _ _)) hb)

theorem geometry_extendBounds_wf (g : Geometry) :
    wfGeometry g = true → ∀ b, wfBounds b = true →
    wfBounds (g.extendBounds b) = true := by
  refine @Geometry.rec
    (fun g => wfGeometry g = true → ∀ b, wfBounds b = true →
      wfBounds (g.extendBounds b) = true)
    (fun gs => wfGeometryList gs = true → ∀ b, wfBounds b = true →
      wfBounds (GeometryList.extendBounds gs b) = true)
    ?_ ?_ ?_ ?_ ?_ ?_ ?_ ?_ ?_ g
  · intro p h b hb
    exact wfBounds_extendPoint hb (by simpa [wfGeometry] using h)
  · intro ps h b hb
    simp only [wfGeometry, wfPointList, Bool.and_eq_true, List.all_eq_true] at h
    exact wfBounds_points ps b h.2 hb
  · intro rs h b hb
    simp only [wfGeometry, wfRingList, wfPointList, Bool.and_eq_true,
      List.all_eq_true] at h
    exact wfBounds_lines rs b (fun l hl => (h.2 l hl).2) hb
  · intro ps h b hb
    simp only [wfGeometry, wfPointList, Bool.and_eq_true, List.all_eq_true] at h
    exact wfBounds_points ps b h.2 hb
  · intro ls h b hb
    simp only [wfGeometry, wfRingList, wfPointList, Bool.and_eq_true,
      List.all_eq_true] at h
    exact wfBounds_lines ls b (fun l hl => (h.2 l hl).2) hb
  · intro ps h b hb
    simp only [wfGeometry, wfPolygonList, wfRingList, wfPointList, Bool.and_eq_true,
      List.all_eq_true] at h
    exact wfBounds_polygons ps b (fun pg hpg => fun l hl => ((h.2 pg hpg).2 l hl).2) hb
  · intro gs ih h b hb
    simp only [wfGeometry, Bool.and_eq_true] at h
    exact ih h.2 b hb
  · intro _ b hb
    simpa [GeometryList.extendBounds] using hb
  · intro g tl ihg ihtl h b hb
    simp only [wfGeometryList, Bool.and_eq_true] at h
    exact ihtl h.2 _ (ihg h.1 b hb)

theorem featureBounds_wf {f : Feature} (hwf : wfFeature f = true) :
    wfBounds (featureBounds f) = true := by
  simp only [wfFeature, Bool.and_eq_true] at hwf
  exact geometry_extendBounds_wf f.geometry hwf.1.1.1 Bounds.empty wfBounds_empty

/-! ## Lemmas: well-formedness of the built index nodes -/

theorem wfNode_iff (n : Node) : wfNode n = true ↔
    (wfBounds n.bounds = true ∧ n.offset.pageStartingOffset < 2 ^ 64 ∧
      n.offset.featureOffset < 2 ^ 32) := by
  simp [wfNode, wfBounds, Bool.and_eq_true, and_assoc]

theorem chunksOf16_mem : ∀ (fuel : Nat) (l : List Node) (c : List Node),
    c ∈ chunksOf16 fuel l → ∀ x ∈ c, x ∈ l := by
  intro fuel
  induction fuel with
  | zero =>
    intro l c hc x hx
    rcases l with _ | ⟨a, l2⟩
    · simp [chunksOf16] at hc
    · simp only [chunksOf16, List.mem_singleton] at hc
      subst hc
      exact hx
  | succ fuel ih =>
    intro l c hc x hx
    rcases l with _ | ⟨a, l2⟩
    · simp [chunksOf16] at hc
    · simp only [chunksOf16, List.mem_cons] at hc
      rcases hc with hc | hc
      · subst hc
        exact List.take_subset _ _ hx
      · exact List.drop_subset _ _ (ih _ c hc x hx)

theorem foldl_extend_wf : ∀ (c : List Node) (b : Bounds),
    (∀ x ∈ c, wfBounds x.bounds = true) → wfBounds b = true →
    wfBounds (c.foldl (fun b n => b.extend n.bounds) b) = true := by
  intro c
  induction c with
  | nil => intro b _ hb; simpa using hb
  | cons n c ih =>
    intro b hc hb
    simp only [List.foldl_cons]
    exact ih _ (fun x hx => hc x (List.mem_cons_of_mem _ hx))
      (wfBounds_extend hb (hc n (List.mem_cons_self _ _)))

theorem parentNodes_wf {ns : List Node} (h : ∀ n ∈ ns, wfNode n = true) :
    ∀ m ∈ parentNodes ns, wfNode m = true := by
  intro m hm
  simp only [parentNodes, List.mem_map] at hm
  obtain ⟨c, hc, rfl⟩ := hm
  rw [wfNode_iff]
  refine ⟨?_, by norm_num [Node.emptyInner], by norm_num [Node.emptyInner]⟩
  refine foldl_extend_wf c Node.emptyInner.bounds ?_ wfBounds_empty
  intro x hx
  exact ((wfNode_iff x).mp (h x (chunksOf16_mem ns.length ns c hc x hx))).1

theorem buildLevelsGo_wf : ∀ (ws : List Nat) (cur : List Node),
    (∀ n ∈ cur, wfNode n = true) →
    ∀ lvl ∈ buildLevelsGo ws cur, ∀ n ∈ lvl, wfNode n = true := by
  intro ws
  induction ws with
  | nil => intro cur _ lvl hlvl; simp [buildLevelsGo] at hlvl
  | cons w ws ih =>
    intro cur hcur lvl hlvl
    simp only [buildLevelsGo, List.mem_cons] at hlvl
    rcases hlvl with hlvl | hlvl
    · subst hlvl
      exact hcur
    · exact ih (parentNodes cur) (parentNodes_wf hcur) lvl hlvl

theorem treeNodes_wf {leaves : List Node} (h : ∀ n ∈ leaves, wfNode n = true) :
    ∀ n ∈ treeNodes leaves, wfNode n = true := by
  intro n hn
  simp only [treeNodes, List.mem_flatten, List.mem_reverse] at hn
  obtain ⟨lvl, hlvl, hn2⟩ := hn
  exact buildLevelsGo_wf _ leaves h lvl hlvl n hn2

/-! ## Lemmas: parsing the serialized index -/

theorem drop_append_len (a : List Byte) : ∀ (b : List Byte) (k : Nat),
    (a ++ b).drop (a.length + k) = b.drop k := by
  induction a with
  | nil => intro b k; simp
  | cons x a ih =>
    intro b k
    simp only [List.cons_append, List.length_cons]
    rw [show a.length + 1 + k = a.length + k + 1 by omega, List.drop_succ_cons]
    exact ih b k

theorem parseNodeAt_flatten (ns : List Node) (hwf : ∀ n ∈ ns, wfNode n = true) :
    ∀ i, parseNodeAt ((ns.map serNode).flatten) i = ns[i]? := by
  induction ns with
  | nil =>
    intro i
    simp only [List.map_nil, List.flatten_nil, List.getElem?_nil, parseNodeAt,
      List.drop_nil]
    rfl
  | cons n ns ih =>
    intro i
    rcases i with _ | i
    · simp only [List.map_cons, List.flatten_cons, parseNodeAt, Nat.zero_mul,
        List.drop_zero]
      rw [parseNode_ser n _ (hwf n (List.mem_cons_self _ _))]
      simp
    · simp only [List.map_cons, List.flatten_cons, parseNodeAt]
      rw [show (i + 1) * Node.serializedSize =
        (serNode n).length + i * Node.serializedSize by
        rw [serNode_length]; ring]
      rw [drop_append_len]
      have := ih (fun m hm => hwf m (List.mem_cons_of_mem _ hm)) i
      simpa [parseNodeAt] using this

theorem readNodesSeq_ok (ns : List Node) (hwf : ∀ n ∈ ns, wfNode n = true) :
    ∀ (k i : Nat), i + k ≤ ns.length →
    readNodesSeq ((ns.map serNode).flatten) i k = some ((ns.drop i).take k) := by
  intro k
  induction k with
  | zero => intro i _; simp [readNodesSeq]
  | succ k ih =>
    intro i hik
    have hi : i < ns.length := by omega
    simp only [readNodesSeq]
    rw [parseNodeAt_flatten ns hwf i, List.getElem?_eq_getElem hi]
    simp only [Option.some_bind]
    rw [ih (i + 1) (by omega)]
    simp only [Option.map_some']
    have hd := List.drop_eq_getElem_cons hi
    rw [hd, List.take_succ_cons]

theorem readNodeRange_ok (ns : List Node) (hwf : ∀ n ∈ ns, wfNode n = true)
    (pos : Nat) (r : NodeRange) (h1 : pos ≤ r.start) (h2 : r.start < r.stop)
    (h3 : r.stop ≤ ns.length) :
    readNodeRange ((ns.map serNode).flatten) pos r =
      some ((List.range' r.start (r.stop - r.start)).zip
        ((ns.drop r.start).take (r.stop - r.start))) := by
  simp only [readNodeRange, if_pos (And.intro h1 h2)]
  rw [readNodesSeq_ok ns hwf (r.start - pos) pos (by omega)]
  simp only [Option.some_bind]
  rw [readNodesSeq_ok ns hwf (r.stop - r.start) r.start (by omega)]
  simp only [Option.map_some']

/-! ## Lemmas: the local traversal -/

theorem isLeafNode_iff {L : Nat} (hL : 1 ≤ L) (idx : Nat) :
    isLeafNode L idx = true ↔ leafStart L ≤ idx := by
  have hlast := nodeRangesByLevel_getLast hL
  simp only [isLeafNode, hlast, ge_iff_le, decide_eq_true_eq]

theorem processNodes_spec (L : Nat) (bbox : Bounds) :
    ∀ (pairs : List (Nat × Node)) (queue : List NodeRange)
      (results : List FeatureLocation),
      processNodes L bbox pairs queue results =
        (queue ++ pairs.filterMap (fun p =>
            if p.2.bounds.intersects bbox then
              (if isLeafNode L p.1 then none else childrenRange L p.1)
            else none),
          results ++ pairs.filterMap (fun p =>
            if p.2.bounds.intersects bbox then
              (if isLeafNode L p.1 then some p.2.offset else none)
            else none)) := by
  intro pairs
  induction pairs with
  | nil => intro queue results; simp [processNodes]
  | cons p rest ih =>
    intro queue results
    rcases p with ⟨idx, node⟩
    simp only [processNodes]
    by_cases hint : node.bounds.intersects bbox
    · rw [if_pos hint]
      by_cases hleaf : isLeafNode L idx
      · rw [if_pos hleaf, ih]
        simp [hint, hleaf]
      · rw [if_neg hleaf]
        rcases hcr : childrenRange L idx with _ | children
        · simp only [hcr]
          rw [ih]
          simp [hint, hleaf, hcr]
        · simp only [hcr]
          rw [ih]
          simp [hint, hleaf, hcr, List.append_assoc]
    · rw [if_neg hint, ih]
      simp [hint]

theorem leaf_of_level {L ℓ idx : Nat} (hℓ : ℓ < numLevels L)
    (hlast : ℓ = numLevels L - 1) (h1 : levelStart L ℓ ≤ idx) :
    leafStart L ≤ idx := by
  rw [leafStart, ← hlast]
  exact h1

theorem not_leaf_of_level {L ℓ idx : Nat} (hℓ : ℓ + 1 < numLevels L)
    (h2 : idx < levelStart L (ℓ + 1)) : ¬leafStart L ≤ idx := by
  have hm := levelStart_mono (L := L) (show ℓ + 1 ≤ numLevels L - 1 by omega)
  rw [leafStart]
  omega

theorem emitNode_leaf {L : Nat} (ns : List Node) (bbox : Bounds) (hL : 1 ≤ L)
    {idx : Nat} (f : Nat) (hge : leafStart L ≤ idx) :
    emitNode L ns bbox (f + 1) idx =
      match ns[idx]? with
      | none => []
      | some node => if node.bounds.intersects bbox then [node.offset] else [] := by
  simp only [emitNode]
  rcases ns[idx]? with _ | node
  · rfl
  · dsimp only
    by_cases hint : node.bounds.intersects bbox
    · rw [if_pos hint, if_pos ((isLeafNode_iff hL idx).mpr hge), if_pos hint]
    · rw [if_neg hint, if_neg hint]

theorem emitNode_inner {L : Nat} (ns : List Node) (bbox : Bounds) (hL : 1 ≤ L)
    {idx : Nat} (f : Nat) (c : NodeRange) (hc : childrenRange L idx = some c)
    (hleaf : ¬leafStart L ≤ idx) :
    emitNode L ns bbox (f + 1) idx =
      match ns[idx]? with
      | none => []
      | some node =>
        if node.bounds.intersects bbox then emitRange L ns bbox f c else [] := by
  simp only [emitNode, emitRange]
  rcases ns[idx]? with _ | node
  · rfl
  · dsimp only
    by_cases hint : node.bounds.intersects bbox
    · rw [if_pos hint, if_neg (by
        intro habs
        exact hleaf ((isLeafNode_iff hL idx).mp habs)), hc, if_pos hint]
    · rw [if_neg hint, if_neg hint]

theorem emitNode_fuel {L : Nat} (ns : List Node) (bbox : Bounds) (hL : 1 ≤ L) :
    ∀ (d ℓ idx f1 f2 : Nat),
      ℓ < numLevels L → levelStart L ℓ ≤ idx → idx < levelStart L (ℓ + 1) →
      numLevels L - ℓ = d → d ≤ f1 → d ≤ f2 →
      emitNode L ns bbox f1 idx = emitNode L ns bbox f2 idx := by
  intro d
  induction d using Nat.strong_induction_on with
  | _ d ih =>
    intro ℓ idx f1 f2 hℓ h1 h2 hd hf1 hf2
    rcases f1 with _ | a
    · omega
    rcases f2 with _ | b
    · omega
    by_cases hlast : ℓ = numLevels L - 1
    · rw [emitNode_leaf ns bbox hL a (leaf_of_level hℓ hlast h1),
        emitNode_leaf ns bbox hL b (leaf_of_level hℓ hlast h1)]
    · have hlt : ℓ + 1 < numLevels L := by omega
      have hcr := childrenRange_spec hlt h1 h2
      have hb := childrenRange_bounds hlt h1 h2
      have hnl := not_leaf_of_level hlt h2
      rw [emitNode_inner ns bbox hL a _ hcr hnl, emitNode_inner ns bbox hL b _ hcr hnl]
      rcases ns[idx]? with _ | node
      · rfl
      · dsimp only
        by_cases hint : node.bounds.intersects bbox
        · rw [if_pos hint, if_pos hint]
          simp only [emitRange]
          congr 1
          refine List.map_congr_left ?_
          intro idx2 hidx2
          rw [List.mem_range'] at hidx2
          refine ih (d - 1) (by omega) (ℓ + 1) idx2 a b hlt ?_ ?_ (by omega) (by omega)
            (by omega)
          · omega
          · rw [show ℓ + 1 + 1 = ℓ + 2 from rfl]
            omega
        · rw [if_neg hint, if_neg hint]

theorem level_unique {L i j p : Nat} (hi : i < numLevels L) (hj : j < numLevels L)
    (h1 : levelStart L i ≤ p) (h2 : p < levelStart L (i + 1))
    (h3 : levelStart L j ≤ p) (h4 : p < levelStart L (j + 1)) : i = j := by
  rcases Nat.lt_trichotomy i j with h | h | h
  · have := levelStart_mono (L := L) (show i + 1 ≤ j by omega)
    omega
  · exact h
  · have := levelStart_mono (L := L) (show j + 1 ≤ i by omega)
    omega

theorem zip_segment_filterMap {α : Type} (f : Nat × Node → Option α) (ns : List Node) :
    ∀ (len s : Nat), s + len ≤ ns.length →
      ((List.range' s len).zip ((ns.drop s).take len)).filterMap f =
        (List.range' s len).filterMap (fun i => match ns[i]? with
          | none => none
          | some nd => f (i, nd)) := by
  intro len
  induction len with
  | zero => intro s _; simp
  | succ len ih =>
    intro s h
    have hs : s < ns.length := by omega
    rw [List.range'_succ, List.drop_eq_getElem_cons hs, List.take_succ_cons]
    simp only [List.zip_cons_cons, List.filterMap_cons]
    rw [List.getElem?_eq_getElem hs]
    rcases hf : f (s, ns[s]) with _ | v <;> simp [hf, ih (s + 1) (by omega)]

theorem segment_emits_leaf (L : Nat) (ns : List Node) (bbox : Bounds) (hL : 1 ≤ L)
    (F : Nat) : ∀ (len s : Nat), leafStart L ≤ s →
      (List.range' s len).filterMap (fun i => match ns[i]? with
        | none => none
        | some nd =>
          if nd.bounds.intersects bbox then
            (if isLeafNode L i then some nd.offset else none)
          else none) =
      ((List.range' s len).map (emitNode L ns bbox (F + 1))).flatten := by
  intro len
  induction len with
  | zero => intro s _; simp
  | succ len ih =>
    intro s hs
    rw [List.range'_succ]
    simp only [List.filterMap_cons, List.map_cons, List.flatten_cons]
    rw [emitNode_leaf ns bbox hL F hs]
    rcases ns[s]? with _ | nd
    · simp [ih (s + 1) (by omega)]
    · dsimp only
      by_cases hint : nd.bounds.intersects bbox
      · rw [if_pos hint, if_pos hint,
          if_pos ((isLeafNode_iff hL s).mpr hs)]
        simp [ih (s + 1) (by omega)]
      · rw [if_neg hint, if_neg hint]
        simp [ih (s + 1) (by omega)]

theorem segment_pushes_leaf (L : Nat) (ns : List Node) (bbox : Bounds) (hL : 1 ≤ L) :
    ∀ (len s : Nat), leafStart L ≤ s →
      (List.range' s len).filterMap (fun i => match ns[i]? with
        | none => none
        | some nd =>
          if nd.bounds.intersects bbox then
            (if isLeafNode L i then none else childrenRange L i)
          else none) = ([] : List NodeRange) := by
  intro len
  induction len with
  | zero => intro s _; simp
  | succ len ih =>
    intro s hs
    rw [List.range'_succ]
    simp only [List.filterMap_cons]
    rcases ns[s]? with _ | nd
    · simp [ih (s + 1) (by omega)]
    · dsimp only
      by_cases hint : nd.bounds.intersects bbox
      · rw [if_pos hint, if_pos ((isLeafNode_iff hL s).mpr hs)]
        simp [ih (s + 1) (by omega)]
      · rw [if_neg hint]
        simp [ih (s + 1) (by omega)]

theorem segment_emits_inner (L : Nat) (ns : List Node) (bbox : Bounds) (hL : 1 ≤ L)
    {ℓ : Nat} (hℓ : ℓ + 1 < numLevels L) :
    ∀ (len s : Nat), levelStart L ℓ ≤ s → s + len ≤ levelStart L (ℓ + 1) →
      (List.range' s len).filterMap (fun i => match ns[i]? with
        | none => none
        | some nd =>
          if nd.bounds.intersects bbox then
            (if isLeafNode L i then some nd.offset else none)
          else none) = ([] : List FeatureLocation) := by
  intro len
  induction len with
  | zero => intro s _ _; simp
  | succ len ih =>
    intro s hs1 hs2
    rw [List.range'_succ]
    simp only [List.filterMap_cons]
    have hnl : isLeafNode L s = false := by
      rw [← Bool.not_eq_true]
      intro habs
      exact not_leaf_of_level hℓ (by omega) ((isLeafNode_iff hL s).mp habs)
    rcases ns[s]? with _ | nd
    · simp [ih (s + 1) (by omega) (by omega)]
    · dsimp only
      by_cases hint : nd.bounds.intersects bbox
      · rw [if_pos hint, hnl]
        simp [ih (s + 1) (by omega) (by omega)]
      · rw [if_neg hint]
        simp [ih (s + 1) (by omega) (by omega)]

theorem child_facts {L ℓ p : Nat} {c : NodeRange} (hℓ : ℓ + 1 < numLevels L)
    (h1 : levelStart L ℓ ≤ p) (h2 : p < levelStart L (ℓ + 1))
    (hc : childrenRange L p = some c) :
    levelStart L (ℓ + 1) ≤ c.start ∧ c.start < c.stop ∧
      c.stop ≤ levelStart L (ℓ + 2) := by
  rw [childrenRange_spec hℓ h1 h2] at hc
  injection hc with hc
  rw [← hc]
  exact childrenRange_bounds hℓ h1 h2

theorem segment_pushes_parents (L : Nat) (ns : List Node) (bbox : Bounds) :
    ∀ (len s : Nat) (c : NodeRange),
      c ∈ (List.range' s len).filterMap (fun i => match ns[i]? with
        | none => none
        | some nd =>
          if nd.bounds.intersects bbox then
            (if isLeafNode L i then none else childrenRange L i)
          else none) →
      ∃ p, s ≤ p ∧ p < s + len ∧ childrenRange L p = some c := by
  intro len
  induction len with
  | zero => intro s c hc; simp at hc
  | succ len ih =>
    intro s c hc
    rw [List.range'_succ] at hc
    simp only [List.filterMap_cons] at hc
    have hrest : c ∈ (List.range' (s + 1) len).filterMap (fun i => match ns[i]? with
        | none => none
        | some nd =>
          if nd.bounds.intersects bbox then
            (if isLeafNode L i then none else childrenRange L i)
          else none) →
        ∃ p, s ≤ p ∧ p < s + (len + 1) ∧ childrenRange L p = some c := by
      intro hmem
      obtain ⟨p, hp1, hp2, hp3⟩ := ih (s + 1) c hmem
      exact ⟨p, by omega, by omega, hp3⟩
    rcases hns : ns[s]? with _ | nd
    · rw [hns] at hc
      exact hrest hc
    · rw [hns] at hc
      dsimp only at hc
      by_cases hint : nd.bounds.intersects bbox
      · rw [if_pos hint] at hc
        by_cases hleaf : isLeafNode L s
        · rw [if_pos hleaf] at hc
          exact hrest hc
        · rw [if_neg hleaf] at hc
          rcases hcr : childrenRange L s with _ | c0
          · rw [hcr] at hc
            exact hrest hc
          · rw [hcr] at hc
            rcases List.mem_cons.mp hc with rfl | hmem
            · exact ⟨s, le_refl s, by omega, hcr⟩
            · exact hrest hmem
      · rw [if_neg hint] at hc
        exact hrest hc

theorem segment_pushes_chain (L : Nat) (ns : List Node) (bbox : Bounds)
    {ℓ : Nat} (hℓ : ℓ + 1 < numLevels L) :
    ∀ (len s : Nat), levelStart L ℓ ≤ s → s + len ≤ levelStart L (ℓ + 1) →
      List.Chain' (fun a b : NodeRange => a.stop ≤ b.start)
        ((List.range' s len).filterMap (fun i => match ns[i]? with
          | none => none
          | some nd =>
            if nd.bounds.intersects bbox then
              (if isLeafNode L i then none else childrenRange L i)
            else none)) := by
  intro len
  induction len with
  | zero => intro s _ _; simp
  | succ len ih =>
    intro s hs1 hs2
    rw [List.range'_succ]
    simp only [List.filterMap_cons]
    rcases hns : ns[s]? with _ | nd
    · exact ih (s + 1) (by omega) (by omega)
    · dsimp only
      by_cases hint : nd.bounds.intersects bbox
      · rw [if_pos hint]
        by_cases hleaf : isLeafNode L s
        · rw [if_pos hleaf]
          exact ih (s + 1) (by omega) (by omega)
        · rw [if_neg hleaf]
          rcases hcr : childrenRange L s with _ | c0
          · exact ih (s + 1) (by omega) (by omega)
          · refine List.chain'_cons'.mpr ⟨?_, ih (s + 1) (by omega) (by omega)⟩
            intro y hy
            obtain ⟨q, hq1, hq2, hq3⟩ := segment_pushes_parents L ns bbox len
              (s + 1) y (List.mem_of_mem_head? hy)
            exact childrenRange_mono hℓ hℓ hs1 (by omega) (by omega) (by omega)
              (by omega) hcr hq3
      · rw [if_neg hint]
        exact ih (s + 1) (by omega) (by omega)

theorem segment_pushes_emit (L : Nat) (ns : List Node) (bbox : Bounds) (hL : 1 ≤ L)
    {ℓ F : Nat} (hℓ : ℓ + 1 < numLevels L) (hF : numLevels L ≤ F) :
    ∀ (len s : Nat), levelStart L ℓ ≤ s → s + len ≤ levelStart L (ℓ + 1) →
      ((((List.range' s len).filterMap (fun i => match ns[i]? with
        | none => none
        | some nd =>
          if nd.bounds.intersects bbox then
            (if isLeafNode L i then none else childrenRange L i)
          else none)).map (emitRange L ns bbox F)).flatten : List FeatureLocation) =
      ((List.range' s len).map (emitNode L ns bbox F)).flatten := by
  have hnm := numLevels_pos hL
  rcases hFs : F with _ | f
  · omega
  intro len
  induction len with
  | zero => intro s _ _; simp
  | succ len ih =>
    intro s hs1 hs2
    have hnl : isLeafNode L s = false := by
      rw [← Bool.not_eq_true]
      intro habs
      exact not_leaf_of_level hℓ (by omega) ((isLeafNode_iff hL s).mp habs)
    rw [List.range'_succ]
    simp only [List.filterMap_cons, List.map_cons, List.flatten_cons]
    rcases hns : ns[s]? with _ | nd
    · rw [show emitNode L ns bbox (f + 1) s = [] by simp [emitNode, hns]]
      simp only [List.nil_append]
      exact ih (s + 1) (by omega) (by omega)
    · dsimp only
      by_cases hint : nd.bounds.intersects bbox
      · have hnleaf : ¬ isLeafNode L s = true := by simp [hnl]
        obtain ⟨c, hc⟩ : ∃ c, childrenRange L s = some c :=
          ⟨_, childrenRange_spec hℓ hs1 (by omega)⟩
        have hcb := child_facts hℓ hs1 (by omega) hc
        rw [if_pos hint, if_neg hnleaf, hc]
        dsimp only
        simp only [List.map_cons, List.flatten_cons]
        rw [emitNode_inner ns bbox hL f c hc (not_leaf_of_level hℓ (by omega)),
          hns]
        dsimp only
        rw [if_pos hint]
        have hfuel : emitRange L ns bbox (f + 1) c = emitRange L ns bbox f c := by
          simp only [emitRange]
          congr 1
          refine List.map_congr_left ?_
          intro idx2 hidx2
          rw [List.mem_range'] at hidx2
          refine emitNode_fuel ns bbox hL (numLevels L - (ℓ + 1)) (ℓ + 1) idx2
            (f + 1) f hℓ (by omega) ?_ (by omega) (by omega) (by omega)
          rw [show ℓ + 1 + 1 = ℓ + 2 from rfl]
          omega
        rw [hfuel, ih (s + 1) (by omega) (by omega)]
      · rw [if_neg hint]
        rw [show emitNode L ns bbox (f + 1) s = [] by
          simp only [emitNode, hns]
          rw [if_neg hint]]
        simp only [List.nil_append]
        exact ih (s + 1) (by omega) (by omega)

theorem pairs_pushes_eq (L : Nat) (ns : List Node) (bbox : Bounds)
    (len s : Nat) (hlen : s + len ≤ ns.length) :
    ((List.range' s len).zip ((ns.drop s).take len)).filterMap
      (fun p : Nat × Node => if p.2.bounds.intersects bbox then
        (if isLeafNode L p.1 then none else childrenRange L p.1) else none) =
    (List.range' s len).filterMap (fun i => match ns[i]? with
      | none => none
      | some nd =>
        if nd.bounds.intersects bbox then
          (if isLeafNode L i then none else childrenRange L i)
        else none) :=
  zip_segment_filterMap _ ns len s hlen

theorem pairs_emits_eq (L : Nat) (ns : List Node) (bbox : Bounds)
    (len s : Nat) (hlen : s + len ≤ ns.length) :
    ((List.range' s len).zip ((ns.drop s).take len)).filterMap
      (fun p : Nat × Node => if p.2.bounds.intersects bbox then
        (if isLeafNode L p.1 then some p.2.offset else none) else none) =
    (List.range' s len).filterMap (fun i => match ns[i]? with
      | none => none
      | some nd =>
        if nd.bounds.intersects bbox then
          (if isLeafNode L i then some nd.offset else none)
        else none) :=
  zip_segment_filterMap _ ns len s hlen

set_option maxHeartbeats 1000000 in
theorem rtreeGo_spec {L : Nat} (hL : 1 ≤ L) (ns : List Node) (bbox : Bounds)
    (hns : ns.length = nodeCount L) (hwf : ∀ n ∈ ns, wfNode n = true) :
    ∀ (fuel : Nat) (A B : List NodeRange) (ℓ nodePos : Nat)
      (results : List FeatureLocation),
      ℓ < numLevels L →
      (A = [] → B = []) →
      (∀ r ∈ A, levelStart L ℓ ≤ r.start ∧ r.start < r.stop ∧
        r.stop ≤ levelStart L (ℓ + 1)) →
      (∀ r ∈ B, ∃ p, levelStart L ℓ ≤ p ∧ p < levelStart L (ℓ + 1) ∧
        p < nodePos ∧ childrenRange L p = some r) →
      List.Chain' (fun a b : NodeRange => a.stop ≤ b.start) (A ++ B) →
      (∀ r1, (A ++ B).head? = some r1 → nodePos ≤ r1.start) →
      (A ++ B).length + 2 * (nodeCount L - nodePos) + 1 ≤ fuel →
      rtreeGo L ((ns.map serNode).flatten) bbox fuel (A ++ B) nodePos results =
        some (results ++
          (((B.map (emitRange L ns bbox (numLevels L))).flatten ++
            (A.map (emitRange L ns bbox (numLevels L))).flatten) :
            List FeatureLocation)) := by
  intro fuel
  induction fuel with
  | zero =>
    intro A B ℓ nodePos results _ _ _ _ _ _ hfuel
    exfalso
    omega
  | succ f ih =>
    have ihW : ∀ (A B : List NodeRange) (ℓ nodePos : Nat)
        (results : List FeatureLocation),
        ℓ < numLevels L →
        (∀ r ∈ A, levelStart L ℓ ≤ r.start ∧ r.start < r.stop ∧
          r.stop ≤ levelStart L (ℓ + 1)) →
        (∀ r ∈ B, ∃ p, levelStart L ℓ ≤ p ∧ p < levelStart L (ℓ + 1) ∧
          p < nodePos ∧ childrenRange L p = some r) →
        List.Chain' (fun a b : NodeRange => a.stop ≤ b.start) (A ++ B) →
        (∀ r1, (A ++ B).head? = some r1 → nodePos ≤ r1.start) →
        (A ++ B).length + 2 * (nodeCount L - nodePos) + 1 ≤ f →
        rtreeGo L ((ns.map serNode).flatten) bbox f (A ++ B) nodePos results =
          some (results ++
            (((B.map (emitRange L ns bbox (numLevels L))).flatten ++
              (A.map (emitRange L ns bbox (numLevels L))).flatten) :
              List FeatureLocation)) := by
      intro A B ℓ nodePos results hℓ hA hB hch hhd hfuel
      rcases A with _ | ⟨a0, A'⟩
      · rcases B with _ | ⟨b0, B'⟩
        · exact ih [] [] ℓ nodePos results hℓ (fun _ => rfl) hA hB hch hhd hfuel
        · simp only [List.nil_append] at hch hhd hfuel ⊢
          obtain ⟨p0, hp01, hp02, hp03, hp04⟩ := hB b0 (List.mem_cons_self b0 B')
          have hℓ1 : ℓ + 1 < numLevels L := by
            by_contra hcon
            have hlast : levelStart L (numLevels L - 1) ≤ p0 := by
              have hle : numLevels L - 1 = ℓ := by omega
              rw [hle]
              exact hp01
            have hlt : p0 < nodeCount L := by
              have h2 := levelStart_mono (L := L)
                (show ℓ + 1 ≤ numLevels L by omega)
              rw [levelStart_full] at h2
              omega
            rw [childrenRange_none_of_leaf hL hlast hlt] at hp04
            exact Option.noConfusion hp04
          have hAnew : ∀ r ∈ b0 :: B', levelStart L (ℓ + 1) ≤ r.start ∧
              r.start < r.stop ∧ r.stop ≤ levelStart L (ℓ + 1 + 1) := by
            intro r hr
            obtain ⟨p, h1, h2, _, h4⟩ := hB r hr
            exact child_facts hℓ1 h1 h2 h4
          have happ := ih (b0 :: B') [] (ℓ + 1) nodePos results hℓ1
            (fun _ => rfl) hAnew
            (fun r hr => absurd hr (List.not_mem_nil r))
            (by simpa using hch)
            (by intro r1 h1; exact hhd r1 (by simpa using h1))
            (by simp only [List.append_nil]; omega)
          simp only [List.append_nil, List.map_nil, List.flatten_nil,
            List.nil_append] at happ
          simp only [List.map_nil, List.flatten_nil, List.append_nil]
          exact happ
      · exact ih (a0 :: A') B ℓ nodePos results hℓ
          (fun h => List.noConfusion h) hA hB hch hhd hfuel
    intro A B ℓ nodePos results hℓ hnorm hA hB hch hhd hfuel
    rcases A with _ | ⟨r, A'⟩
    · obtain rfl := hnorm rfl
      simp [rtreeGo]
    · simp only [List.cons_append] at hch hhd hfuel ⊢
      simp only [List.length_cons] at hfuel
      obtain ⟨hr1, hr2, hr3⟩ := hA r (List.mem_cons_self r A')
      have hstop : r.stop ≤ nodeCount L := by
        have hmono := levelStart_mono (L := L)
          (show ℓ + 1 ≤ numLevels L by omega)
        rw [levelStart_full] at hmono
        omega
      have hpos : nodePos ≤ r.start := hhd r rfl
      have hA2 : ∀ x ∈ A', levelStart L ℓ ≤ x.start ∧ x.start < x.stop ∧
          x.stop ≤ levelStart L (ℓ + 1) :=
        fun x hx => hA x (List.mem_cons_of_mem r hx)
      simp only [rtreeGo]
      rw [readNodeRange_ok ns hwf nodePos r hpos hr2 (by omega)]
      dsimp only
      rw [processNodes_spec]
      dsimp only
      rw [pairs_pushes_eq L ns bbox (r.stop - r.start) r.start (by omega),
        pairs_emits_eq L ns bbox (r.stop - r.start) r.start (by omega)]
      by_cases hlast : ℓ = numLevels L - 1
      · have hleafS : leafStart L ≤ r.start := leaf_of_level hℓ hlast hr1
        have hBnil : B = [] := by
          rcases B with _ | ⟨b0, B'⟩
          · rfl
          · exfalso
            obtain ⟨p, h1, h2, h3, h4⟩ := hB b0 (List.mem_cons_self b0 B')
            have hlt : p < nodeCount L := by
              have hmono := levelStart_mono (L := L)
                (show ℓ + 1 ≤ numLevels L by omega)
              rw [levelStart_full] at hmono
              omega
            rw [hlast] at h1
            rw [childrenRange_none_of_leaf hL h1 hlt] at h4
            exact Option.noConfusion h4
        subst hBnil
        rw [segment_pushes_leaf L ns bbox hL (r.stop - r.start) r.start hleafS,
          segment_emits_leaf L ns bbox hL (numLevels L - 1) (r.stop - r.start)
            r.start hleafS]
        have hnum : numLevels L - 1 + 1 = numLevels L := by
          have := numLevels_pos hL
          omega
        rw [hnum]
        simp only [List.append_nil]
        have happ2 := ihW A' [] ℓ r.stop
          (results ++ ((List.range' r.start (r.stop - r.start)).map
            (emitNode L ns bbox (numLevels L))).flatten) hℓ hA2
          (fun x hx => absurd hx (List.not_mem_nil x))
          ((List.chain'_cons'.mp hch).2)
          (fun r1 h1 => (List.chain'_cons'.mp hch).1 r1 (Option.mem_def.mpr h1))
          (by simp only [List.append_nil, List.length_append] at hfuel ⊢; omega)
        simp only [List.append_nil, List.map_nil, List.flatten_nil,
          List.nil_append] at happ2
        rw [happ2]
        simp only [List.map_nil, List.flatten_nil, List.nil_append,
          List.map_cons, List.flatten_cons, emitRange, List.append_assoc]
      · have hℓ1 : ℓ + 1 < numLevels L := by omega
        rw [segment_emits_inner L ns bbox hL hℓ1 (r.stop - r.start) r.start hr1
          (by omega)]
        simp only [List.append_nil]
        have hch2 := segment_pushes_chain L ns bbox hℓ1 (r.stop - r.start)
          r.start hr1 (by omega)
        have hpar := segment_pushes_parents L ns bbox (r.stop - r.start) r.start
        have hemit := segment_pushes_emit L ns bbox hL hℓ1
          (le_refl (numLevels L)) (r.stop - r.start) r.start hr1 (by omega)
        have hlenCs : ((List.range' r.start (r.stop - r.start)).filterMap
            (fun i => match ns[i]? with
              | none => none
              | some nd =>
                if nd.bounds.intersects bbox then
                  (if isLeafNode L i then none else childrenRange L i)
                else none)).length ≤ r.stop - r.start := by
          refine le_trans (List.length_filterMap_le _ _) ?_
          simp [List.length_range']
        set Cs := (List.range' r.start (r.stop - r.start)).filterMap
            (fun i => match ns[i]? with
              | none => none
              | some nd =>
                if nd.bounds.intersects bbox then
                  (if isLeafNode L i then none else childrenRange L i)
                else none) with hCsdef
        rw [List.append_assoc]
        rw [ihW A' (B ++ Cs) ℓ r.stop results hℓ hA2
          (by
            intro x hx
            rcases List.mem_append.mp hx with hx | hx
            · obtain ⟨p, h1, h2, h3, h4⟩ := hB x hx
              exact ⟨p, h1, h2, by omega, h4⟩
            · obtain ⟨q, hq1, hq2, hq3⟩ := hpar x hx
              exact ⟨q, by omega, by omega, by omega, hq3⟩)
          (by
            rw [← List.append_assoc]
            refine List.chain'_append.mpr
              ⟨(List.chain'_cons'.mp hch).2, hch2, ?_⟩
            intro x hx y hy
            obtain ⟨q, hq1, hq2, hq3⟩ := hpar y
              (List.mem_of_mem_head? hy)
            have hyfacts := child_facts hℓ1 (by omega) (by omega) hq3
            rcases List.mem_append.mp
              (List.mem_of_mem_getLast? hx) with hx2 | hx2
            · have := hA2 x hx2
              omega
            · obtain ⟨p, h1, h2, h3, h4⟩ := hB x hx2
              exact childrenRange_mono hℓ1 hℓ1 h1 h2 (by omega) (by omega)
                (by omega) h4 hq3)
          (by
            intro r1 h1
            rcases A' with _ | ⟨a1, A''⟩
            · rw [List.nil_append] at h1
              have hmem := List.mem_of_mem_head? (Option.mem_def.mpr h1)
              rcases List.mem_append.mp hmem with hx | hx
              · obtain ⟨p, hp1, hp2, hp3, hp4⟩ := hB r1 hx
                have := child_facts hℓ1 hp1 hp2 hp4
                omega
              · obtain ⟨q, hq1, hq2, hq3⟩ := hpar r1 hx
                have := child_facts hℓ1 (by omega) (by omega) hq3
                omega
            · rw [List.cons_append, List.head?_cons] at h1
              injection h1 with h1
              subst h1
              exact (List.chain'_cons'.mp hch).1 _ (Option.mem_def.mpr rfl)
          )
          (by
            simp only [List.length_append] at hfuel ⊢
            omega)]
        simp only [List.map_append, List.flatten_append]
        rw [hemit]
        simp only [List.map_cons, List.flatten_cons, emitRange,
          List.append_assoc]

theorem rtreeSelectBbox_emit {L : Nat} (hL : 1 ≤ L) (ns : List Node)
    (bbox : Bounds) (hns : ns.length = nodeCount L)
    (hwf : ∀ n ∈ ns, wfNode n = true) :
    rtreeSelectBbox L ((ns.map serNode).flatten) bbox =
      some (emitRange L ns bbox (numLevels L) ⟨0, 1⟩) := by
  have hnm := numLevels_pos hL
  have hls1 : levelStart L 1 = 1 := by
    have hs := levelStart_succ (L := L) (i := 0) (by omega)
    rw [levelStart_zero, levelWidth_zero hL] at hs
    simpa using hs
  have happ := rtreeGo_spec hL ns bbox hns hwf (2 * nodeCount L + 2)
    [⟨0, 1⟩] [] 0 0 [] (by omega) (fun _ => rfl)
    (by
      intro r hr
      rcases List.mem_singleton.mp hr with rfl
      exact ⟨by rw [levelStart_zero], by decide,
        by rw [show (0 : Nat) + 1 = 1 from rfl, hls1]⟩)
    (fun r hr => absurd hr (List.not_mem_nil r))
    (by simp)
    (fun r1 _ => Nat.zero_le r1.start)
    (by simp only [List.append_nil, List.length_cons, List.length_nil]; omega)
  simp only [List.append_nil, List.map_nil, List.flatten_nil, List.nil_append,
    List.map_cons, List.flatten_cons] at happ
  simp only [rtreeSelectBbox, if_neg (show ¬ L = 0 by omega)]
  rw [happ]

/-! ## Lemmas: subtree semantics of the built index -/

theorem intersects_iff (a b : Bounds) : a.intersects b = true ↔
    b.min.lng ≤ a.max.lng ∧ b.min.lat ≤ a.max.lat ∧
      a.min.lng ≤ b.max.lng ∧ a.min.lat ≤ b.max.lat := by
  simp only [Bounds.intersects]
  split_ifs <;> simp <;> omega

theorem boundsLe_refl (a : Bounds) : boundsLe a a :=
  ⟨le_refl _, le_refl _, le_refl _, le_refl _⟩

theorem boundsLe_trans {a b c : Bounds} (h1 : boundsLe a b) (h2 : boundsLe b c) :
    boundsLe a c := by
  obtain ⟨x1, x2, x3, x4⟩ := h1
  obtain ⟨y1, y2, y3, y4⟩ := h2
  exact ⟨by omega, by omega, by omega, by omega⟩

theorem extend_le_left (a b : Bounds) : boundsLe a (a.extend b) := by
  simp only [Bounds.extend, boundsLe]
  split_ifs <;> simp_all <;> omega

theorem extend_le_right (a b : Bounds) : boundsLe b (a.extend b) := by
  simp only [Bounds.extend, boundsLe]
  split_ifs <;> simp_all <;> omega

theorem intersects_mono {inner outer bbox : Bounds} (h : boundsLe inner outer)
    (hi : inner.intersects bbox = true) : outer.intersects bbox = true := by
  obtain ⟨h1, h2, h3, h4⟩ := h
  rw [intersects_iff] at hi ⊢
  omega

theorem foldl_extend_le_init : ∀ (c : List Node) (b : Bounds),
    boundsLe b (c.foldl (fun b n => b.extend n.bounds) b) := by
  intro c
  induction c with
  | nil => intro b; exact boundsLe_refl b
  | cons n c ih =>
    intro b
    simp only [List.foldl_cons]
    exact boundsLe_trans (extend_le_left b n.bounds) (ih _)

theorem foldl_extend_le_mem : ∀ (c : List Node) (b : Bounds) (x : Node),
    x ∈ c → boundsLe x.bounds (c.foldl (fun b n => b.extend n.bounds) b) := by
  intro c
  induction c with
  | nil => intro b x hx; exact absurd hx (List.not_mem_nil x)
  | cons n c ih =>
    intro b x hx
    simp only [List.foldl_cons]
    rcases List.mem_cons.mp hx with rfl | hx
    · exact boundsLe_trans (extend_le_right b x.bounds) (foldl_extend_le_init c _)
    · exact ih _ x hx

theorem chunksOf16_getElem : ∀ (fuel : Nat) (l : List Node) (q : Nat),
    l.length ≤ fuel → q < nextLevelSize l.length →
    (chunksOf16 fuel l)[q]? =
      some ((l.drop (branchingFactor * q)).take branchingFactor) := by
  intro fuel
  induction fuel with
  | zero =>
    intro l q hl hq
    have hnil : l = [] := List.length_eq_zero.mp (by omega)
    subst hnil
    rw [nextLevelSize_eq] at hq
    simp at hq
  | succ fuel ih =>
    intro l q hl hq
    rcases l with _ | ⟨a, l2⟩
    · rw [nextLevelSize_eq] at hq
      simp at hq
    · rcases q with _ | q
      · simp [chunksOf16]
      · simp only [chunksOf16, List.getElem?_cons_succ]
        rw [ih ((a :: l2).drop branchingFactor) q
          (by
            simp only [List.length_drop, List.length_cons, branchingFactor] at hl ⊢
            omega)
          (by
            rw [nextLevelSize_eq] at hq ⊢
            simp only [List.length_drop, List.length_cons, branchingFactor] at hq ⊢
            omega)]
        rw [List.drop_drop]
        rw [show branchingFactor + branchingFactor * q = branchingFactor * (q + 1) by
          simp only [branchingFactor]; omega]

theorem levelNodes_length (leaves : List Node) :
    ∀ j, (levelNodes leaves j).length = depthWidth leaves.length j := by
  intro j
  induction j with
  | zero => rfl
  | succ j ih =>
    simp only [levelNodes, depthWidth, parentNodes_length, ih]

theorem levelNodes_parent_comm : ∀ (j : Nat) (cur : List Node),
    levelNodes (parentNodes cur) j = levelNodes cur (j + 1) := by
  intro j
  induction j with
  | zero => intro cur; rfl
  | succ j ih =>
    intro cur
    simp only [levelNodes]
    rw [ih]
    rfl

theorem buildLevelsGo_getElem : ∀ (ws : List Nat) (cur : List Node) (j : Nat),
    j < ws.length → (buildLevelsGo ws cur)[j]? = some (levelNodes cur j) := by
  intro ws
  induction ws with
  | nil => intro cur j hj; simp at hj
  | cons w ws ih =>
    intro cur j hj
    rcases j with _ | j
    · simp [buildLevelsGo, levelNodes]
    · simp only [buildLevelsGo, List.getElem?_cons_succ]
      rw [ih (parentNodes cur) j (by simpa using hj), levelNodes_parent_comm]

theorem depthWidth_mul (L : Nat) : ∀ (j a : Nat), depthWidth L j ≤ a →
    L ≤ a * branchingFactor ^ j := by
  intro j
  induction j with
  | zero => intro a h; simpa using h
  | succ j ih =>
    intro a h
    simp only [depthWidth, nextLevelSize_eq] at h
    have h16 : depthWidth L j ≤ a * 16 := by omega
    have hih := ih (a * 16) h16
    calc L ≤ a * 16 * branchingFactor ^ j := hih
    _ = a * branchingFactor ^ (j + 1) := by
        simp only [branchingFactor, pow_succ]
        ring

theorem levelWidth_depthWidth {L : Nat} (hL : 1 ≤ L) :
    ∀ (j ℓ : Nat), ℓ < numLevels L → numLevels L - 1 - ℓ = j →
      levelWidth L ℓ = depthWidth L j := by
  intro j
  induction j with
  | zero =>
    intro ℓ hℓ hj
    have : ℓ = numLevels L - 1 := by omega
    subst this
    rw [levelWidth_last hL]
    rfl
  | succ j ih =>
    intro ℓ hℓ hj
    have hℓ1 : ℓ + 1 < numLevels L := by omega
    rw [levelWidth_rel hℓ1, ih (ℓ + 1) (by omega) (by omega)]
    rfl

theorem flatten_getElem_level {α : Type} : ∀ (lss : List (List α)) (k p : Nat)
    (xs : List α), lss[k]? = some xs → p < xs.length →
    lss.flatten[(((lss.map List.length).take k).sum + p)]? = xs[p]? := by
  intro lss
  induction lss with
  | nil => intro k p xs h hp; simp at h
  | cons ys lss ih =>
    intro k p xs h hp
    rcases k with _ | k
    · simp only [List.getElem?_cons_zero, Option.some.injEq] at h
      subst h
      simp only [List.map_cons, List.take_zero, List.sum_nil, Nat.zero_add,
        List.flatten_cons]
      exact List.getElem?_append_left hp
    · simp only [List.getElem?_cons_succ] at h
      simp only [List.map_cons, List.take_succ_cons, List.sum_cons,
        List.flatten_cons]
      rw [List.getElem?_append_right (by omega)]
      rw [show ys.length + ((lss.map List.length).take k).sum + p - ys.length =
        ((lss.map List.length).take k).sum + p from by omega]
      exact ih k p xs h hp

theorem treeNodes_getElem {leaves : List Node} (hL : 1 ≤ leaves.length)
    {ℓ p : Nat} (hℓ : ℓ < numLevels leaves.length)
    (hp : p < levelWidth leaves.length ℓ) :
    (treeNodes leaves)[levelStart leaves.length ℓ + p]? =
      (levelNodes leaves (numLevels leaves.length - 1 - ℓ))[p]? := by
  have hmap : ((rtreeLevels leaves).reverse.map List.length) =
      nodesPerLevel leaves.length := by
    rw [show (rtreeLevels leaves).reverse.map List.length =
        ((rtreeLevels leaves).map List.length).reverse from List.map_reverse _ _,
      rtreeLevels_map_length hL, nodesPerLevel,
      if_neg (by omega : ¬leaves.length = 0)]
  have hrevlen : (rtreeLevels leaves).length = numLevels leaves.length := by
    have h1 := congrArg List.length (rtreeLevels_map_length hL)
    simp only [List.length_map] at h1
    rw [h1, numLevels, nodesPerLevel, if_neg (by omega : ¬leaves.length = 0),
      List.length_reverse]
  have hxs : ((rtreeLevels leaves).reverse)[ℓ]? =
      some (levelNodes leaves (numLevels leaves.length - 1 - ℓ)) := by
    rw [List.getElem?_reverse (by omega), hrevlen]
    exact buildLevelsGo_getElem (nodesPerLevel leaves.length) leaves _
      (show numLevels leaves.length - 1 - ℓ < numLevels leaves.length by omega)
  have hwidth : (levelNodes leaves (numLevels leaves.length - 1 - ℓ)).length =
      levelWidth leaves.length ℓ := by
    rw [levelNodes_length,
      levelWidth_depthWidth hL (numLevels leaves.length - 1 - ℓ) ℓ hℓ rfl]
  have hflat := flatten_getElem_level ((rtreeLevels leaves).reverse) ℓ p _ hxs
    (by omega)
  rw [hmap] at hflat
  exact hflat

theorem levelNodes_succ_getElem (leaves : List Node) (j p : Nat)
    (hp : p < nextLevelSize (levelNodes leaves j).length) :
    (levelNodes leaves (j + 1))[p]? =
      some ⟨(((levelNodes leaves j).drop (branchingFactor * p)).take
          branchingFactor).foldl (fun b n => b.extend n.bounds)
          Node.emptyInner.bounds,
        Node.emptyInner.offset⟩ := by
  show (parentNodes (levelNodes leaves j))[p]? = _
  rw [parentNodes, List.getElem?_map,
    chunksOf16_getElem _ _ p (le_refl _) hp]
  rfl

theorem drop_take_tile {α : Type} (l : List α) (w : Nat) : ∀ (k s : Nat),
    (l.drop (s * w)).take (k * w) =
      ((List.range' s k).map (fun i => (l.drop (i * w)).take w)).flatten := by
  intro k
  induction k with
  | zero => intro s; simp
  | succ k ih =>
    intro s
    rw [List.range'_succ]
    simp only [List.map_cons, List.flatten_cons]
    rw [show (k + 1) * w = w + k * w from by ring, List.take_add, List.drop_drop,
      show s * w + w = (s + 1) * w from by ring, ih (s + 1)]

theorem segLeaves_tile (leaves : List Node) (j p : Nat) :
    segLeaves leaves (j + 1) p =
      ((List.range' (branchingFactor * p) branchingFactor).map
        (fun q => segLeaves leaves j q)).flatten := by
  simp only [segLeaves]
  rw [show p * branchingFactor ^ (j + 1) =
      (branchingFactor * p) * branchingFactor ^ j from by rw [pow_succ]; ring,
    show branchingFactor ^ (j + 1) = branchingFactor * branchingFactor ^ j from by
      rw [pow_succ]; ring]
  exact drop_take_tile leaves (branchingFactor ^ j) branchingFactor
    (branchingFactor * p)

theorem segLeaves_empty (leaves : List Node) {j q : Nat}
    (h : depthWidth leaves.length j ≤ q) : segLeaves leaves j q = [] := by
  have hmul := depthWidth_mul leaves.length j q h
  simp only [segLeaves]
  rw [List.drop_eq_nil_of_le hmul]
  simp

theorem segLeaves_containment (leaves : List Node) : ∀ (j p : Nat) (node : Node),
    (levelNodes leaves j)[p]? = some node →
    ∀ lf ∈ segLeaves leaves j p, boundsLe lf.bounds node.bounds := by
  intro j
  induction j with
  | zero =>
    intro p node h lf hlf
    simp only [levelNodes] at h
    have hp : p < leaves.length := by
      by_contra hcon
      rw [List.getElem?_eq_none (by omega)] at h
      exact Option.noConfusion h
    simp only [segLeaves, pow_zero, Nat.mul_one] at hlf
    rw [List.drop_eq_getElem_cons hp] at hlf
    have htake : List.take 1 (leaves[p] :: List.drop (p + 1) leaves) =
        [leaves[p]] := rfl
    rw [htake] at hlf
    rcases List.mem_singleton.mp hlf with rfl
    rw [List.getElem?_eq_getElem hp] at h
    injection h with h
    rw [h]
    exact boundsLe_refl _
  | succ j ih =>
    intro p node h lf hlf
    rw [segLeaves_tile] at hlf
    obtain ⟨seg, hseg, hlfseg⟩ := List.mem_flatten.mp hlf
    obtain ⟨q, hq, rfl⟩ := List.mem_map.mp hseg
    have hq2 : branchingFactor * p ≤ q ∧
        q < branchingFactor * p + branchingFactor := by
      rw [List.mem_range'] at hq
      obtain ⟨i, hi, rfl⟩ := hq
      omega
    have hne : segLeaves leaves j q ≠ [] := List.ne_nil_of_mem hlfseg
    have hqlt : q < depthWidth leaves.length j := by
      by_contra hcon
      exact hne (segLeaves_empty leaves (by omega))
    obtain ⟨child, hchild⟩ : ∃ child, (levelNodes leaves j)[q]? = some child := by
      rw [List.getElem?_eq_getElem (by rw [levelNodes_length]; omega)]
      exact ⟨_, rfl⟩
    have hsub := ih q child hchild lf hlfseg
    have hplen : p < (levelNodes leaves (j + 1)).length := by
      by_contra hcon
      rw [List.getElem?_eq_none (by omega)] at h
      exact Option.noConfusion h
    have hplen2 : p < nextLevelSize (levelNodes leaves j).length := by
      have hpl : (levelNodes leaves (j + 1)).length =
          nextLevelSize (levelNodes leaves j).length :=
        parentNodes_length (levelNodes leaves j)
      omega
    rw [levelNodes_succ_getElem leaves j p hplen2] at h
    injection h with h
    have hchmem : child ∈ ((levelNodes leaves j).drop
        (branchingFactor * p)).take branchingFactor := by
      have hgt : (((levelNodes leaves j).drop
          (branchingFactor * p)).take branchingFactor)[q - branchingFactor * p]? =
          some child := by
        rw [List.getElem?_take, if_pos (by omega), List.getElem?_drop,
          show branchingFactor * p + (q - branchingFactor * p) = q from by omega]
        exact hchild
      exact List.getElem?_mem hgt
    rw [← h]
    exact boundsLe_trans hsub (foldl_extend_le_mem _ _ child hchmem)

theorem filter_map_flatten (q : Node → Bool) (g : Node → FeatureLocation) :
    ∀ (ll : List (List Node)),
      (ll.flatten.filter q).map g =
        (ll.map (fun xs => (xs.filter q).map g)).flatten := by
  intro ll
  induction ll with
  | nil => simp
  | cons xs ll ih =>
    simp only [List.flatten_cons, List.filter_append, List.map_append,
      List.map_cons, List.flatten_cons, ih]

theorem range'_map_sub {α : Type} (s : Nat) (f : Nat → α) : ∀ (n a : Nat),
    (List.range' (s + a) n).map (fun x => f (x - s)) =
      (List.range' a n).map f := by
  intro n
  induction n with
  | zero => intro a; simp
  | succ n ih =>
    intro a
    rw [List.range'_succ, List.range'_succ]
    simp only [List.map_cons]
    rw [show s + a + 1 = s + (a + 1) from by omega, ih (a + 1),
      show s + a - s = a from by omega]

theorem range'_map_add {α : Type} (s : Nat) (f : Nat → α) : ∀ (n a : Nat),
    (List.range' (s + a) n).map f =
      (List.range' a n).map (fun q => f (s + q)) := by
  intro n
  induction n with
  | zero => intro a; simp
  | succ n ih =>
    intro a
    rw [List.range'_succ, List.range'_succ]
    simp only [List.map_cons]
    rw [show s + a + 1 = s + (a + 1) from by omega, ih (a + 1)]

theorem flatten_map_range'_pad {α : Type} (f : Nat → List α) (a n1 n2 : Nat)
    (h : n1 ≤ n2) (hnil : ∀ t, a + n1 ≤ t → t < a + n2 → f t = []) :
    ((List.range' a n2).map f).flatten = ((List.range' a n1).map f).flatten := by
  rw [show n2 = n2 - n1 + n1 from by omega, ← List.range'_append_1 a n1 (n2 - n1)]
  simp only [List.map_append, List.flatten_append]
  have hzero : ((List.range' (a + n1) (n2 - n1)).map f).flatten = [] := by
    rw [List.flatten_eq_nil_iff]
    intro xs hxs
    obtain ⟨t, ht, rfl⟩ := List.mem_map.mp hxs
    rw [List.mem_range'] at ht
    obtain ⟨i, hi, rfl⟩ := ht
    exact hnil _ (by omega) (by omega)
  rw [hzero, List.append_nil]

set_option maxHeartbeats 1000000 in
theorem emitNode_subtree (leaves : List Node) (bbox : Bounds)
    (hL : 1 ≤ leaves.length) :
    ∀ (d ℓ p F : Nat), ℓ < numLevels leaves.length →
      numLevels leaves.length - ℓ = d →
      p < levelWidth leaves.length ℓ → d ≤ F →
      emitNode leaves.length (treeNodes leaves) bbox F
        (levelStart leaves.length ℓ + p) =
      ((segLeaves leaves (numLevels leaves.length - 1 - ℓ) p).filter
        (fun n => n.bounds.intersects bbox)).map (fun n => n.offset) := by
  intro d
  induction d using Nat.strong_induction_on with
  | _ d ih =>
    intro ℓ p F hℓ hd hp hF
    rcases F with _ | f
    · omega
    have hls := levelStart_succ (L := leaves.length) hℓ
    have h1 : levelStart leaves.length ℓ ≤ levelStart leaves.length ℓ + p :=
      Nat.le_add_right _ _
    have h2 : levelStart leaves.length ℓ + p <
        levelStart leaves.length (ℓ + 1) := by omega
    have hplevel : p <
        (levelNodes leaves (numLevels leaves.length - 1 - ℓ)).length := by
      rw [levelNodes_length,
        ← levelWidth_depthWidth hL (numLevels leaves.length - 1 - ℓ) ℓ hℓ rfl]
      exact hp
    obtain ⟨node, hnode⟩ : ∃ node,
        (treeNodes leaves)[levelStart leaves.length ℓ + p]? = some node := by
      rw [treeNodes_getElem hL hℓ hp, List.getElem?_eq_getElem hplevel]
      exact ⟨_, rfl⟩
    have hnodelev :
        (levelNodes leaves (numLevels leaves.length - 1 - ℓ))[p]? = some node := by
      rw [← treeNodes_getElem hL hℓ hp]
      exact hnode
    by_cases hlast : ℓ = numLevels leaves.length - 1
    · have hj0 : numLevels leaves.length - 1 - ℓ = 0 := by omega
      rw [hj0] at hnodelev hplevel
      simp only [levelNodes] at hnodelev hplevel
      have hpL : p < leaves.length := hplevel
      rw [emitNode_leaf (treeNodes leaves) bbox hL f
        (leaf_of_level hℓ hlast h1), hnode]
      dsimp only
      rw [List.getElem?_eq_getElem hpL] at hnodelev
      injection hnodelev with hni
      rw [hj0]
      simp only [segLeaves, pow_zero, Nat.mul_one]
      rw [List.drop_eq_getElem_cons hpL]
      have htake : List.take 1 (leaves[p] :: List.drop (p + 1) leaves) =
          [leaves[p]] := rfl
      rw [htake, hni]
      by_cases hint : node.bounds.intersects bbox
      · simp [hint]
      · simp [hint]
    · have hlt : ℓ + 1 < numLevels leaves.length := by omega
      have hj : numLevels leaves.length - 1 - ℓ =
          (numLevels leaves.length - 1 - (ℓ + 1)) + 1 := by omega
      have hcr := childrenRange_spec hlt h1 h2
      rw [show levelStart leaves.length ℓ + p - levelStart leaves.length ℓ = p
        from by omega] at hcr
      have hls2 := levelStart_succ (L := leaves.length) hlt
      rw [show ℓ + 1 + 1 = ℓ + 2 from rfl] at hls2
      have hw2 : levelWidth leaves.length (ℓ + 1) =
          depthWidth leaves.length (numLevels leaves.length - 1 - (ℓ + 1)) :=
        levelWidth_depthWidth hL _ (ℓ + 1) hlt rfl
      rw [emitNode_inner (treeNodes leaves) bbox hL f _ hcr
        (not_leaf_of_level hlt h2), hnode]
      dsimp only
      by_cases hint : node.bounds.intersects bbox
      · rw [if_pos hint]
        simp only [emitRange]
        have hcongr : (List.range'
            (levelStart leaves.length (ℓ + 1) + p * 16)
            (min (levelStart leaves.length (ℓ + 1) + p * 16 + 16)
              (levelStart leaves.length (ℓ + 2)) -
              (levelStart leaves.length (ℓ + 1) + p * 16))).map
            (emitNode leaves.length (treeNodes leaves) bbox f) =
          (List.range' (p * 16)
            (min (levelStart leaves.length (ℓ + 1) + p * 16 + 16)
              (levelStart leaves.length (ℓ + 2)) -
              (levelStart leaves.length (ℓ + 1) + p * 16))).map
            (fun q =>
              ((segLeaves leaves (numLevels leaves.length - 1 - (ℓ + 1)) q).filter
                (fun n => n.bounds.intersects bbox)).map
                (fun n => n.offset)) := by
          rw [range'_map_add (levelStart leaves.length (ℓ + 1))
            (emitNode leaves.length (treeNodes leaves) bbox f) _ (p * 16)]
          refine List.map_congr_left ?_
          intro q hq
          rw [List.mem_range'] at hq
          obtain ⟨t, ht, rfl⟩ := hq
          exact ih (d - 1) (by omega) (ℓ + 1) (p * 16 + 1 * t) f hlt (by omega)
            (by omega)
            (by omega)
        rw [hcongr, hj, segLeaves_tile, filter_map_flatten,
          List.map_map]
        simp only [Function.comp_def, branchingFactor]
        rw [Nat.mul_comm 16 p]
        have hb := childrenRange_bounds hlt h1 h2
        rw [show levelStart leaves.length ℓ + p - levelStart leaves.length ℓ = p
          from by omega] at hb
        have hpad := flatten_map_range'_pad
          (fun q =>
            ((segLeaves leaves (numLevels leaves.length - 1 - (ℓ + 1)) q).filter
              (fun n => n.bounds.intersects bbox)).map (fun n => n.offset))
          (p * 16)
          (min (levelStart leaves.length (ℓ + 1) + p * 16 + 16)
            (levelStart leaves.length (ℓ + 2)) -
            (levelStart leaves.length (ℓ + 1) + p * 16))
          16
          (by omega)
          (by
            intro t hta htb
            have hseg := segLeaves_empty leaves
              (j := numLevels leaves.length - 1 - (ℓ + 1)) (q := t)
              (by rw [← hw2]; omega)
            simp [hseg])
        rw [← hpad]
      · rw [if_neg hint]
        have hfil : (segLeaves leaves (numLevels leaves.length - 1 - ℓ) p).filter
            (fun n => n.bounds.intersects bbox) = [] := by
          rw [List.filter_eq_nil_iff]
          intro lf hlf habs
          exact hint (intersects_mono
            (segLeaves_containment leaves _ p node hnodelev lf hlf) habs)
        rw [hfil]
        rfl

theorem emit_root (leaves : List Node) (bbox : Bounds) (hL : 1 ≤ leaves.length) :
    emitRange leaves.length (treeNodes leaves) bbox
      (numLevels leaves.length) (NodeRange.mk 0 1) =
    (leaves.filter (fun n => n.bounds.intersects bbox)).map
      (fun n => n.offset) := by
  have hnm := numLevels_pos hL
  have hsub := emitNode_subtree leaves bbox hL (numLevels leaves.length) 0 0
    (numLevels leaves.length) (by omega) (by omega)
    (by rw [levelWidth_zero hL]; omega) (le_refl _)
  simp only [levelStart_zero, Nat.add_zero, Nat.sub_zero] at hsub
  have hseg : segLeaves leaves (numLevels leaves.length - 1) 0 = leaves := by
    have hdw : depthWidth leaves.length (numLevels leaves.length - 1) = 1 := by
      rw [← levelWidth_depthWidth hL (numLevels leaves.length - 1) 0 (by omega)
        (by omega)]
      exact levelWidth_zero hL
    have hle := depthWidth_mul leaves.length (numLevels leaves.length - 1) 1
      (by omega)
    simp only [segLeaves, Nat.zero_mul, List.drop_zero]
    exact List.take_of_length_le (by omega)
  rw [hseg] at hsub
  simp only [emitRange]
  have hr : List.range' (0 : Nat) (1 - 0) = [0] := rfl
  rw [hr]
  simp only [List.map_cons, List.map_nil, List.flatten_cons, List.flatten_nil,
    List.append_nil]
  exact hsub

theorem rtreeSelectBbox_filter {leaves : List Node} (hL : 1 ≤ leaves.length)
    (hwf : ∀ n ∈ leaves, wfNode n = true) (bbox : Bounds) :
    rtreeSelectBbox leaves.length
      (((treeNodes leaves).map serNode).flatten) bbox =
    some ((leaves.filter (fun n => n.bounds.intersects bbox)).map
      (fun n => n.offset)) := by
  rw [rtreeSelectBbox_emit hL (treeNodes leaves) bbox (treeNodes_length hL)
    (treeNodes_wf hwf), emit_root leaves bbox hL]

/-! ## Lemmas: reader items of the written pages -/

theorem pageDecoded_append (a b : List Feature) :
    pageDecoded (a ++ b) = pageDecoded a ++ pageDecoded b := by
  simp [pageDecoded]

theorem contItems_fst (codec : Codec) (goal : Nat) :
    ∀ (fs : List Feature) (pageStart : Nat) (cur : List Feature),
      (contItems codec goal fs pageStart cur).map Prod.fst =
        contLocs codec goal fs pageStart cur := by
  intro fs
  induction fs with
  | nil => intro pageStart cur; simp [contItems, contLocs]
  | cons f rest ih =>
    intro pageStart cur
    simp only [contItems, contLocs, List.map_cons]
    by_cases h : (pageDecoded (cur ++ [f])).length > goal
    · simp only [if_pos h, ih]
    · simp only [if_neg h, ih]

theorem contItems_snd (codec : Codec) (goal : Nat) :
    ∀ (fs : List Feature) (pageStart : Nat) (cur : List Feature),
      (contItems codec goal fs pageStart cur).map Prod.snd = fs := by
  intro fs
  induction fs with
  | nil => intro pageStart cur; simp [contItems]
  | cons f rest ih =>
    intro pageStart cur
    simp only [contItems, List.map_cons]
    by_cases h : (pageDecoded (cur ++ [f])).length > goal
    · simp only [if_pos h, ih]
    · simp only [if_neg h, ih]

theorem zip_contLocs (codec : Codec) (goal : Nat) :
    ∀ (fs : List Feature) (pageStart : Nat) (cur : List Feature),
      fs.zip (contLocs codec goal fs pageStart cur) =
        (contItems codec goal fs pageStart cur).map (fun p => (p.2, p.1)) := by
  intro fs
  induction fs with
  | nil => intro pageStart cur; simp [contItems]
  | cons f rest ih =>
    intro pageStart cur
    simp only [contItems, contLocs, List.zip_cons_cons, List.map_cons]
    by_cases h : (pageDecoded (cur ++ [f])).length > goal
    · simp only [if_pos h, ih]
    · simp only [if_neg h, ih]

theorem paginateGo_ne_nil_of_cur {α : Type} (goal : Nat) (size : α → Nat) :
    ∀ (l cur : List α) (n : Nat), cur ≠ [] →
      paginateGo goal size l cur n ≠ [] := by
  intro l
  induction l with
  | nil =>
    intro cur n hcur
    simp only [paginateGo]
    rw [if_neg (by simpa using hcur)]
    simp
  | cons a rest ih =>
    intro cur n hcur
    simp only [paginateGo]
    by_cases h : n + size a > goal
    · simp [if_pos h]
    · rw [if_neg h]
      exact ih (cur ++ [a]) (n + size a) (by simp)

theorem paginateGo_head_prefix {α : Type} (goal : Nat) (size : α → Nat) :
    ∀ (l cur : List α) (n : Nat),
      paginateGo goal size l cur n = [] ∨
      ∃ t tail, paginateGo goal size l cur n = (cur ++ t) :: tail := by
  intro l
  induction l with
  | nil =>
    intro cur n
    by_cases h : cur.isEmpty
    · left; simp [paginateGo, h]
    · right
      refine ⟨[], [], ?_⟩
      simp [paginateGo, h]
  | cons a rest ih =>
    intro cur n
    simp only [paginateGo]
    by_cases h : n + size a > goal
    · right
      exact ⟨[a], paginateGo goal size rest [] 0, by rw [if_pos h]⟩
    · rw [if_neg h]
      rcases ih (cur ++ [a]) (n + size a) with h2 | ⟨t, tail, h2⟩
      · exact absurd h2 (paginateGo_ne_nil_of_cur goal size rest (cur ++ [a])
          (n + size a) (by simp))
      · right
        exact ⟨a :: t, tail, by rw [h2]; simp⟩

set_option maxHeartbeats 800000 in
theorem contItems_stream (codec : Codec) (goal : Nat) :
    ∀ (fs cur : List Feature) (pageStart : Nat),
      contItems codec goal fs pageStart cur =
        (match paginateGo goal blockSize fs cur (pageDecoded cur).length with
         | [] => []
         | g :: gss =>
           pageItemsGo pageStart cur (g.drop cur.length) ++
             streamItems codec (pageStart + PageHeader.serializedSize +
               (encPage codec g).length) gss) := by
  intro fs
  induction fs with
  | nil =>
    intro cur pageStart
    simp only [contItems, paginateGo]
    by_cases h : cur.isEmpty
    · rw [if_pos h]
    · rw [if_neg h]
      simp [pageItemsGo, streamItems, List.drop_length]
  | cons f rest ih =>
    intro cur pageStart
    have hlen : (pageDecoded cur).length + blockSize f =
        (pageDecoded (cur ++ [f])).length := by
      rw [pageDecoded_append_one]
      simp [blockSize]
    simp only [contItems, paginateGo]
    by_cases h : (pageDecoded (cur ++ [f])).length > goal
    · rw [if_pos h, if_pos (by omega)]
      rw [show pageStart + (encPage codec (cur ++ [f])).length +
          PageHeader.serializedSize = pageStart + PageHeader.serializedSize +
          (encPage codec (cur ++ [f])).length from by omega]
      rw [ih [] (pageStart + PageHeader.serializedSize +
        (encPage codec (cur ++ [f])).length)]
      rw [show (pageDecoded ([] : List Feature)).length = 0 from rfl]
      dsimp only
      rw [List.drop_left]
      simp only [pageItemsGo, streamItems, List.nil_append]
      rcases hpg2 : paginateGo goal blockSize rest [] 0 with _ | ⟨g, gss⟩
      · simp [streamItems]
      · simp [streamItems]
    · rw [if_neg h, if_neg (by omega)]
      rw [hlen, ih (cur ++ [f]) pageStart]
      rcases hpg : paginateGo goal blockSize rest (cur ++ [f])
          (pageDecoded (cur ++ [f])).length with _ | ⟨g, gss⟩
      · exact absurd hpg (paginateGo_ne_nil_of_cur goal blockSize rest
          (cur ++ [f]) (pageDecoded (cur ++ [f])).length (by simp))
      · rcases paginateGo_head_prefix goal blockSize rest (cur ++ [f])
            (pageDecoded (cur ++ [f])).length with h2 | ⟨t, tail, h2⟩
        · rw [hpg] at h2
          exact absurd h2 (by simp)
        · rw [hpg] at h2
          rw [List.cons.injEq] at h2
          obtain ⟨hg, htail⟩ := h2
          subst hg
          subst htail
          dsimp only
          rw [show ((cur ++ [f]) ++ t).drop cur.length = f :: t by
              rw [List.append_assoc, List.drop_left, List.singleton_append],
            show ((cur ++ [f]) ++ t).drop (cur ++ [f]).length = t from
              List.drop_left _ _]
          simp only [pageItemsGo, List.cons_append]

theorem contItems_streamItems (codec : Codec) (goal : Nat) (fs : List Feature)
    (pageStart : Nat) :
    contItems codec goal fs pageStart [] =
      streamItems codec pageStart (paginate goal blockSize fs) := by
  rw [contItems_stream,
    show (pageDecoded ([] : List Feature)).length = 0 from rfl]
  rw [paginate]
  rcases hpg : paginateGo goal blockSize fs [] 0 with _ | ⟨g, gss⟩
  · simp [streamItems]
  · simp [streamItems]

theorem contLocs_head (codec : Codec) (goal : Nat) :
    ∀ (fs cur : List Feature) (pageStart : Nat) (y : FeatureLocation),
      (contLocs codec goal fs pageStart cur).head? = some y →
      y = ⟨pageStart, (pageDecoded cur).length % 2 ^ 32⟩ := by
  intro fs cur pageStart y h
  rcases fs with _ | ⟨f, rest⟩
  · simp [contLocs] at h
  · simp only [contLocs, List.head?_cons, Option.some.injEq] at h
    exact h.symm

set_option maxHeartbeats 800000 in
theorem contLocs_chain (codec : Codec) (goal : Nat) :
    ∀ (fs cur : List Feature) (pageStart : Nat),
      (∀ g ∈ paginateGo goal blockSize fs cur (pageDecoded cur).length,
        (pageDecoded g).length < 2 ^ 32) →
      List.Chain' locLe (contLocs codec goal fs pageStart cur) := by
  intro fs
  induction fs with
  | nil => intro cur pageStart _; simp [contLocs]
  | cons f rest ih =>
    intro cur pageStart hfit
    have hlen : (pageDecoded cur).length + blockSize f =
        (pageDecoded (cur ++ [f])).length := by
      rw [pageDecoded_append_one]
      simp [blockSize]
    have hhdr : PageHeader.serializedSize = 12 := rfl
    simp only [contLocs]
    by_cases h : (pageDecoded (cur ++ [f])).length > goal
    · have hfit2 : ∀ g ∈ paginateGo goal blockSize rest [] 0,
          (pageDecoded g).length < 2 ^ 32 := by
        intro g hg
        refine hfit g ?_
        simp only [paginateGo]
        rw [if_pos (by omega)]
        exact List.mem_cons_of_mem _ hg
      rw [if_pos h]
      refine List.chain'_cons'.mpr ⟨?_, ih [] _ (by
        rw [show (pageDecoded ([] : List Feature)).length = 0 from rfl]
        exact hfit2)⟩
      intro y hy
      have hy2 := contLocs_head codec goal rest []
        (pageStart + (encPage codec (cur ++ [f])).length +
          PageHeader.serializedSize) y (Option.mem_def.mp hy)
      subst hy2
      left
      simp only
      omega
    · have hpgne : paginateGo goal blockSize rest (cur ++ [f])
          (pageDecoded (cur ++ [f])).length ≠ [] :=
        paginateGo_ne_nil_of_cur goal blockSize rest (cur ++ [f])
          (pageDecoded (cur ++ [f])).length (by simp)
      have hfit2 : ∀ g ∈ paginateGo goal blockSize rest (cur ++ [f])
          (pageDecoded (cur ++ [f])).length, (pageDecoded g).length < 2 ^ 32 := by
        intro g hg
        refine hfit g ?_
        simp only [paginateGo]
        rw [if_neg (by omega), hlen]
        exact hg
      have hcur2lt : (pageDecoded (cur ++ [f])).length < 2 ^ 32 := by
        rcases paginateGo_head_prefix goal blockSize rest (cur ++ [f])
            (pageDecoded (cur ++ [f])).length with h2 | ⟨t, tail, h2⟩
        · exact absurd h2 hpgne
        · have hmem : (cur ++ [f]) ++ t ∈ paginateGo goal blockSize rest
              (cur ++ [f]) (pageDecoded (cur ++ [f])).length := by
            rw [h2]
            exact List.mem_cons_self _ _
          have := hfit2 _ hmem
          rw [pageDecoded_append, List.length_append] at this
          omega
      rw [if_neg h]
      refine List.chain'_cons'.mpr ⟨?_, ih (cur ++ [f]) _ hfit2⟩
      intro y hy
      have hy2 := contLocs_head codec goal rest (cur ++ [f]) pageStart y
        (Option.mem_def.mp hy)
      subst hy2
      right
      constructor
      · rfl
      · simp only
        rw [Nat.mod_eq_of_lt (by omega), Nat.mod_eq_of_lt hcur2lt]
        omega

theorem writtenLocs_chain (codec : Codec) (goal : Nat) (s : List Feature)
    (hfit : ∀ g ∈ paginate goal blockSize s, (pageDecoded g).length < 2 ^ 32) :
    List.Chain' locLe (writtenLocs codec goal s) := by
  rw [writtenLocs]
  refine contLocs_chain codec goal s [] 0 ?_
  rw [show (pageDecoded ([] : List Feature)).length = 0 from rfl]
  exact hfit

theorem pageStream_cons (codec : Codec) (gs : List Feature)
    (rest : List (List Feature)) :
    pageStream ((gs :: rest).map (pageRecOf codec)) =
      serPageHeader (pageRecOf codec gs).1 ++ ((pageRecOf codec gs).2 ++
        pageStream (rest.map (pageRecOf codec))) := by
  simp [pageStream, List.append_assoc]

theorem pageStream_cons_length (codec : Codec) (gs : List Feature)
    (rest : List (List Feature)) :
    (pageStream ((gs :: rest).map (pageRecOf codec))).length =
      PageHeader.serializedSize + (encPage codec gs).length +
        (pageStream (rest.map (pageRecOf codec))).length := by
  rw [pageStream_cons]
  simp only [List.length_append, serPageHeader_length]
  rw [show (pageRecOf codec gs).2 = encPage codec gs from rfl]
  omega


set_option maxHeartbeats 1000000 in
theorem items_decomp (codec : Codec) :
    ∀ (L1 : List (FeatureLocation × Feature)) (post pre : List Feature)
      (gss : List (List Feature)) (pageStart nextPos : Nat)
      (x : FeatureLocation × Feature) (L2 : List (FeatureLocation × Feature)),
      (∀ gs ∈ gss, gs ≠ []) →
      pageItemsGo pageStart pre post ++ streamItems codec nextPos gss =
        L1 ++ x :: L2 →
      (∃ mid post2, post = mid ++ x.2 :: post2 ∧
        x.1 = ⟨pageStart, (pageDecoded (pre ++ mid)).length % 2 ^ 32⟩ ∧
        L2 = pageItemsGo pageStart ((pre ++ mid) ++ [x.2]) post2 ++
          streamItems codec nextPos gss) ∨
      (∃ gss1 g1 g2 gss2 ps,
        gss = gss1 ++ (g1 ++ x.2 :: g2) :: gss2 ∧
        ps = nextPos + (pageStream (gss1.map (pageRecOf codec))).length ∧
        x.1 = ⟨ps, (pageDecoded g1).length % 2 ^ 32⟩ ∧
        L2 = pageItemsGo ps (g1 ++ [x.2]) g2 ++
          streamItems codec (ps + PageHeader.serializedSize +
            (encPage codec (g1 ++ x.2 :: g2)).length) gss2) := by
  intro L1
  induction L1 with
  | nil =>
    intro post pre gss pageStart nextPos x L2 hne heq
    rw [List.nil_append] at heq
    rcases post with _ | ⟨f, post2⟩
    · rcases gss with _ | ⟨gs, gss2⟩
      · simp [pageItemsGo, streamItems] at heq
      · obtain ⟨f0, g2, rfl⟩ :=
          List.exists_cons_of_ne_nil (hne _ (List.mem_cons_self _ _))
        simp only [pageItemsGo, streamItems, List.nil_append,
          List.cons_append] at heq
        rw [List.cons.injEq] at heq
        obtain ⟨hx, hL2⟩ := heq
        subst hx
        right
        refine ⟨[], [], g2, gss2, nextPos, by simp, by simp [pageStream], rfl, ?_⟩
        rw [← hL2]
        simp
    · simp only [pageItemsGo] at heq
      rw [List.cons_append, List.cons.injEq] at heq
      obtain ⟨hx, hL2⟩ := heq
      subst hx
      left
      refine ⟨[], post2, by simp, by simp, ?_⟩
      rw [← hL2]
      simp
  | cons it L1 ih =>
    intro post pre gss pageStart nextPos x L2 hne heq
    rcases post with _ | ⟨f, post2⟩
    · rcases gss with _ | ⟨gs, gss2⟩
      · simp [pageItemsGo, streamItems] at heq
      · obtain ⟨f0, g2, rfl⟩ :=
          List.exists_cons_of_ne_nil (hne _ (List.mem_cons_self _ _))
        simp only [pageItemsGo, streamItems, List.nil_append,
          List.cons_append] at heq
        rw [List.cons.injEq] at heq
        obtain ⟨_, htail⟩ := heq
        rcases ih g2 ([] ++ [f0]) gss2 nextPos
            (nextPos + PageHeader.serializedSize +
              (encPage codec (f0 :: g2)).length) x L2
            (fun g hg => hne g (List.mem_cons_of_mem _ hg)) htail with
          ⟨mid, post2', hpost, hx1, hL2⟩ | ⟨gss1, g1, g2', gss2', ps, hgss, hps, hx1, hL2⟩
        · subst hpost
          right
          refine ⟨[], f0 :: mid, post2', gss2, nextPos, by simp,
            by simp [pageStream], ?_, ?_⟩
          · rw [hx1]
            simp
          · rw [hL2]
            simp
        · subst hgss
          right
          refine ⟨(f0 :: g2) :: gss1, g1, g2', gss2', ps, by simp, ?_, hx1, hL2⟩
          rw [hps, pageStream_cons_length]
          omega
    · simp only [pageItemsGo, List.cons_append] at heq
      rw [List.cons.injEq] at heq
      obtain ⟨_, htail⟩ := heq
      rcases ih post2 (pre ++ [f]) gss pageStart nextPos x L2 hne htail with
        ⟨mid, post2', hpost, hx1, hL2⟩ | hright
      · subst hpost
        left
        refine ⟨f :: mid, post2', by simp, ?_, ?_⟩
        · rw [hx1]
          simp
        · rw [hL2]
          simp
      · right
        exact hright

theorem pageStream_append (codec : Codec) (a b : List (List Feature)) :
    pageStream ((a ++ b).map (pageRecOf codec)) =
      pageStream (a.map (pageRecOf codec)) ++
        pageStream (b.map (pageRecOf codec)) := by
  simp [pageStream]

theorem ffWithinPage_drop (st : PageReaderSt) (a b : Nat)
    (h2 : st.cur.decodedLen = a + st.cur.decodedRemaining.length)
    (hb : b ≤ st.cur.decodedRemaining.length) :
    ffWithinPage st (a + b) =
      some { st with cur :=
        { st.cur with decodedRemaining := st.cur.decodedRemaining.drop b } } := by
  simp only [ffWithinPage, offsetWithin, h2]
  rw [if_pos (by omega), if_pos (by omega),
    show a + b - (a + st.cur.decodedRemaining.length -
      st.cur.decodedRemaining.length) = b from by omega]

theorem ffRead_samePage (zstd : Codec) (c : Bool) (codec : Codec)
    (pageStart : Nat) (pre mid : List Feature) (f : Feature)
    (post2 : List Feature) (gss : List (List Feature)) (st : PageReaderSt)
    (hm : pageMatch codec st pageStart pre (mid ++ f :: post2) gss)
    (hwf : wfFeature f = true)
    (hdec : (pageDecoded (pre ++ (mid ++ f :: post2))).length < 2 ^ 32) :
    ∃ st1 st2,
      ffToLocation zstd c st
        ⟨pageStart, (pageDecoded (pre ++ mid)).length % 2 ^ 32⟩ = some st1 ∧
      readFeatureFromPage st1 = some (f, st2) ∧
      pageMatch codec st2 pageStart ((pre ++ mid) ++ [f]) post2 gss := by
  obtain ⟨stream, pos, pso, dlen, drem⟩ := st
  obtain ⟨h1, h2, h3, h4, h5⟩ := hm
  dsimp only at h1 h2 h3 h4 h5
  subst h1
  subst h2
  subst h3
  subst h4
  subst h5
  have e1 : (pageDecoded (pre ++ (mid ++ f :: post2))).length =
      (pageDecoded pre).length + ((pageDecoded mid).length +
        (pageDecoded (f :: post2)).length) := by
    simp [pageDecoded_append]
  have e2 : (pageDecoded (mid ++ f :: post2)).length =
      (pageDecoded mid).length + (pageDecoded (f :: post2)).length := by
    simp [pageDecoded_append]
  have e3 : (pageDecoded (pre ++ mid)).length =
      (pageDecoded pre).length + (pageDecoded mid).length := by
    simp [pageDecoded_append]
  simp only [ffToLocation]
  rw [if_pos trivial]
  rw [show (pageDecoded (pre ++ mid)).length % 2 ^ 32 =
    (pageDecoded pre).length + (pageDecoded mid).length from by
      rw [e3]; exact Nat.mod_eq_of_lt (by omega)]
  rw [ffWithinPage_drop _ (pageDecoded pre).length (pageDecoded mid).length
    (by dsimp only; omega) (by dsimp only; omega)]
  dsimp only
  have hdrop : (pageDecoded (mid ++ f :: post2)).drop (pageDecoded mid).length =
      pageDecoded (f :: post2) := by
    rw [show pageDecoded (mid ++ f :: post2) =
      pageDecoded mid ++ pageDecoded (f :: post2) from pageDecoded_append _ _]
    exact List.drop_left _ _
  rw [hdrop]
  refine ⟨_, _, rfl, readFeatureFromPage_block _ f post2 hwf rfl, ?_⟩
  refine ⟨rfl, ?_, rfl, ?_, rfl⟩
  · dsimp only
    rw [show ((pre ++ mid) ++ [f]) ++ post2 = pre ++ (mid ++ f :: post2) from by
      simp]
  · dsimp only
    rw [show ((pre ++ mid) ++ [f]) ++ post2 = pre ++ (mid ++ f :: post2) from by
      simp]

set_option maxHeartbeats 800000 in
theorem ffRead_laterPage (zstd : Codec) (c : Bool)
    (hrt : (fileCodec zstd c).Roundtrips)
    (pageStart : Nat) (pre post : List Feature)
    (gss1 : List (List Feature)) (g1 : List Feature) (f : Feature)
    (g2 : List Feature) (gss2 : List (List Feature)) (st : PageReaderSt) (ps : Nat)
    (hm : pageMatch (fileCodec zstd c) st pageStart pre post
      (gss1 ++ (g1 ++ f :: g2) :: gss2))
    (hps : ps = st.pos +
      (pageStream (gss1.map (pageRecOf (fileCodec zstd c)))).length)
    (hwf : wfFeature f = true)
    (hfitg : (encPage (fileCodec zstd c) (g1 ++ f :: g2)).length < 2 ^ 32)
    (hdecg : (pageDecoded (g1 ++ f :: g2)).length < 2 ^ 32) :
    ∃ st1 st2,
      ffToLocation zstd c st ⟨ps, (pageDecoded g1).length % 2 ^ 32⟩ = some st1 ∧
      readFeatureFromPage st1 = some (f, st2) ∧
      pageMatch (fileCodec zstd c) st2 ps (g1 ++ [f]) g2 gss2 := by
  obtain ⟨stream, pos, pso, dlen, drem⟩ := st
  obtain ⟨h1, h2, h3, h4, h5⟩ := hm
  dsimp only at h1 h2 h3 h4 h5 hps
  subst h1
  subst h2
  subst h3
  subst h4
  subst h5
  have hhdr : PageHeader.serializedSize = 12 := rfl
  have eg : (pageDecoded (g1 ++ f :: g2)).length =
      (pageDecoded g1).length + (pageDecoded (f :: g2)).length := by
    simp [pageDecoded_append]
  simp only [ffToLocation]
  rw [if_neg (by omega), if_pos (by omega), if_pos (by omega)]
  rw [show ps - (pso + PageHeader.serializedSize +
      (encPage (fileCodec zstd c) (pre ++ post)).length) =
      (pageStream (gss1.map (pageRecOf (fileCodec zstd c)))).length from by omega]
  rw [pageStream_append, List.drop_left, pageStream_cons]
  rw [openPage_pageRec zstd c hrt ps (g1 ++ f :: g2)
    (pageStream (gss2.map (pageRecOf (fileCodec zstd c)))) hfitg hdecg]
  dsimp only
  rw [show (pageDecoded g1).length % 2 ^ 32 = 0 + (pageDecoded g1).length from by
    rw [Nat.mod_eq_of_lt (by omega)]; omega]
  rw [ffWithinPage_drop _ 0 (pageDecoded g1).length
    (by dsimp only; rw [Nat.mod_eq_of_lt hdecg]; omega)
    (by dsimp only; omega)]
  dsimp only
  have hdrop : (pageDecoded (g1 ++ f :: g2)).drop (pageDecoded g1).length =
      pageDecoded (f :: g2) := by
    rw [show pageDecoded (g1 ++ f :: g2) =
      pageDecoded g1 ++ pageDecoded (f :: g2) from pageDecoded_append _ _]
    exact List.drop_left _ _
  rw [hdrop]
  refine ⟨_, _, rfl, readFeatureFromPage_block _ f g2 hwf rfl, ?_⟩
  refine ⟨rfl, ?_, rfl, ?_, rfl⟩
  · dsimp only
    rw [show (g1 ++ [f]) ++ g2 = g1 ++ f :: g2 from by simp,
      Nat.mod_eq_of_lt hdecg]
  · dsimp only
    rw [show (g1 ++ [f]) ++ g2 = g1 ++ f :: g2 from by simp]

theorem cons_sublist_decomp {α : Type} :
    ∀ {L : List α} {x : α} {T : List α}, List.Sublist (x :: T) L →
      ∃ L1 L2, L = L1 ++ x :: L2 ∧ List.Sublist T L2 := by
  intro L
  induction L with
  | nil =>
    intro x T h
    exact absurd h (by simp)
  | cons y L ihL =>
    intro x T h
    cases h with
    | cons _ h2 =>
      obtain ⟨L1, L2, rfl, hT⟩ := ihL h2
      exact ⟨y :: L1, L2, rfl, hT⟩
    | cons₂ _ h2 =>
      exact ⟨[], L, rfl, h2⟩

set_option maxHeartbeats 1000000 in
theorem selectBboxGo_sim (zstd : Codec) (c : Bool)
    (hrt : (fileCodec zstd c).Roundtrips) :
    ∀ (T : List (FeatureLocation × Feature)) (n : Nat) (pre post : List Feature)
      (gss : List (List Feature)) (pageStart : Nat) (st : PageReaderSt),
      (∀ f ∈ pre ++ post, wfFeature f = true) →
      (pageDecoded (pre ++ post)).length < 2 ^ 32 →
      (∀ gs ∈ gss, (∀ f ∈ gs, wfFeature f = true) ∧ gs ≠ [] ∧
        (encPage (fileCodec zstd c) gs).length < 2 ^ 32 ∧
        (pageDecoded gs).length < 2 ^ 32) →
      pageMatch (fileCodec zstd c) st pageStart pre post gss →
      List.Sublist T (pageItemsGo pageStart pre post ++
        streamItems (fileCodec zstd c) (pageStart + PageHeader.serializedSize +
          (encPage (fileCodec zstd c) (pre ++ post)).length) gss) →
      T.length ≤ n →
      selectBboxGo zstd c n (T.map Prod.fst) st = some (T.map Prod.snd) := by
  intro T
  induction T with
  | nil =>
    intro n pre post gss pageStart st _ _ _ _ _ _
    rcases n with _ | n <;> simp [selectBboxGo]
  | cons x T ih =>
    intro n pre post gss pageStart st hwfp hdecp hpages hm hsub hn
    rcases n with _ | n
    · simp at hn
    obtain ⟨L1, L2, heq, hT⟩ := cons_sublist_decomp hsub
    rcases items_decomp (fileCodec zstd c) L1 post pre gss pageStart
        (pageStart + PageHeader.serializedSize +
          (encPage (fileCodec zstd c) (pre ++ post)).length) x L2
        (fun gs hg => (hpages gs hg).2.1) heq with
      ⟨mid, post2, hpost, hx1, hL2⟩ |
      ⟨gss1, g1, g2, gss2, ps, hgss, hps, hx1, hL2⟩
    · subst hpost
      have hlist : ((pre ++ mid) ++ [x.2]) ++ post2 =
          pre ++ (mid ++ x.2 :: post2) := by simp
      have hwfx : wfFeature x.2 = true := hwfp x.2 (by simp)
      obtain ⟨st1, st2, hff, hread, hm2⟩ := ffRead_samePage zstd c
        (fileCodec zstd c) pageStart pre mid x.2 post2 gss st hm hwfx hdecp
      simp only [List.map_cons, selectBboxGo]
      rw [hx1, hff]
      dsimp only
      rw [hread]
      dsimp only
      rw [ih n ((pre ++ mid) ++ [x.2]) post2 gss pageStart st2
        (by rw [hlist]; exact hwfp)
        (by rw [hlist]; exact hdecp)
        hpages hm2
        (by
          rw [hL2] at hT
          rw [hlist]
          exact hT)
        (by simpa using hn)]
      simp
    · subst hgss
      have hlist : (g1 ++ [x.2]) ++ g2 = g1 ++ x.2 :: g2 := by simp
      have hgmem : g1 ++ x.2 :: g2 ∈ gss1 ++ (g1 ++ x.2 :: g2) :: gss2 := by
        simp
      obtain ⟨hwfg, _, hfitg, hdecg⟩ := hpages _ hgmem
      have hwfx : wfFeature x.2 = true := hwfg x.2 (by simp)
      obtain ⟨st1, st2, hff, hread, hm2⟩ := ffRead_laterPage zstd c hrt
        pageStart pre post gss1 g1 x.2 g2 gss2 st ps hm
        (by rw [hm.2.2.2.1]; exact hps) hwfx hfitg hdecg
      simp only [List.map_cons, selectBboxGo]
      rw [hx1, hff]
      dsimp only
      rw [hread]
      dsimp only
      rw [ih n (g1 ++ [x.2]) g2 gss2 ps st2
        (by rw [hlist]; exact hwfg)
        (by rw [hlist]; exact hdecg)
        (fun gs hg => hpages gs (by
          refine List.mem_append_right _ (List.mem_cons_of_mem _ hg)))
        hm2
        (by
          rw [hL2] at hT
          rw [hlist]
          exact hT)
        (by simpa using hn)]
      simp

theorem contLocs_featureOffset_lt (codec : Codec) (goal : Nat) :
    ∀ (fs : List Feature) (pageStart : Nat) (cur : List Feature),
      ∀ l ∈ contLocs codec goal fs pageStart cur, l.featureOffset < 2 ^ 32 := by
  intro fs
  induction fs with
  | nil => intro pageStart cur l hl; simp [contLocs] at hl
  | cons f rest ih =>
    intro pageStart cur l hl
    simp only [contLocs, List.mem_cons] at hl
    rcases hl with rfl | hl
    · exact mod_lt_2_32 _
    · by_cases h : (pageDecoded (cur ++ [f])).length > goal
      · rw [if_pos h] at hl
        exact ih _ _ l hl
      · rw [if_neg h] at hl
        exact ih _ _ l hl

theorem writtenLeaves_wf (codec : Codec) (goal : Nat) (s : List Feature)
    (hwfs : ∀ f ∈ s, wfFeature f = true)
    (hloc : ∀ l ∈ writtenLocs codec goal s, l.pageStartingOffset < 2 ^ 64) :
    ∀ n ∈ writtenLeaves codec goal s, wfNode n = true := by
  intro n hn
  simp only [writtenLeaves, zipLeaves, List.mem_map] at hn
  obtain ⟨p, hp, rfl⟩ := hn
  have h1 := (List.of_mem_zip hp).1
  have h2 := (List.of_mem_zip hp).2
  rw [List.mem_map] at h1
  obtain ⟨f, hf, hfb⟩ := h1
  rw [wfNode_iff]
  refine ⟨?_, hloc _ h2, contLocs_featureOffset_lt codec goal s 0 [] _ h2⟩
  show wfBounds p.1 = true
  rw [← hfb]
  exact featureBounds_wf (hwfs f hf)

theorem zipLeaves_contItems (codec : Codec) (goal : Nat) :
    ∀ (fs : List Feature) (pageStart : Nat) (cur : List Feature),
      zipLeaves (fs.map featureBounds) (contLocs codec goal fs pageStart cur) =
        (contItems codec goal fs pageStart cur).map
          (fun p => (⟨featureBounds p.2, p.1⟩ : Node)) := by
  intro fs
  induction fs with
  | nil => intro pageStart cur; simp [zipLeaves, contLocs, contItems]
  | cons f rest ih =>
    intro pageStart cur
    simp only [contLocs, contItems, List.map_cons, zipLeaves, List.zip_cons_cons]
    by_cases h : (pageDecoded (cur ++ [f])).length > goal
    · simp only [if_pos h]
      congr 1
      have := ih (pageStart + (encPage codec (cur ++ [f])).length +
        PageHeader.serializedSize) []
      simpa [zipLeaves] using this
    · simp only [if_neg h]
      congr 1
      have := ih pageStart (cur ++ [f])
      simpa [zipLeaves] using this

theorem filter_offset_mapNode (X : List (FeatureLocation × Feature))
    (bbox : Bounds) :
    (((X.map (fun p => (⟨featureBounds p.2, p.1⟩ : Node))).filter
        (fun n => n.bounds.intersects bbox)).map (fun n => n.offset)) =
      (X.filter (fun p => (featureBounds p.2).intersects bbox)).map Prod.fst := by
  induction X with
  | nil => simp
  | cons p X ih =>
    by_cases h : (featureBounds p.2).intersects bbox <;> simp [h, ih]

theorem filter_snd_comm (X : List (FeatureLocation × Feature))
    (q : Feature → Bool) :
    ((X.filter (fun p => q p.2)).map Prod.snd) = (X.map Prod.snd).filter q := by
  induction X with
  | nil => simp
  | cons p X ih =>
    by_cases h : q p.2 <;> simp [h, ih]

theorem filter_fst_sub (X : List (FeatureLocation × Feature))
    (q : (FeatureLocation × Feature) → Bool) :
    List.Sublist ((X.filter q).map Prod.fst) (X.map Prod.fst) :=
  List.Sublist.map Prod.fst (List.filter_sublist X)

theorem contItems_length (codec : Codec) (goal : Nat) (fs : List Feature)
    (pageStart : Nat) (cur : List Feature) :
    (contItems codec goal fs pageStart cur).length = fs.length := by
  have := congrArg List.length (contItems_snd codec goal fs pageStart cur)
  simpa using this

theorem filter_snd_comm2 (X : List (FeatureLocation × Feature)) (bbox : Bounds) :
    ((X.filter (fun p => (featureBounds p.2).intersects bbox)).map Prod.snd) =
      (X.map Prod.snd).filter (fun f => (featureBounds f).intersects bbox) := by
  induction X with
  | nil => simp
  | cons p X ih =>
    by_cases h : (featureBounds p.2).intersects bbox <;> simp [h, ih]

set_option maxHeartbeats 2000000 in
/-- Bounded query over the writer output: the traversal yields the
locations of the intersecting features in page order, those locations
are sorted, and the read returns exactly the intersecting features of
the Hilbert-sorted list. -/
theorem selectBbox_writeFile (zstd : Codec) (c : Bool) (goal : Nat)
    (features : List Feature) (bbox : Bounds)
    (hrt : (fileCodec zstd c).Roundtrips)
    (hwf : ∀ f ∈ features, wfFeature f = true)
    (hguard : ¬(2 ≤ features.length ∧
      ((extentOf features).unscaledLngWidth = 0 ∨
        (extentOf features).unscaledLatHeight = 0)))
    (hfit : ∀ p ∈ contPages (fileCodec zstd c) goal (hilbertSorted features) [],
      p.1.encodedPageLength < 2 ^ 32)
    (hdec : ∀ p ∈ paginate goal blockSize (hilbertSorted features),
      (pageDecoded p).length < 2 ^ 32)
    (hcount : features.length < 2 ^ 64)
    (hloc : ∀ l ∈ writtenLocs (fileCodec zstd c) goal (hilbertSorted features),
      l.pageStartingOffset < 2 ^ 64) :
    (writeFile zstd c goal features).bind
        (fun file => selectBbox zstd file bbox) =
      some ((hilbertSorted features).filter
        (fun f => (featureBounds f).intersects bbox)) ∧
    ∃ locs,
      (writeFile zstd c goal features).bind (fun file =>
        (parseHeader file).bind (fun pr =>
          rtreeSelectBbox pr.1.featureCount
            (pr.2.take (indexSize pr.1.featureCount)) bbox)) = some locs ∧
      List.Chain' locLe locs := by
  rw [writeFile_norm zstd c goal features hwf hguard hfit]
  simp only [Option.some_bind]
  have hplen : (writtenPages (fileCodec zstd c) goal
      (hilbertSorted features)).length < 2 ^ 64 := by
    rw [writtenPages]
    by_cases h : (contPages (fileCodec zstd c) goal
        (hilbertSorted features) []).isEmpty
    · simp only [if_pos h]
      norm_num
    · rw [if_neg h]
      have h2 := contPages_length_le (fileCodec zstd c) goal
        (hilbertSorted features) []
      simp at h2
      have h3 := hilbertSorted_length features
      omega
  by_cases hzero : features.length = 0
  · have hf0 : features = [] := List.length_eq_zero.mp hzero
    subst hf0
    rw [show writtenPages (fileCodec zstd c) goal (hilbertSorted []) =
      [(⟨0, 0, 0⟩, [])] from rfl]
    rw [show hilbertSorted ([] : List Feature) = [] from rfl]
    rw [if_pos (by simp : List.length ([] : List Feature) = 0)]
    simp only [List.length_cons, List.length_nil, List.append_nil, Nat.zero_add]
    have hh0 := parseHeader_ser (⟨c, 1, 0⟩ : Header)
      (pageStream [(⟨0, 0, 0⟩, [])]) (by norm_num) (by norm_num)
    simp only [selectBbox, hh0, Option.some_bind]
    rw [show indexSize 0 = 0 from rfl, List.drop_zero, List.take_zero]
    rw [show rtreeSelectBbox 0 ([] : List Byte) bbox = some [] from rfl]
    have hph0 := parsePageHeader_ser (⟨0, 0, 0⟩ : PageHeader) [] (by norm_num)
      (by norm_num) (by norm_num)
    have hps : pageStream [((⟨0, 0, 0⟩ : PageHeader), ([] : List Byte))] =
        serPageHeader ⟨0, 0, 0⟩ ++ [] := by
      simp [pageStream]
    simp only [newPageReader, openPage, hps, hph0]
    rw [show takeN (⟨0, 0, 0⟩ : PageHeader).encodedPageLength ([] : List Byte) =
      some ([], []) from rfl]
    refine ⟨by simp [selectBboxGo], [], by simp, List.chain'_nil⟩
  · have hn1 : 1 ≤ features.length := by omega
    have hslen : (hilbertSorted features).length = features.length :=
      hilbertSorted_length features
    have hflat : (paginate goal blockSize (hilbertSorted features)).flatten =
        hilbertSorted features :=
      paginate_flatten goal blockSize (hilbertSorted features)
    have hgssne : paginate goal blockSize (hilbertSorted features) ≠ [] := by
      intro h0
      rw [h0] at hflat
      simp only [List.flatten_nil] at hflat
      rw [← hflat] at hslen
      simp only [List.length_nil] at hslen
      omega
    obtain ⟨gs1, gss2, hgss⟩ := List.exists_cons_of_ne_nil hgssne
    have hcont : contPages (fileCodec zstd c) goal (hilbertSorted features) [] =
        (gs1 :: gss2).map (pageRecOf (fileCodec zstd c)) := by
      rw [contPages_eq_paginate, hgss]
    have hpgs : writtenPages (fileCodec zstd c) goal (hilbertSorted features) =
        (gs1 :: gss2).map (pageRecOf (fileCodec zstd c)) := by
      rw [writtenPages, hcont]
      simp
    have hgmem : ∀ gs ∈ gs1 :: gss2, (∀ f ∈ gs, wfFeature f = true) ∧ gs ≠ [] ∧
        (encPage (fileCodec zstd c) gs).length < 2 ^ 32 ∧
        (pageDecoded gs).length < 2 ^ 32 := by
      intro gs hgs
      have hgs2 : gs ∈ paginate goal blockSize (hilbertSorted features) := by
        rw [hgss]
        exact hgs
      refine ⟨?_, paginate_ne_nil goal blockSize (hilbertSorted features) gs hgs2,
        ?_, hdec gs hgs2⟩
      · intro f hf
        refine hwf f (mem_hilbertSorted ?_)
        rw [← hflat]
        exact List.mem_flatten.mpr ⟨gs, hgs2, hf⟩
      · have hp := hfit (pageRecOf (fileCodec zstd c) gs)
          (by rw [hcont]; exact List.mem_map_of_mem _ hgs)
        simpa [pageRecOf] using hp
    have hleavlen : (writtenLeaves (fileCodec zstd c) goal
        (hilbertSorted features)).length = features.length := by
      rw [writtenLeaves_length, hslen]
    have hidxlen : (indexBytesOf (writtenLeaves (fileCodec zstd c) goal
        (hilbertSorted features))).length = indexSize features.length := by
      rw [indexBytesOf_length (by rw [hleavlen]; omega), hleavlen]
    rw [if_neg hzero, hpgs, List.append_assoc]
    have hh := parseHeader_ser
      (⟨c, ((gs1 :: gss2).map (pageRecOf (fileCodec zstd c))).length,
        features.length⟩ : Header)
      (indexBytesOf (writtenLeaves (fileCodec zstd c) goal
          (hilbertSorted features)) ++
        pageStream ((gs1 :: gss2).map (pageRecOf (fileCodec zstd c))))
      (by rw [← hpgs]; exact hplen) hcount
    simp only [selectBbox, hh, Option.some_bind]
    rw [← hidxlen, List.take_left, List.drop_left]
    have hwfleaves : ∀ n ∈ writtenLeaves (fileCodec zstd c) goal
        (hilbertSorted features), wfNode n = true :=
      writtenLeaves_wf (fileCodec zstd c) goal (hilbertSorted features)
        (fun f hf => hwf f (mem_hilbertSorted hf)) hloc
    have hrtree : rtreeSelectBbox features.length
        (indexBytesOf (writtenLeaves (fileCodec zstd c) goal
          (hilbertSorted features))) bbox =
        some (((writtenLeaves (fileCodec zstd c) goal
            (hilbertSorted features)).filter
          (fun n => n.bounds.intersects bbox)).map (fun n => n.offset)) := by
      rw [indexBytesOf_eq,
        show features.length = (writtenLeaves (fileCodec zstd c) goal
          (hilbertSorted features)).length from hleavlen.symm]
      exact rtreeSelectBbox_filter (by rw [hleavlen]; omega) hwfleaves bbox
    have hleq : writtenLeaves (fileCodec zstd c) goal (hilbertSorted features) =
        (contItems (fileCodec zstd c) goal (hilbertSorted features) 0 []).map
          (fun p => (⟨featureBounds p.2, p.1⟩ : Node)) := by
      rw [writtenLeaves, writtenLocs]
      exact zipLeaves_contItems (fileCodec zstd c) goal (hilbertSorted features)
        0 []
    have hlocs : ((writtenLeaves (fileCodec zstd c) goal
          (hilbertSorted features)).filter
        (fun n => n.bounds.intersects bbox)).map (fun n => n.offset) =
        ((contItems (fileCodec zstd c) goal (hilbertSorted features) 0 []).filter
          (fun p => (featureBounds p.2).intersects bbox)).map Prod.fst := by
      rw [hleq, filter_offset_mapNode]
    rw [hrtree, hlocs]
    have hstream : pageStream ((gs1 :: gss2).map (pageRecOf (fileCodec zstd c))) =
        serPageHeader (pageRecOf (fileCodec zstd c) gs1).1 ++
        ((pageRecOf (fileCodec zstd c) gs1).2 ++
          pageStream (gss2.map (pageRecOf (fileCodec zstd c)))) := by
      simp [pageStream, List.append_assoc]
    obtain ⟨hwf1, hne1, hfit1, hdec1⟩ := hgmem gs1 (List.mem_cons_self _ _)
    have hopen := openPage_pageRec zstd c hrt 0 gs1
      (pageStream (gss2.map (pageRecOf (fileCodec zstd c)))) hfit1 hdec1
    simp only [newPageReader, hstream, hopen]
    have hX : contItems (fileCodec zstd c) goal (hilbertSorted features) 0 [] =
        pageItemsGo 0 [] gs1 ++ streamItems (fileCodec zstd c)
          (0 + PageHeader.serializedSize +
            (encPage (fileCodec zstd c) ([] ++ gs1)).length) gss2 := by
      rw [contItems_streamItems, hgss]
      simp only [streamItems, List.nil_append]
    have hsub : List.Sublist
        ((contItems (fileCodec zstd c) goal (hilbertSorted features) 0 []).filter
          (fun p => (featureBounds p.2).intersects bbox))
        (pageItemsGo 0 [] gs1 ++ streamItems (fileCodec zstd c)
          (0 + PageHeader.serializedSize +
            (encPage (fileCodec zstd c) ([] ++ gs1)).length) gss2) := by
      rw [← hX]
      exact List.filter_sublist _
    have hTlen : ((contItems (fileCodec zstd c) goal
        (hilbertSorted features) 0 []).filter
          (fun p => (featureBounds p.2).intersects bbox)).length ≤
        features.length := by
      refine le_trans (List.length_filter_le _ _) ?_
      rw [contItems_length, hslen]
    have hmatch : pageMatch (fileCodec zstd c)
        ⟨pageStream (gss2.map (pageRecOf (fileCodec zstd c))),
          0 + PageHeader.serializedSize +
            (encPage (fileCodec zstd c) gs1).length,
          ⟨0, (pageDecoded gs1).length % 2 ^ 32, pageDecoded gs1⟩⟩
        0 [] gs1 gss2 := by
      refine ⟨rfl, ?_, rfl, by rw [List.nil_append], rfl⟩
      dsimp only
      rw [List.nil_append]
      exact Nat.mod_eq_of_lt hdec1
    have hsim := selectBboxGo_sim zstd c hrt
      ((contItems (fileCodec zstd c) goal (hilbertSorted features) 0 []).filter
        (fun p => (featureBounds p.2).intersects bbox))
      features.length [] gs1 gss2 0 _
      (by
        intro f hf
        rw [List.nil_append] at hf
        exact hwf1 f hf)
      (by rw [List.nil_append]; exact hdec1)
      (fun gs hg => hgmem gs (List.mem_cons_of_mem _ hg))
      hmatch hsub hTlen
    rw [hsim]
    have hsnd : ((contItems (fileCodec zstd c) goal
          (hilbertSorted features) 0 []).filter
        (fun p => (featureBounds p.2).intersects bbox)).map Prod.snd =
        (hilbertSorted features).filter
          (fun f => (featureBounds f).intersects bbox) := by
      rw [filter_snd_comm2, contItems_snd]
    refine ⟨by rw [hsnd], _, rfl, ?_⟩
    have hchain : List.Chain' locLe (writtenLocs (fileCodec zstd c) goal
        (hilbertSorted features)) :=
      writtenLocs_chain (fileCodec zstd c) goal (hilbertSorted features) hdec
    refine List.Chain'.sublist hchain ?_
    rw [writtenLocs, ← contItems_fst (fileCodec zstd c) goal
      (hilbertSorted features) 0 []]
    exact filter_fst_sub _ _

/-- C2: for every written feature set and every query rectangle, a
bounded query returns exactly the features whose bounds intersect the
rectangle — concretely the intersecting members of the Hilbert-sorted
list, a permutation of the intersecting members of the input, so each
qualifying feature appears exactly once and no other feature appears. -/
theorem claim_C2 (zstd : Codec) (c : Bool) (goal : Nat)
    (features : List Feature) (bbox : Bounds)
    (hrt : (fileCodec zstd c).Roundtrips)
    (hwf : ∀ f ∈ features, wfFeature f = true)
    (hguard : ¬(2 ≤ features.length ∧
      ((extentOf features).unscaledLngWidth = 0 ∨
        (extentOf features).unscaledLatHeight = 0)))
    (hfit : ∀ p ∈ contPages (fileCodec zstd c) goal (hilbertSorted features) [],
      p.1.encodedPageLength < 2 ^ 32)
    (hdec : ∀ p ∈ paginate goal blockSize (hilbertSorted features),
      (pageDecoded p).length < 2 ^ 32)
    (hcount : features.length < 2 ^ 64)
    (hloc : ∀ l ∈ writtenLocs (fileCodec zstd c) goal (hilbertSorted features),
      l.pageStartingOffset < 2 ^ 64) :
    (writeFile zstd c goal features).bind
        (fun file => selectBbox zstd file bbox) =
      some ((hilbertSorted features).filter
        (fun f => (featureBounds f).intersects bbox)) ∧
    ((hilbertSorted features).filter
        (fun f => (featureBounds f).intersects bbox)).Perm
      (features.filter (fun f => (featureBounds f).intersects bbox)) := by
  refine ⟨(selectBbox_writeFile zstd c goal features bbox hrt hwf hguard hfit
    hdec hcount hloc).1, ?_⟩
  refine List.Perm.filter _ ?_
  rw [hilbertSorted_eq]
  exact List.perm_insertionSort _ _

set_option maxHeartbeats 1000000 in
theorem claim_C2_witness :
    (writeFile identityCodec false defaultPageSizeGoal fourPoints).bind
        (fun file => selectBbox identityCodec file rect12) =
      some ((hilbertSorted fourPoints).filter
        (fun f => (featureBounds f).intersects rect12)) ∧
    ((hilbertSorted fourPoints).filter
        (fun f => (featureBounds f).intersects rect12)).Perm
      (fourPoints.filter (fun f => (featureBounds f).intersects rect12)) :=
  claim_C2 identityCodec false defaultPageSizeGoal fourPoints rect12
    (fun bs => rfl) (by decide) (by decide) (by decide) (by decide) (by decide)
    (by decide)

/-- C3: across a bounded query over a written file the locations yielded
by the queue-based index traversal are non-decreasing in the
lexicographic order on page offset then feature offset, and consequently
the forward-only fast-forward of the page reader completes the whole
query without any rewind-assertion path being taken. -/
theorem claim_C3 (zstd : Codec) (c : Bool) (goal : Nat)
    (features : List Feature) (bbox : Bounds)
    (hrt : (fileCodec zstd c).Roundtrips)
    (hwf : ∀ f ∈ features, wfFeature f = true)
    (hguard : ¬(2 ≤ features.length ∧
      ((extentOf features).unscaledLngWidth = 0 ∨
        (extentOf features).unscaledLatHeight = 0)))
    (hfit : ∀ p ∈ contPages (fileCodec zstd c) goal (hilbertSorted features) [],
      p.1.encodedPageLength < 2 ^ 32)
    (hdec : ∀ p ∈ paginate goal blockSize (hilbertSorted features),
      (pageDecoded p).length < 2 ^ 32)
    (hcount : features.length < 2 ^ 64)
    (hloc : ∀ l ∈ writtenLocs (fileCodec zstd c) goal (hilbertSorted features),
      l.pageStartingOffset < 2 ^ 64) :
    ∃ locs,
      (writeFile zstd c goal features).bind (fun file =>
        (parseHeader file).bind (fun pr =>
          rtreeSelectBbox pr.1.featureCount
            (pr.2.take (indexSize pr.1.featureCount)) bbox)) = some locs ∧
      List.Chain' locLe locs ∧
      ((writeFile zstd c goal features).bind
        (fun file => selectBbox zstd file bbox)).isSome = true := by
  obtain ⟨hread, locs, htrav, hchain⟩ := selectBbox_writeFile zstd c goal
    features bbox hrt hwf hguard hfit hdec hcount hloc
  exact ⟨locs, htrav, hchain, by rw [hread]; rfl⟩

set_option maxHeartbeats 1000000 in
theorem claim_C3_witness :
    ∃ locs,
      (writeFile identityCodec false defaultPageSizeGoal fourPoints).bind
        (fun file =>
          (parseHeader file).bind (fun pr =>
            rtreeSelectBbox pr.1.featureCount
              (pr.2.take (indexSize pr.1.featureCount)) rect12)) = some locs ∧
      List.Chain' locLe locs ∧
      ((writeFile identityCodec false defaultPageSizeGoal fourPoints).bind
        (fun file => selectBbox identityCodec file rect12)).isSome = true :=
  claim_C3 identityCodec false defaultPageSizeGoal fourPoints rect12
    (fun bs => rfl) (by decide) (by decide) (by decide) (by decide) (by decide)
    (by decide)
